import Mathlib

/-!
# Route tree of the `web` package (`src/web/router.go`)

A shallow embedding of the router: the `node` tree, `router.addRoute`,
`router.findRoute`, `node.childOrCreate` and `node.childOf`, followed by the
properties proved about them.

Conventions of the embedding

* A Go `string` is a `List Char` (`Str`); the paths handled here are taken to be
  valid UTF-8, so that byte tests such as `path[0] == '/'` are tests on the
  first character.
* A Go `map[string]T` is `Option (Str → Option T)`: `none` is the `nil` map,
  `some f` a map whose entry for `k` is `f k`.  Two maps with the same entries
  are equal.
* A `*node` that is owned by its parent is the sub-term itself; a mutation
  through the pointer is the replacement of that sub-term (`node.withChild`).
* A `panic` is a value of `Panic`; `addRoute` returns the router as the panic
  leaves it together with the panic, if any.
* A value of the function type `HandleFunc` is `none` for `nil` and `some k`
  for a function, identified by the number `k`.
* The standard `regexp` package is a parameter (`Regexp`); only the fixed
  expression `:(.*?)\((.*)\)` of the source is evaluated here (`matchRegs`).
-/

namespace web

/-- A Go string. -/
abbrev Str := List Char

/-- A value of the function type `HandleFunc` (`server.go`): `none` is the
`nil` function, `some k` a function, identified by the number `k`. -/
abbrev HandleFunc := Option Nat

/-- The part of the standard `regexp` package that the router calls on the
patterns written by the user: whether `regexp.MustCompile pattern` returns, and
the value of `MatchString` for the compiled pattern on a text. -/
structure Regexp where
  /-- Whether `regexp.MustCompile` accepts the pattern (it panics otherwise). -/
  compiles : Str → Bool
  /-- The result of `regexp.MustCompile(pattern).MatchString(text)`. -/
  matchString : Str → Str → Bool

/-- The values with which the router panics. -/
inductive Panic where
  /-- `"web：路径不能为空字符串"`: the path is the empty string. -/
  | emptyPath
  /-- `"web：路径必须以 / 开头"`: the path does not start with `/`. -/
  | noLeadingSlash
  /-- `"web：路径不能以 / 结尾"`: the path ends with `/`. -/
  | trailingSlash
  /-- `"web：路径不能出现连续的 /"`: an empty segment. -/
  | emptySegment
  /-- `"web: 路径冲突，重复注册[%s]"`: a handler is already bound at the path. -/
  | pathConflict (path : Str)
  /-- `"web：不允许同时注册路径参数，通配符路径或正则路径，已有通配符路径"`. -/
  | hasStarChild
  /-- `"web：不允许同时注册路径参数，通配符路径或正则路径，已有参数路径"`. -/
  | hasParamChild
  /-- `"web：不允许同时注册路径参数，通配符路径或正则路径，已有正则路径"`. -/
  | hasRegChild
  /-- `"web: 路径冲突，已注册[%s]，重复注册[%s]"`: the existing and the incoming token. -/
  | childConflict (existing incoming : Str)
  /-- The panic of `regexp.MustCompile` on a pattern it rejects. -/
  | regexpCompile (pattern : Str)
  /-- A run-time error: index or slice bound out of range. -/
  | indexOutOfRange
  /-- A run-time error: nil pointer dereference. -/
  | nilDereference
  deriving DecidableEq, Repr

/-- The `node` of `router.go`. -/
structure node where
  /-- The segment text of the node. -/
  path : Str
  /-- The static children, by segment text. -/
  children : Option (Str → Option node)
  /-- The wildcard child. -/
  starChild : Option node
  /-- The named-parameter child. -/
  paramChild : Option node
  /-- The regular-expression child. -/
  regChild : Option node
  /-- The handler bound to the node (`none`: the field is `nil`). -/
  handler : HandleFunc

/-- The `router` of `router.go`: one tree per HTTP method. -/
structure router where
  /-- The root of each method. -/
  trees : Str → Option node

/-- The `matchInfo` of `router.go`. -/
structure matchInfo where
  /-- The node reached. -/
  n : node
  /-- The parameters bound on the way. -/
  pathParams : Option (Str → Option Str)

/-- The empty router, `newRouter()`. -/
def newRouter : router := ⟨fun _ => none⟩

/-- The assignment `r.trees[method] = root`. -/
def router.setTree (r : router) (method : Str) (root : node) : router :=
  ⟨fun m => if m = method then some root else r.trees m⟩

/-- The literal `&node{path: path}`. -/
def newNode (path : Str) : node := ⟨path, none, none, none, none, none⟩

/-- The assignment `m[k] = v` on a map that may be absent (the source creates
the map with `make` before it writes to it). -/
def mapSet {α : Type} (m : Option (Str → Option α)) (k : Str) (v : α) :
    Option (Str → Option α) :=
  some (fun x => if x = k then some v else
    match m with
    | some f => f x
    | none => none)

/-- The read `m[k]` of a map that may be `nil`. -/
def mapGet {α : Type} (m : Option (Str → Option α)) (k : Str) : Option α :=
  match m with
  | some f => f k
  | none => none

/-! ### Strings -/

/-- The call `strings.Split(s, "/")`. -/
def split : Str → List Str
  | [] => [[]]
  | c :: cs =>
    if c = '/' then [] :: split cs
    else
      match split cs with
      | [] => [[c]]
      | s :: ss => (c :: s) :: ss

/-- The call `strings.Trim(s, "/")`. -/
def trim (s : Str) : Str :=
  ((s.dropWhile (fun c => c = '/')).reverse.dropWhile (fun c => c = '/')).reverse

/-- The tail `(.*)\)` of the expression, tried at the character after `(`:
the greedy group takes as many characters other than a newline as it can
while a `)` still follows it.  The result is the text of the group. -/
def greedyGroup : Str → Option Str
  | [] => none
  | c :: cs =>
    if c = '\n' then none
    else
      match greedyGroup cs with
      | some g => some (c :: g)
      | none => if c = ')' then some [] else none

/-- The part `(.*?)\((.*)\)` of the expression, tried at the character after
`:`: the lazy group takes as few characters other than a newline as it can.
The result is the text of the two groups. -/
def lazyGroup : Str → Option (Str × Str)
  | [] => none
  | c :: cs =>
    match (if c = '(' then greedyGroup cs else none) with
    | some g2 => some ([], g2)
    | none =>
      if c = '\n' then none
      else
        match lazyGroup cs with
        | some (g1, g2) => some (c :: g1, g2)
        | none => none

/-- The call `matchRegs.FindStringSubmatch(s)` for
`matchRegs = regexp.MustCompile(":(.*?)\((.*)\)")`: the leftmost match, as a
backtracking search finds it.  `none` is the `nil` slice; `some (a, b)` stands
for `regs[1] = a` and `regs[2] = b`. -/
def matchRegs : Str → Option (Str × Str)
  | [] => none
  | c :: cs =>
    match (if c = ':' then lazyGroup cs else none) with
    | some regs => some regs
    | none => matchRegs cs

/-! ### Nodes -/

/-- The field of a node in which a child lives. -/
inductive Slot where
  /-- The entry `children[key]`. -/
  | static (key : Str)
  /-- The field `starChild`. -/
  | star
  /-- The field `paramChild`. -/
  | param
  /-- The field `regChild`. -/
  | reg
  deriving DecidableEq, Repr

/-- The child of a node in a slot. -/
def node.child (n : node) : Slot → Option node
  | .static key => mapGet n.children key
  | .star => n.starChild
  | .param => n.paramChild
  | .reg => n.regChild

/-- The node after its child in a slot was written or mutated: the child is now `c`. -/
def node.withChild (n : node) (s : Slot) (c : node) : node :=
  match s with
  | .static key => { n with children := mapSet n.children key c }
  | .star => { n with starChild := some c }
  | .param => { n with paramChild := some c }
  | .reg => { n with regChild := some c }

/-- The method `childOrCreate`.  The result is the slot of the child returned
and that child, the existing one or a new one; the receiver after the call is
`n.withChild slot child`.  Every panic happens before the receiver is written. -/
def childOrCreate (re : Regexp) (n : node) (path : Str) : Except Panic (Slot × node) :=
  match matchRegs path with
  | some regs =>
    if n.starChild.isSome then .error .hasStarChild
    else if n.paramChild.isSome then .error .hasParamChild
    else
      match n.regChild with
      | some c =>
        if c.path ≠ path then .error (.childConflict c.path path)
        else if re.compiles regs.2 = false then .error (.regexpCompile regs.2)
        else .ok (.reg, c)
      | none =>
        if re.compiles regs.2 = false then .error (.regexpCompile regs.2)
        else .ok (.reg, newNode path)
  | none =>
    match path with
    | [] => .error .indexOutOfRange
    | c0 :: _ =>
      if c0 = ':' then
        if n.starChild.isSome then .error .hasStarChild
        else if n.regChild.isSome then .error .hasRegChild
        else
          match n.paramChild with
          | some c =>
            if c.path ≠ path then .error (.childConflict c.path path)
            else .ok (.param, c)
          | none => .ok (.param, newNode path)
      else if path = ['*'] then
        if n.paramChild.isSome then .error .hasParamChild
        else if n.regChild.isSome then .error .hasRegChild
        else
          match n.starChild with
          | some c => .ok (.star, c)
          | none => .ok (.star, newNode path)
      else
        match mapGet n.children path with
        | some c => .ok (.static path, c)
        | none => .ok (.static path, newNode path)

/-- The result of `childOf` when no static child has the key: the regular
expression child, else the parameter child, else the wildcard child. -/
def childOfSpecial (n : node) : Option node × Option node × Bool × Bool × Bool :=
  if n.regChild.isSome then (n.regChild, n.starChild, true, false, true)
  else if n.paramChild.isSome then (n.paramChild, n.starChild, false, true, true)
  else (n.starChild, n.starChild, false, false, n.starChild.isSome)

/-- The method `childOf`: the child, the wildcard child of the receiver,
whether the child is the regular-expression child, whether it is the
parameter child, and whether a child was found. -/
def childOf (n : node) (path : Str) : Option node × Option node × Bool × Bool × Bool :=
  match n.children with
  | none => childOfSpecial n
  | some m =>
    match m path with
    | none => childOfSpecial n
    | some child => (some child, n.starChild, false, false, true)

/-! ### Registration -/

/-- The loop of `addRoute` over the segments, and the binding of the handler
that follows it, from the node `root`.  The result is `root` as the run leaves
it and the panic that ended the run, if any. -/
def addSegs (re : Regexp) (path : Str) (handleFunc : HandleFunc) :
    List Str → node → node × Option Panic
  | [], root =>
    if root.handler.isSome then (root, some (.pathConflict path))
    else ({ root with handler := handleFunc }, none)
  | seg :: segs, root =>
    if seg = [] then (root, some .emptySegment)
    else
      match childOrCreate re root seg with
      | .error e => (root, some e)
      | .ok (slot, child) =>
        let res := addSegs re path handleFunc segs child
        (root.withChild slot res.1, res.2)

/-- The method `addRoute`.  The result is the router after the call and the
panic of the call, if any (`none`: the call returned). -/
def addRoute (re : Regexp) (r : router) (method : Str) (path : Str)
    (handleFunc : HandleFunc) : router × Option Panic :=
  if path = [] then (r, some .emptyPath)
  else
    let root := (r.trees method).getD (newNode ['/'])
    let r1 := if (r.trees method).isSome then r else r.setTree method root
    if path.head? ≠ some '/' then (r1, some .noLeadingSlash)
    else if path = ['/'] then
      if root.handler.isSome then (r1, some (.pathConflict ['/']))
      else (r1.setTree method { root with handler := handleFunc }, none)
    else if path.getLast? = some '/' then (r1, some .trailingSlash)
    else
      let res := addSegs re path handleFunc (split path).tail root
      (r1.setTree method res.1, res.2)

/-! ### Lookup -/

/-- What a block of the loop body of `findRoute` does next. -/
inductive Flow (α : Type) where
  /-- The block panics. -/
  | panic (e : Panic) : Flow α
  /-- The function returns (`none`: `nil, false`). -/
  | ret (r : Option matchInfo) : Flow α
  /-- The body goes on with the value. -/
  | next (a : α) : Flow α

/-- The block `if isRegChild { ... }` of `findRoute`. -/
def regBlock (re : Regexp) (child : node) (seg : Str) (isRegChild : Bool)
    (pathParams : Option (Str → Option Str)) (starNodeTemp : Option node) :
    Flow (Option (Str → Option Str)) :=
  if isRegChild then
    match matchRegs child.path with
    | none => .panic .indexOutOfRange
    | some regs =>
      if re.compiles regs.2 = false then .panic (.regexpCompile regs.2)
      else
        let matched := re.matchString regs.2 seg
        if matched = false then
          match starNodeTemp with
          | some star => .ret (some ⟨star, pathParams⟩)
          | none => .ret none
        else .next (mapSet pathParams regs.1 seg)
  else .next pathParams

/-- The block `if isParamChild { ... }` of `findRoute`. -/
def paramBlock (child : node) (seg : Str) (isParamChild : Bool)
    (pathParams : Option (Str → Option Str)) : Flow (Option (Str → Option Str)) :=
  if isParamChild then
    match child.path with
    | [] => .panic .indexOutOfRange
    | _ :: name => .next (mapSet pathParams name seg)
  else .next pathParams

/-- The body of the loop of `findRoute` for the segment `seg` at the node
`root`: it panics, makes the function return (the `break` is followed by the
return of the node it set), or goes on to the next segment with the new
`root`, `pathParams` and `starNodeTemp`.  A `nil` child reported as found
would be dereferenced by what follows; `childOf` never reports one
(`childOf_found`). -/
def loopBody (re : Regexp) (root : node) (seg : Str) (pathParams : Option (Str → Option Str))
    (starNodeTemp : Option node) : Flow (node × Option (Str → Option Str) × Option node) :=
  match childOf root seg with
  | (child, starNode, isRegChild, isParamChild, found) =>
    if found = false then
      match starNodeTemp with
      | some star => .ret (some ⟨star, pathParams⟩)
      | none => .ret none
    else
      let starNodeTemp1 := if starNode.isSome then starNode else starNodeTemp
      match child with
      | none => .panic .nilDereference
      | some c =>
        match regBlock re c seg isRegChild pathParams starNodeTemp1 with
        | .panic e => .panic e
        | .ret r => .ret r
        | .next pathParams1 =>
          match paramBlock c seg isParamChild pathParams1 with
          | .panic e => .panic e
          | .ret r => .ret r
          | .next pathParams2 => .next (c, pathParams2, starNodeTemp1)

/-- The loop of `findRoute` over the segments and the return that follows it. -/
def walk (re : Regexp) : List Str → node → Option (Str → Option Str) → Option node →
    Except Panic (Option matchInfo)
  | [], root, pathParams, _ => .ok (some ⟨root, pathParams⟩)
  | seg :: segs, root, pathParams, starNodeTemp =>
    match loopBody re root seg pathParams starNodeTemp with
    | .panic e => .error e
    | .ret r => .ok r
    | .next (child, pathParams1, starNodeTemp1) => walk re segs child pathParams1 starNodeTemp1

/-- The method `findRoute`: `.ok none` is `nil, false`, `.ok (some info)` is
`info, true`. -/
def findRoute (re : Regexp) (r : router) (method : Str) (path : Str) :
    Except Panic (Option matchInfo) :=
  match r.trees method with
  | none => .ok none
  | some root =>
    if path = ['/'] then .ok (some ⟨root, none⟩)
    else walk re (split (trim path)) root none none

/-! ### Vocabulary of the properties -/

/-- A regular-expression facility that agrees with the standard package on
three patterns of the test suite and of the specification: `.*` matches every
text, `[0-9]+` the texts with a decimal digit, `^[0-9]+$` the non-empty texts of
decimal digits.  It is used where a property is evaluated on a concrete
route. -/
def testRegexp : Regexp where
  compiles p := p = ".*".toList || p = "[0-9]+".toList || p = "^[0-9]+$".toList
  matchString p s :=
    if p = ".*".toList then true
    else if p = "[0-9]+".toList then s.any Char.isDigit
    else if p = "^[0-9]+$".toList then s.all Char.isDigit && !s.isEmpty
    else false

/-- One call `addRoute(method, path, handleFunc)`. -/
structure Call where
  /-- The HTTP method. -/
  method : Str
  /-- The path. -/
  path : Str
  /-- The handler. -/
  handleFunc : HandleFunc

/-- The router after a sequence of `addRoute` calls, each of them run to its
return or to its panic. -/
def exec (re : Regexp) (r : router) (calls : List Call) : router :=
  calls.foldl (fun r c => (addRoute re r c.method c.path c.handleFunc).1) r

/-- The routers obtained from `newRouter()` by `addRoute` calls. -/
def Reachable (re : Regexp) (r : router) : Prop :=
  ∃ calls : List Call, r = exec re newRouter calls

/-- The slot in which `childOrCreate` looks for the child of a non-empty
segment: the order of its four cases. -/
def slotOf (seg : Str) : Slot :=
  if (matchRegs seg).isSome then .reg
  else if seg.head? = some ':' then .param
  else if seg = ['*'] then .star
  else .static seg

/-- The child that `childOrCreate` returns for a segment without creating it
and without a conflict: the child in the slot of the segment, which for a
parameter or a regular-expression segment carries the same text. -/
def node.step (n : node) (seg : Str) : Option node :=
  if seg = [] then none
  else
    match slotOf seg with
    | .static key => mapGet n.children key
    | .star => n.starChild
    | .param => n.paramChild.bind (fun c => if c.path = seg then some c else none)
    | .reg => n.regChild.bind (fun c => if c.path = seg then some c else none)

/-- The node that the registration of the segments reaches from `n`, when all
its nodes exist. -/
def nodeAt : node → List Str → Option node
  | n, [] => some n
  | n, seg :: segs => (n.step seg).bind (fun c => nodeAt c segs)

/-- The node at a position of the tree, given by the slots from the root. -/
def descend : node → List Slot → Option node
  | n, [] => some n
  | n, s :: pos => (n.child s).bind (fun c => descend c pos)

/-- Number of special children (`starChild`, `paramChild`, `regChild`) of a node. -/
def node.specialCount (n : node) : Nat :=
  (if n.starChild.isSome then 1 else 0) + (if n.paramChild.isSome then 1 else 0)
    + (if n.regChild.isSome then 1 else 0)

/-- The path `/s1/s2/.../sn` of the segments `s1, ..., sn`. -/
def joinPath : List Str → Str
  | [] => []
  | s :: ss => '/' :: s ++ joinPath ss

/-- A segment of a path: not empty and without `/`. -/
def IsSegment (s : Str) : Prop := s ≠ [] ∧ '/' ∉ s

/-- Whether the pattern of a regular-expression segment matches the text of
the segment itself (true for the other segments). -/
def selfMatch (re : Regexp) (seg : Str) : Bool :=
  match matchRegs seg with
  | some regs => re.matchString regs.2 seg
  | none => true

/-- The parameter that `findRoute` binds when the segment `seg` of the request
resolves to the child registered for the token `tok`. -/
def bindParam (tok seg : Str) (pathParams : Option (Str → Option Str)) :
    Option (Str → Option Str) :=
  match slotOf tok with
  | .reg =>
    match matchRegs tok with
    | some regs => mapSet pathParams regs.1 seg
    | none => pathParams
  | .param => mapSet pathParams tok.tail seg
  | _ => pathParams

/-- The parameters bound along the tokens `toks` by the segments `segs`, in
the order of the walk. -/
def bindParams : List Str → List Str → Option (Str → Option Str) → Option (Str → Option Str)
  | tok :: toks, seg :: segs, pathParams => bindParams toks segs (bindParam tok seg pathParams)
  | _, _, pathParams => pathParams

/-- The local conditions that registration maintains at a node: at most one
special child, static keys that are literal segments, and a
regular-expression child whose pattern compiles. -/
structure Local (re : Regexp) (n : node) : Prop where
  /-- At most one of `starChild`, `paramChild`, `regChild`. -/
  special : n.specialCount ≤ 1
  /-- A static key is a literal segment. -/
  static : ∀ key c, mapGet n.children key = some c → slotOf key = .static key
  /-- The pattern of the regular-expression child compiles. -/
  reg : ∀ c, n.regChild = some c →
    ∃ regs, matchRegs c.path = some regs ∧ re.compiles regs.2 = true

/-- The local conditions at every node of a tree. -/
def WF (re : Regexp) (n : node) : Prop :=
  ∀ pos m, descend n pos = some m → Local re m

/-- The local conditions at every node of every tree of a router. -/
def router.WF (re : Regexp) (r : router) : Prop :=
  ∀ method root, r.trees method = some root → web.WF re root

/-- The root on which `addRoute` works: the tree of the method, or a new root. -/
def rootOf (r : router) (method : Str) : node :=
  (r.trees method).getD (newNode ['/'])

/-- The segments that `addRoute` registers for a path that passed its checks. -/
def segsOf (path : Str) : List Str :=
  if path = ['/'] then [] else (split path).tail

/-- The checks of `addRoute` on the text of the path, before the segments
are looked at. -/
def Valid (path : Str) : Prop :=
  path ≠ [] ∧ path.head? = some '/' ∧ (path = ['/'] ∨ path.getLast? ≠ some '/')

/-- The node that the registration of the segments reaches in the tree of a method. -/
def routeNode (r : router) (method : Str) (segs : List Str) : Option node :=
  (r.trees method).bind (fun root => nodeAt root segs)

/-- The request segment `seg` resolves, at the node `n`, to the child that was
registered for the token `tok`: a literal token is matched by its own text;
any other token by a text that is not the key of a static child and, for a
regular-expression token, that its pattern matches. -/
def MatchesAt (re : Regexp) (n : node) (tok seg : Str) : Prop :=
  match slotOf tok with
  | .static _ => seg = tok
  | .reg => mapGet n.children seg = none ∧
      ∃ regs, matchRegs tok = some regs ∧ re.matchString regs.2 seg = true
  | _ => mapGet n.children seg = none

/-- The request segments `segs` resolve, one by one from the node `n`, to the
children registered for the tokens `toks`, and end at the node `m`. -/
def Resolves (re : Regexp) : node → List Str → List Str → node → Prop
  | n, [], [], m => m = n
  | n, tok :: toks, seg :: segs, m =>
    ∃ c, n.step tok = some c ∧ MatchesAt re n tok seg ∧ Resolves re c toks segs m
  | _, _, _, _ => False

/-- Whether a slot is one of the three special fields. -/
def Slot.isSpecial : Slot → Bool
  | .static _ => false
  | _ => true

/-- The panic of `childOrCreate` that names the special child already
present in a slot (none for a static child). -/
def kindConflict : Slot → Option Panic
  | .star => some .hasStarChild
  | .param => some .hasParamChild
  | .reg => some .hasRegChild
  | .static _ => none

/-- The panics that report a rejected registration, as opposed to the
run-time errors of the language. -/
def Panic.isConfiguration : Panic → Bool
  | .indexOutOfRange => false
  | .nilDereference => false
  | _ => true

/-- The handler bound at a position of a tree (`none`: no node there, or no handler). -/
def nodeHandler (n : node) (pos : List Slot) : HandleFunc :=
  (descend n pos).bind (fun m => m.handler)

/-- The handler bound at a position of the tree of a method. -/
def handlerAt (r : router) (method : Str) (pos : List Slot) : HandleFunc :=
  (r.trees method).bind (fun root => nodeHandler root pos)

/-- Whether every call of a sequence returns, each one run on the router that
the calls before it left. -/
def allReturn (re : Regexp) : router → List Call → Bool
  | _, [] => true
  | r, c :: cs =>
    (addRoute re r c.method c.path c.handleFunc).2.isNone &&
      allReturn re (addRoute re r c.method c.path c.handleFunc).1 cs

/-- The parameter name that a token declares: the text after `:` for a
named parameter (`child.path[1:]`), the first group for a regular-expression
token (`regs[1]`), none for the other tokens. -/
def declaredName (tok : Str) : Option Str :=
  match slotOf tok with
  | .reg => (matchRegs tok).map (fun regs => regs.1)
  | .param => some tok.tail
  | _ => none

/-- The pairs of a declared name and the text of the segment consumed, along
the tokens `toks` and the segments `segs`, in the order of the walk. -/
def bindings : List Str → List Str → List (Str × Str)
  | tok :: toks, seg :: segs =>
    match declaredName tok with
    | some name => (name, seg) :: bindings toks segs
    | none => bindings toks segs
  | _, _ => []

/-- The map that holds a list of bindings made in order: absent when the list
is empty; a name bound more than once keeps the text bound last. -/
def paramsOf (bs : List (Str × Str)) : Option (Str → Option Str) :=
  if bs.isEmpty then none else some (fun k => bs.reverse.lookup k)

/-- A condition on nodes that holds at every node of a tree. -/
def Everywhere (P : node → Prop) (n : node) : Prop :=
  ∀ pos m, descend n pos = some m → P m

/-- A condition on nodes that holds at every node of every tree of a router. -/
def router.Everywhere (P : node → Prop) (r : router) : Prop :=
  ∀ method root, r.trees method = some root → web.Everywhere P root

/-- The condition that registration maintains on the parameter child of a
node: its text is a named-parameter token (it starts with `:`). -/
def ParamOk (n : node) : Prop :=
  ∀ c, n.paramChild = some c → slotOf c.path = .param

/-- The token `:name(pattern)` of a regular-expression parameter. -/
def regexToken (name pattern : Str) : Str :=
  ':' :: name ++ '(' :: pattern ++ [')']

/-- The resolution of a segment as the specification words it: the static
child keyed by the segment if there is one; otherwise the regular-expression
child (regex flag true); otherwise the parameter child (param flag true);
otherwise the wildcard child; otherwise no child, with found = false.  The
second result is the wildcard child of the node in every case. -/
def childOfSpec (n : node) (seg : Str) : Option node × Option node × Bool × Bool × Bool :=
  match mapGet n.children seg with
  | some c => (some c, n.starChild, false, false, true)
  | none =>
    match n.regChild with
    | some c => (some c, n.starChild, true, false, true)
    | none =>
      match n.paramChild with
      | some c => (some c, n.starChild, false, true, true)
      | none =>
        match n.starChild with
        | some c => (some c, n.starChild, false, false, true)
        | none => (none, n.starChild, false, false, false)

/-- The child with which the body of the loop of `findRoute` goes on to the
next segment, when it does: the segment resolves at the node.  Whether it
does depends neither on the parameters bound so far nor on the wildcard
recorded so far (`loopBody_shape`), which are taken empty here. -/
def loopChild (re : Regexp) (n : node) (seg : Str) : Option node :=
  match loopBody re n seg none none with
  | .next (c, _, _) => some c
  | _ => none

/-- Whether the resolution of the segment fails at the node: the body of the
loop of `findRoute` leaves the loop (no child is found, or the child found is
the regular-expression child and its pattern rejects the segment). -/
def loopStops (re : Regexp) (n : node) (seg : Str) : Bool :=
  match loopBody re n seg none none with
  | .ret _ => true
  | _ => false

/-- The segments `segs` resolve one by one from the node `n`: the loop of
`findRoute` visits the nodes `visited`, in this order and `n` first, and
arrives at the node `m`. -/
def Descends (re : Regexp) : node → List Str → List node → node → Prop
  | n, [], [], m => m = n
  | n, seg :: segs, v :: visited, m =>
    v = n ∧ ∃ c, loopChild re n seg = some c ∧ Descends re c segs visited m
  | _, _, _, _ => False

/-- The wildcard child of the last node of a list that has one. -/
def lastStar (visited : List node) : Option node :=
  (visited.reverse.find? (fun n => n.starChild.isSome)).bind (fun n => n.starChild)

/-- The node at a position of the tree of a method (`none`: no tree, or no
node there). -/
def treeNode (r : router) (method : Str) (pos : List Slot) : Option node :=
  (r.trees method).bind (fun root => descend root pos)

/-- The binding that the body of the loop of `findRoute` makes when the
segment `seg` resolves at the node `n`: the name that the text of the
regular-expression child declares (`regs[1]`), or the text of the parameter
child after its first character (`child.path[1:]`), bound to the segment;
none when the child is a static or a wildcard child. -/
def bindingAt (n : node) (seg : Str) : Option (Str × Str) :=
  match childOf n seg with
  | (some c, _, true, _, _) => (matchRegs c.path).map (fun regs => (regs.1, seg))
  | (some c, _, false, true, _) => some (c.path.tail, seg)
  | _ => none

/-- The bindings made at the nodes `visited` by the segments `segs` that
resolve at them, in the order of the walk. -/
def bindingsAlong : List node → List Str → List (Str × Str)
  | n :: visited, seg :: segs => (bindingAt n seg).toList ++ bindingsAlong visited segs
  | _, _ => []

/-! ### Strings: splitting and trimming -/

theorem split_ne_nil (s : Str) : split s ≠ [] := by
  cases s with
  | nil => simp [split]
  | cons c cs =>
    unfold split
    split_ifs
    · simp
    · split <;> simp

theorem split_slash_cons (cs : Str) : split ('/' :: cs) = [] :: split cs := by
  simp [split]

theorem split_cons_of_ne (c : Char) (cs : Str) (h : c ≠ '/') :
    split (c :: cs) = (c :: (split cs).headD []) :: (split cs).tail := by
  have hne := split_ne_nil cs
  rw [split, if_neg h]
  cases hs : split cs with
  | nil => exact absurd hs hne
  | cons s ss => simp

theorem split_of_not_mem (s : Str) (h : '/' ∉ s) : split s = [s] := by
  induction s with
  | nil => rfl
  | cons c cs ih =>
    have hc : c ≠ '/' := fun e => h (by simp [e])
    have hcs : '/' ∉ cs := fun e => h (List.mem_cons_of_mem _ e)
    rw [split_cons_of_ne c cs hc, ih hcs]
    rfl

theorem split_append_joinPath (ss : List Str) :
    ∀ s : Str, '/' ∉ s → (∀ t ∈ ss, '/' ∉ t) → split (s ++ joinPath ss) = s :: ss := by
  induction ss with
  | nil =>
    intro s hs _
    simpa [joinPath] using split_of_not_mem s hs
  | cons t ts ih =>
    intro s hs hts
    have ht : '/' ∉ t := hts t (by simp)
    have hts2 : ∀ u ∈ ts, '/' ∉ u := fun u hu => hts u (List.mem_cons_of_mem _ hu)
    induction s with
    | nil =>
      show split ('/' :: (t ++ joinPath ts)) = _
      rw [split_slash_cons, ih t ht hts2]
    | cons c cs ihs =>
      have hc : c ≠ '/' := fun e => hs (by simp [e])
      have hcs : '/' ∉ cs := fun e => hs (List.mem_cons_of_mem _ e)
      rw [List.cons_append, split_cons_of_ne c _ hc, ihs hcs]
      rfl

theorem dropWhile_slash_of_head (l : Str) (h : l.head? ≠ some '/') :
    l.dropWhile (fun c => decide (c = '/')) = l := by
  cases l with
  | nil => rfl
  | cons c cs =>
    have hc : c ≠ '/' := fun e => h (by simp [e])
    simp [List.dropWhile, hc]

theorem trim_slash_cons (rest : Str) (h1 : rest.head? ≠ some '/')
    (h2 : rest.getLast? ≠ some '/') : trim ('/' :: rest) = rest := by
  unfold trim
  have e1 : List.dropWhile (fun c => decide (c = '/')) ('/' :: rest) = rest := by
    rw [List.dropWhile_cons]
    simpa using dropWhile_slash_of_head rest h1
  rw [e1, dropWhile_slash_of_head rest.reverse (by simpa using h2)]
  simp

theorem head_split_nonempty (rest : Str) (h : (split rest).headD [] ≠ []) :
    rest.head? ≠ some '/' := by
  cases rest with
  | nil => simp
  | cons c cs =>
    intro e
    have : c = '/' := by simpa using e
    subst this
    rw [split_slash_cons] at h
    exact h rfl

/-- On a path that passed the checks of `addRoute`, the segments that
`findRoute` walks are those that `addRoute` registered. -/
theorem split_trim_of_valid (path : Str) (h1 : path.head? = some '/')
    (h2 : path.getLast? ≠ some '/') (h3 : ∀ s ∈ (split path).tail, s ≠ []) :
    split (trim path) = (split path).tail := by
  cases path with
  | nil => simp at h1
  | cons c rest =>
    have hc : c = '/' := by simpa using h1
    subst hc
    rw [split_slash_cons] at h3 ⊢
    simp only [List.tail_cons] at h3 ⊢
    have hne := split_ne_nil rest
    have hhead : (split rest).headD [] ≠ [] := by
      cases hs : split rest with
      | nil => exact absurd hs hne
      | cons s ss =>
        rw [hs] at h3
        simpa using h3 s (by simp)
    have hrest : rest ≠ [] := by
      rintro rfl
      exact hhead rfl
    have hlast : rest.getLast? ≠ some '/' := by
      cases rest with
      | nil => exact absurd rfl hrest
      | cons d ds => simpa [List.getLast?_cons_cons] using h2
    rw [trim_slash_cons rest (head_split_nonempty rest hhead) hlast]

/-! ### Maps and slots -/

theorem mapGet_mapSet {α : Type} (m : Option (Str → Option α)) (k x : Str) (v : α) :
    mapGet (mapSet m k v) x = if x = k then some v else mapGet m x := by
  cases m <;> simp [mapGet, mapSet]

theorem mapSet_self {α : Type} (m : Option (Str → Option α)) (k : Str) (v : α)
    (h : mapGet m k = some v) : mapSet m k v = m := by
  cases m with
  | none => simp [mapGet] at h
  | some f =>
    simp only [mapGet] at h
    simp only [mapSet, Option.some.injEq]
    funext x
    by_cases hx : x = k
    · simp [hx, h]
    · simp [hx]

theorem slotOf_static_iff (seg : Str) :
    slotOf seg = .static seg ↔
      matchRegs seg = none ∧ seg.head? ≠ some ':' ∧ seg ≠ ['*'] := by
  unfold slotOf
  constructor
  · intro h
    split_ifs at h with h1 h2 h3
    · refine ⟨?_, h2, h3⟩
      simpa using h1
  · rintro ⟨h1, h2, h3⟩
    simp [h1, h2, h3]

theorem slotOf_static_inj (seg key : Str) (h : slotOf seg = .static key) : key = seg := by
  unfold slotOf at h
  split_ifs at h
  simpa using h.symm

theorem slotOf_reg_iff (seg : Str) : slotOf seg = .reg ↔ (matchRegs seg).isSome := by
  unfold slotOf
  constructor
  · intro h
    split_ifs at h with h1
    exact h1
  · intro h
    simp [h]

theorem slotOf_param_iff (seg : Str) :
    slotOf seg = .param ↔ matchRegs seg = none ∧ seg.head? = some ':' := by
  unfold slotOf
  constructor
  · intro h
    split_ifs at h with h1 h2
    exact ⟨by simpa using h1, h2⟩
  · rintro ⟨h1, h2⟩
    simp [h1, h2]

theorem slotOf_star_iff (seg : Str) :
    slotOf seg = .star ↔ matchRegs seg = none ∧ seg = ['*'] := by
  unfold slotOf
  constructor
  · intro h
    split_ifs at h with h1 h2 h3
    exact ⟨by simpa using h1, h3⟩
  · rintro ⟨h1, h2⟩
    subst h2
    simp [h1]

theorem withChild_path (n : node) (s : Slot) (c : node) : (n.withChild s c).path = n.path := by
  cases s <;> rfl

theorem withChild_handler (n : node) (s : Slot) (c : node) :
    (n.withChild s c).handler = n.handler := by
  cases s <;> rfl

theorem withChild_child (n : node) (s t : Slot) (c : node) :
    (n.withChild s c).child t = if t = s then some c else n.child t := by
  cases s <;> cases t <;> simp [node.withChild, node.child, mapGet_mapSet]

theorem withChild_self (n : node) (s : Slot) (c : node) (h : n.child s = some c) :
    n.withChild s c = n := by
  cases n with
  | mk p ch st pa rg hd =>
    cases s with
    | static key =>
      simp only [node.child] at h
      simp only [node.withChild, mapSet_self _ _ _ h]
    | star => simp only [node.child] at h; simp only [node.withChild, ← h]
    | param => simp only [node.child] at h; simp only [node.withChild, ← h]
    | reg => simp only [node.child] at h; simp only [node.withChild, ← h]

/-! ### childOrCreate -/

/-- The ways in which `childOrCreate` returns. -/
theorem childOrCreate_ok {re : Regexp} {n : node} {seg : Str} {slot : Slot} {c : node}
    (h : childOrCreate re n seg = .ok (slot, c)) :
    seg ≠ [] ∧ slot = slotOf seg ∧
    (n.child slot = some c ∨ (n.child slot = none ∧ c = newNode seg)) ∧
    (slot = .reg → c.path = seg ∧ n.starChild = none ∧ n.paramChild = none ∧
      ∃ regs, matchRegs seg = some regs ∧ re.compiles regs.2 = true) ∧
    (slot = .param → c.path = seg ∧ n.starChild = none ∧ n.regChild = none) ∧
    (slot = .star → n.paramChild = none ∧ n.regChild = none) := by
  have hne : seg ≠ [] := by
    rintro rfl
    simp [childOrCreate, matchRegs] at h
  refine ⟨hne, ?_⟩
  unfold childOrCreate at h
  rcases hm : matchRegs seg with _ | regs
  · cases seg with
    | nil => exact absurd rfl hne
    | cons c0 rest =>
      simp only [hm] at h
      by_cases h1 : c0 = ':'
      · rw [if_pos h1] at h
        have hslot : slotOf (c0 :: rest) = .param := (slotOf_param_iff _).2 ⟨hm, by simp [h1]⟩
        rcases hs : n.starChild with _ | s <;> rcases hp : n.paramChild with _ | p <;>
          rcases hr : n.regChild with _ | r <;>
          simp only [hs, hp, hr, Option.isSome_none, Option.isSome_some, if_true, if_false,
            Bool.false_eq_true, reduceCtorEq] at h
        · simp only [Except.ok.injEq, Prod.mk.injEq] at h
          obtain ⟨rfl, rfl⟩ := h
          refine ⟨hslot.symm, ?_, ?_, ?_, ?_⟩ <;> simp [node.child, hs, hp, hr, newNode]
        · split_ifs at h with h2
          simp only [Except.ok.injEq, Prod.mk.injEq] at h
          obtain ⟨rfl, rfl⟩ := h
          refine ⟨hslot.symm, ?_, ?_, ?_, ?_⟩ <;> simp [node.child, hs, hp, hr]
          simpa using h2
      · rw [if_neg h1] at h
        by_cases h2 : c0 :: rest = ['*']
        · rw [if_pos h2] at h
          have hslot : slotOf (c0 :: rest) = .star := (slotOf_star_iff _).2 ⟨hm, h2⟩
          rcases hs : n.starChild with _ | s <;> rcases hp : n.paramChild with _ | p <;>
            rcases hr : n.regChild with _ | r <;>
            simp only [hs, hp, hr, Option.isSome_none, Option.isSome_some, if_true, if_false,
              Bool.false_eq_true, reduceCtorEq] at h
          · simp only [Except.ok.injEq, Prod.mk.injEq] at h
            obtain ⟨rfl, rfl⟩ := h
            refine ⟨hslot.symm, ?_, ?_, ?_, ?_⟩ <;> simp [node.child, hs, hp, hr, newNode]
          · simp only [Except.ok.injEq, Prod.mk.injEq] at h
            obtain ⟨rfl, rfl⟩ := h
            refine ⟨hslot.symm, ?_, ?_, ?_, ?_⟩ <;> simp [node.child, hs, hp, hr]
        · rw [if_neg h2] at h
          have hslot : slotOf (c0 :: rest) = .static (c0 :: rest) :=
            (slotOf_static_iff _).2 ⟨hm, by simpa using h1, h2⟩
          rcases hc : mapGet n.children (c0 :: rest) with _ | c1 <;> simp only [hc] at h
          · simp only [Except.ok.injEq, Prod.mk.injEq] at h
            obtain ⟨rfl, rfl⟩ := h
            refine ⟨hslot.symm, ?_, ?_, ?_, ?_⟩ <;> simp [node.child, hc]
          · simp only [Except.ok.injEq, Prod.mk.injEq] at h
            obtain ⟨rfl, rfl⟩ := h
            refine ⟨hslot.symm, ?_, ?_, ?_, ?_⟩ <;> simp [node.child, hc]
  · have hslot : slotOf seg = .reg := (slotOf_reg_iff seg).2 (by simp [hm])
    simp only [hm] at h
    rcases hs : n.starChild with _ | s <;> rcases hp : n.paramChild with _ | p <;>
      rcases hr : n.regChild with _ | r <;>
      simp only [hs, hp, hr, Option.isSome_none, Option.isSome_some, if_true, if_false,
        Bool.false_eq_true, reduceCtorEq] at h
    · split_ifs at h with h4
      simp only [Except.ok.injEq, Prod.mk.injEq] at h
      obtain ⟨rfl, rfl⟩ := h
      refine ⟨hslot.symm, ?_, ?_, ?_, ?_⟩ <;> simp [node.child, hs, hp, hr, newNode]
      simpa using h4
    · split_ifs at h with h3 h4
      simp only [Except.ok.injEq, Prod.mk.injEq] at h
      obtain ⟨rfl, rfl⟩ := h
      refine ⟨hslot.symm, ?_, ?_, ?_, ?_⟩ <;> simp [node.child, hs, hp, hr]
      exact ⟨by simpa using h3, by simpa using h4⟩

/-! ### Steps of the registration -/

theorem special_excl (n : node) (h : n.specialCount ≤ 1) :
    (n.regChild.isSome → n.starChild = none ∧ n.paramChild = none) ∧
    (n.paramChild.isSome → n.starChild = none ∧ n.regChild = none) ∧
    (n.starChild.isSome → n.paramChild = none ∧ n.regChild = none) := by
  unfold node.specialCount at h
  rcases hs : n.starChild with _ | s <;> rcases hp : n.paramChild with _ | p <;>
    rcases hr : n.regChild with _ | r <;> simp [hs, hp, hr] at h ⊢

theorem step_some_iff (n : node) (s : Str) (x : node) :
    n.step s = some x ↔
      s ≠ [] ∧ n.child (slotOf s) = some x ∧
        (slotOf s = .param ∨ slotOf s = .reg → x.path = s) := by
  unfold node.step
  by_cases hs : s = []
  · simp [hs]
  · simp only [hs, if_false, ne_eq, not_false_eq_true, true_and]
    cases hk : slotOf s with
    | static key => simp [node.child]
    | star => simp [node.child]
    | param =>
      cases hp : n.paramChild with
      | none => simp [node.child, hp]
      | some c =>
        by_cases hc : c.path = s
        · simp [node.child, hp, hc]
          rintro rfl; exact hc
        · simp [node.child, hp, hc]
          rintro rfl; exact hc
    | reg =>
      cases hp : n.regChild with
      | none => simp [node.child, hp]
      | some c =>
        by_cases hc : c.path = s
        · simp [node.child, hp, hc]
          rintro rfl; exact hc
        · simp [node.child, hp, hc]
          rintro rfl; exact hc

theorem step_withChild_same (n : node) (s : Str) (c : node) (hs : s ≠ [])
    (hc : slotOf s = .param ∨ slotOf s = .reg → c.path = s) :
    (n.withChild (slotOf s) c).step s = some c := by
  rw [step_some_iff]
  exact ⟨hs, by simp [withChild_child], hc⟩

theorem step_withChild_other (n : node) (s : Str) (slot : Slot) (c : node)
    (h : slotOf s ≠ slot) : (n.withChild slot c).step s = n.step s := by
  cases hx : n.step s with
  | some x =>
    rw [step_some_iff] at hx ⊢
    refine ⟨hx.1, ?_, hx.2.2⟩
    rw [withChild_child, if_neg h]
    exact hx.2.1
  | none =>
    cases hy : (n.withChild slot c).step s with
    | none => rfl
    | some y =>
      rw [step_some_iff] at hy
      rw [withChild_child, if_neg h] at hy
      have := (step_some_iff n s y).2 hy
      rw [hx] at this
      cases this

theorem step_handler (n : node) (h : HandleFunc) (s : Str) :
    node.step { n with handler := h } s = n.step s := rfl

/-- A child that exists already is returned by `childOrCreate` as it is. -/
theorem childOrCreate_of_step {re : Regexp} {n : node} {seg : Str} {c : node}
    (hl : Local re n) (h : n.step seg = some c) :
    childOrCreate re n seg = .ok (slotOf seg, c) := by
  rw [step_some_iff] at h
  obtain ⟨hne, hchild, hpath⟩ := h
  have hex := special_excl n hl.special
  unfold childOrCreate
  cases hk : slotOf seg with
  | static key =>
    have hkey := slotOf_static_inj seg key hk
    subst hkey
    obtain ⟨h1, h2, h3⟩ := (slotOf_static_iff key).1 hk
    rw [hk] at hchild
    simp only [node.child] at hchild
    cases key with
    | nil => exact absurd rfl hne
    | cons c0 rest =>
      have h2' : c0 ≠ ':' := by simpa using h2
      simp only [h1, h2', h3, if_false, hchild]
  | star =>
    obtain ⟨h1, h2⟩ := (slotOf_star_iff seg).1 hk
    subst h2
    rw [hk] at hchild
    simp only [node.child] at hchild
    obtain ⟨hp, hr⟩ := hex.2.2 (by simp [hchild])
    simp [h1, hchild, hp, hr]
  | param =>
    obtain ⟨h1, h2⟩ := (slotOf_param_iff seg).1 hk
    rw [hk] at hchild
    simp only [node.child] at hchild
    obtain ⟨hp, hr⟩ := hex.2.1 (by simp [hchild])
    have hcp := hpath (Or.inl hk)
    cases seg with
    | nil => exact absurd rfl hne
    | cons c0 rest =>
      have h2' : c0 = ':' := by simpa using h2
      subst h2'
      simp only [h1, if_true, hchild, hp, hr, Option.isSome_none, Bool.false_eq_true, if_false,
        ne_eq, hcp, not_true_eq_false]
  | reg =>
    have h1 := (slotOf_reg_iff seg).1 hk
    rw [hk] at hchild
    simp only [node.child] at hchild
    obtain ⟨hp, hr⟩ := hex.1 (by simp [hchild])
    have hcp := hpath (Or.inr hk)
    obtain ⟨regs, hregs, hcomp⟩ := hl.reg c hchild
    rw [hcp] at hregs
    simp [hregs, hchild, hp, hr, hcp, hcomp]

/-! ### The loop of addRoute -/

theorem addSegs_path (re : Regexp) (path : Str) (h : HandleFunc) (segs : List Str) (n : node) :
    (addSegs re path h segs n).1.path = n.path := by
  cases segs with
  | nil =>
    unfold addSegs
    split_ifs <;> rfl
  | cons seg segs =>
    unfold addSegs
    split_ifs
    · rfl
    · split
      · rfl
      · simp [withChild_path]

/-- After a run of the loop that returned, the node of the segments exists
and carries the handler. -/
theorem addSegs_nodeAt (re : Regexp) (path : Str) (h : HandleFunc) (segs : List Str) :
    ∀ n : node, (addSegs re path h segs n).2 = none →
      ∃ m, nodeAt (addSegs re path h segs n).1 segs = some m ∧ m.handler = h := by
  induction segs with
  | nil =>
    intro n hok
    unfold addSegs at hok ⊢
    split_ifs at hok ⊢ with h1
    exact ⟨_, rfl, rfl⟩
  | cons seg segs ih =>
    intro n hok
    unfold addSegs at hok ⊢
    split_ifs at hok ⊢ with h1
    split at hok
    · cases hok
    · rename_i slot child hcc
      simp only [hcc]
      simp only at hok
      obtain ⟨m, hm, hh⟩ := ih child hok
      obtain ⟨hne, hslot, hchild, hreg, hparam, _⟩ := childOrCreate_ok hcc
      have hcpath : slot = .param ∨ slot = .reg → child.path = seg := by
        rintro (e | e)
        · exact (hparam e).1
        · exact (hreg e).1
      refine ⟨m, ?_, hh⟩
      simp only [nodeAt]
      rw [hslot, step_withChild_same _ _ _ hne]
      · simpa using hm
      · intro e
        rw [addSegs_path]
        exact hcpath (hslot ▸ e)

/-- Two segments for which `childOrCreate` uses the same slot and the same
child are the same text. -/
theorem seg_eq_of_slot {s t : Str} {x : node} (h : slotOf s = slotOf t)
    (hs : slotOf s = .param ∨ slotOf s = .reg → x.path = s)
    (ht : slotOf t = .param ∨ slotOf t = .reg → x.path = t) : s = t := by
  cases hk : slotOf s with
  | static key =>
    have e1 := slotOf_static_inj s key hk
    have e2 := slotOf_static_inj t key (by rw [← h, hk])
    rw [← e1, ← e2]
  | star =>
    have e1 := ((slotOf_star_iff s).1 hk).2
    have e2 := ((slotOf_star_iff t).1 (by rw [← h, hk])).2
    rw [e1, e2]
  | param =>
    rw [← hs (Or.inl hk), ← ht (Or.inl (by rw [← h, hk]))]
  | reg =>
    rw [← hs (Or.inr hk), ← ht (Or.inr (by rw [← h, hk]))]

/-- A run of the loop, whether it returns or panics, keeps every node that
exists and every handler that is bound, and changes no handler but at the node
of its own segments. -/
theorem addSegs_preserves (re : Regexp) (path : Str) (h : HandleFunc) (segs2 : List Str) :
    ∀ (n : node) (segs : List Str) (m : node), nodeAt n segs = some m →
      ∃ m', nodeAt (addSegs re path h segs2 n).1 segs = some m' ∧
        (m.handler.isSome → m'.handler = m.handler) ∧
        (segs ≠ segs2 → m'.handler = m.handler) := by
  induction segs2 with
  | nil =>
    intro n segs m hm
    unfold addSegs
    split_ifs with h1
    · exact ⟨m, hm, fun _ => rfl, fun _ => rfl⟩
    · cases segs with
      | nil =>
        simp only [nodeAt, Option.some.injEq] at hm
        subst hm
        exact ⟨_, rfl, fun e => absurd e h1, fun e => absurd rfl e⟩
      | cons s rest =>
        refine ⟨m, ?_, fun _ => rfl, fun _ => rfl⟩
        simpa [nodeAt, step_handler] using hm
  | cons seg2 rest2 ih =>
    intro n segs m hm
    unfold addSegs
    split_ifs with h1
    · exact ⟨m, hm, fun _ => rfl, fun _ => rfl⟩
    · split
      · exact ⟨m, hm, fun _ => rfl, fun _ => rfl⟩
      · rename_i slot child hcc
        simp only
        obtain ⟨hne, hslot, hchild, hreg, hparam, _⟩ := childOrCreate_ok hcc
        cases segs with
        | nil =>
          simp only [nodeAt, Option.some.injEq] at hm
          subst hm
          exact ⟨_, rfl, fun _ => withChild_handler _ _ _, fun _ => withChild_handler _ _ _⟩
        | cons s rest =>
          simp only [nodeAt] at hm ⊢
          cases hx : n.step s with
          | none => simp [hx] at hm
          | some x =>
            rw [hx] at hm
            simp only [Option.some_bind] at hm
            by_cases hsl : slotOf s = slot
            · have hx2 := (step_some_iff n s x).1 hx
              rw [hsl] at hx2
              have hcx : child = x := by
                rcases hchild with hc | ⟨hc, _⟩
                · rw [hc] at hx2
                  simpa using hx2.2.1
                · rw [hc] at hx2
                  simp at hx2
              subst hcx
              have hseg : s = seg2 := by
                refine seg_eq_of_slot (x := child) (by rw [hsl, hslot]) ?_ ?_
                · intro e
                  exact hx2.2.2 (by rw [← hsl]; exact e)
                · rintro (e | e)
                  · exact (hparam (by rw [hslot]; exact e)).1
                  · exact (hreg (by rw [hslot]; exact e)).1
              obtain ⟨m', hm', hh', hd'⟩ := ih child rest m hm
              refine ⟨m', ?_, hh', ?_⟩
              · rw [← hsl, step_withChild_same _ _ _ hx2.1]
                · simpa using hm'
                · intro e
                  rw [addSegs_path]
                  exact hx2.2.2 (hsl ▸ e)
              · intro hdiff
                apply hd'
                intro e
                exact hdiff (by rw [hseg, e])
            · rw [step_withChild_other _ _ _ _ hsl, hx]
              exact ⟨m, by simpa using hm, fun _ => rfl, fun _ => rfl⟩

/-! ### Well-formed trees -/

theorem local_newNode (re : Regexp) (p : Str) : Local re (newNode p) := by
  refine ⟨by simp [node.specialCount, newNode], ?_, ?_⟩
  · intro key c h
    simp [newNode, mapGet] at h
  · intro c h
    simp [newNode] at h

theorem wf_newNode (re : Regexp) (p : Str) : WF re (newNode p) := by
  intro pos m h
  cases pos with
  | nil =>
    simp only [descend, Option.some.injEq] at h
    subst h
    exact local_newNode re p
  | cons s pos =>
    cases s <;> simp [descend, node.child, newNode, mapGet] at h

theorem wf_child {re : Regexp} {n c : node} {s : Slot} (h : WF re n) (hc : n.child s = some c) :
    WF re c := by
  intro pos m hm
  apply h (s :: pos) m
  simp [descend, hc, hm]

theorem wf_local {re : Regexp} {n : node} (h : WF re n) : Local re n := h [] n rfl

theorem wf_withChild {re : Regexp} {n c : node} {slot : Slot} (hn : WF re n) (hc : WF re c)
    (hl : Local re (n.withChild slot c)) : WF re (n.withChild slot c) := by
  intro pos m hm
  cases pos with
  | nil =>
    simp only [descend, Option.some.injEq] at hm
    subst hm
    exact hl
  | cons t pos =>
    simp only [descend, withChild_child] at hm
    by_cases ht : t = slot
    · simp only [ht, if_true, Option.some_bind] at hm
      exact hc pos m hm
    · simp only [ht, if_false] at hm
      exact hn (t :: pos) m (by simpa [descend] using hm)

theorem wf_handler {re : Regexp} {n : node} (h : HandleFunc) (hn : WF re n) :
    WF re { n with handler := h } := by
  intro pos m hm
  cases pos with
  | nil =>
    simp only [descend, Option.some.injEq] at hm
    subst hm
    have hl := wf_local hn
    exact ⟨hl.special, hl.static, hl.reg⟩
  | cons t pos =>
    apply hn (t :: pos) m
    cases t <;> simpa [descend, node.child] using hm

theorem local_withChild {re : Regexp} {n child c : node} {seg : Str} {slot : Slot}
    (hl : Local re n) (hcc : childOrCreate re n seg = .ok (slot, child))
    (hp : c.path = child.path) : Local re (n.withChild slot c) := by
  obtain ⟨hne, hslot, hchild, hreg, hparam, hstar⟩ := childOrCreate_ok hcc
  cases slot with
  | static key =>
    refine ⟨hl.special, ?_, hl.reg⟩
    intro k x hk
    simp only [node.withChild, mapGet_mapSet] at hk
    by_cases hkk : k = key
    · subst hkk
      have := slotOf_static_inj seg k hslot.symm
      subst this
      exact hslot.symm
    · simp only [hkk, if_false] at hk
      exact hl.static k x hk
  | star =>
    obtain ⟨h1, h2⟩ := hstar rfl
    refine ⟨?_, hl.static, hl.reg⟩
    simp [node.specialCount, node.withChild, h1, h2]
  | param =>
    obtain ⟨_, h1, h2⟩ := hparam rfl
    refine ⟨?_, hl.static, ?_⟩
    · simp [node.specialCount, node.withChild, h1, h2]
    · intro x hx
      simp [node.withChild, h2] at hx
  | reg =>
    obtain ⟨h0, h1, h2, regs, hregs, hcomp⟩ := hreg rfl
    refine ⟨?_, hl.static, ?_⟩
    · simp [node.specialCount, node.withChild, h1, h2]
    · intro x hx
      simp only [node.withChild, Option.some.injEq] at hx
      subst hx
      exact ⟨regs, by rw [hp, h0]; exact hregs, hcomp⟩

/-- A run of the loop, whether it returns or panics, leaves the tree well formed. -/
theorem addSegs_wf (re : Regexp) (path : Str) (h : HandleFunc) (segs : List Str) :
    ∀ n : node, WF re n → WF re (addSegs re path h segs n).1 := by
  induction segs with
  | nil =>
    intro n hn
    unfold addSegs
    split_ifs
    · exact hn
    · exact wf_handler _ hn
  | cons seg segs ih =>
    intro n hn
    unfold addSegs
    split_ifs
    · exact hn
    · split
      · exact hn
      · rename_i slot child hcc
        simp only
        obtain ⟨hne, hslot, hchild, _⟩ := childOrCreate_ok hcc
        have hwc : WF re child := by
          rcases hchild with hc | ⟨_, hc⟩
          · exact wf_child hn hc
          · rw [hc]; exact wf_newNode re seg
        exact wf_withChild hn (ih child hwc)
          (local_withChild (wf_local hn) hcc (addSegs_path _ _ _ _ _))

/-- On a well-formed tree, the registration of segments whose node exists and
carries a handler panics with the path conflict and changes nothing. -/
theorem addSegs_duplicate (re : Regexp) (path : Str) (h : HandleFunc) (segs : List Str) :
    ∀ (n m : node), WF re n → nodeAt n segs = some m → m.handler.isSome →
      addSegs re path h segs n = (n, some (.pathConflict path)) := by
  induction segs with
  | nil =>
    intro n m _ hm hh
    simp only [nodeAt, Option.some.injEq] at hm
    subst hm
    unfold addSegs
    simp [hh]
  | cons seg segs ih =>
    intro n m hn hm hh
    simp only [nodeAt] at hm
    cases hx : n.step seg with
    | none => simp [hx] at hm
    | some x =>
      rw [hx] at hm
      simp only [Option.some_bind] at hm
      have hx2 := (step_some_iff n seg x).1 hx
      have hcc := childOrCreate_of_step (wf_local hn) hx
      unfold addSegs
      rw [if_neg hx2.1]
      simp only [hcc]
      rw [ih x m (wf_child hn hx2.2.1) hm hh]
      simp only
      rw [withChild_self _ _ _ hx2.2.1]

/-! ### Routers -/

theorem router_ext (r s : router) (h : ∀ m, r.trees m = s.trees m) : r = s := by
  cases r; cases s
  simp only [router.mk.injEq]
  funext m
  exact h m

theorem setTree_trees (r : router) (m m' : Str) (x : node) :
    (r.setTree m x).trees m' = if m' = m then some x else r.trees m' := rfl

theorem setTree_setTree (r : router) (m : Str) (x y : node) :
    (r.setTree m x).setTree m y = r.setTree m y := by
  apply router_ext
  intro k
  simp only [setTree_trees]
  split_ifs <;> rfl

theorem setTree_self (r : router) (m : Str) (x : node) (h : r.trees m = some x) :
    r.setTree m x = r := by
  apply router_ext
  intro k
  simp only [setTree_trees]
  split_ifs with hk
  · rw [hk, h]
  · rfl

/-- The call `addRoute` on a path that passes the checks on its text. -/
theorem addRoute_of_valid (re : Regexp) (r : router) (method path : Str) (h : HandleFunc)
    (hv : Valid path) :
    addRoute re r method path h =
      (r.setTree method (addSegs re path h (segsOf path) (rootOf r method)).1,
        (addSegs re path h (segsOf path) (rootOf r method)).2) := by
  obtain ⟨h1, h2, h3⟩ := hv
  unfold addRoute
  rw [if_neg h1]
  simp only [h2, ne_eq, not_true_eq_false, if_false]
  by_cases hp : path = ['/']
  · simp only [hp, if_true, segsOf]
    unfold addSegs
    cases ht : r.trees method with
    | none =>
      simp only [rootOf, ht, Option.getD_none, Option.isSome_none, Bool.false_eq_true, if_false]
      split_ifs with hh
      · rfl
      · rw [setTree_setTree]
    | some root =>
      simp only [rootOf, ht, Option.getD_some, Option.isSome_some, if_true]
      split_ifs with hh
      · rw [setTree_self _ _ _ ht]
      · rfl
  · have h4 : path.getLast? ≠ some '/' := by
      rcases h3 with h3 | h3
      · exact absurd h3 hp
      · exact h3
    simp only [hp, if_false, h4, segsOf]
    cases ht : r.trees method with
    | none =>
      simp only [rootOf, ht, Option.getD_none, Option.isSome_none, Bool.false_eq_true, if_false]
      rw [setTree_setTree]
    | some root =>
      simp only [rootOf, ht, Option.getD_some, Option.isSome_some, if_true]

/-- The call `addRoute` on a path that fails a check on its text. -/
theorem addRoute_of_not_valid (re : Regexp) (r : router) (method path : Str) (h : HandleFunc)
    (hv : ¬ Valid path) :
    ∃ e, (addRoute re r method path h).2 = some e ∧
      ((addRoute re r method path h).1 = r ∨
        (addRoute re r method path h).1 = r.setTree method (rootOf r method)) := by
  unfold addRoute
  by_cases h1 : path = []
  · rw [if_pos h1]
    exact ⟨_, rfl, Or.inl rfl⟩
  · rw [if_neg h1]
    have hr1 : (if (r.trees method).isSome then r else r.setTree method (rootOf r method)) = r ∨
        (if (r.trees method).isSome then r else r.setTree method (rootOf r method)) =
          r.setTree method (rootOf r method) := by
      split_ifs
      · exact Or.inl rfl
      · exact Or.inr rfl
    by_cases h2 : path.head? = some '/'
    · have hp : path ≠ ['/'] := fun e => hv ⟨h1, h2, Or.inl e⟩
      have h4 : path.getLast? = some '/' := by
        by_contra h4
        exact hv ⟨h1, h2, Or.inr h4⟩
      simp only [h2, ne_eq, not_true_eq_false, if_false, hp, h4, if_true]
      exact ⟨_, rfl, hr1⟩
    · simp only [ne_eq, h2, not_false_eq_true, if_true]
      exact ⟨_, rfl, hr1⟩

theorem addRoute_ok_valid {re : Regexp} {r : router} {method path : Str} {h : HandleFunc}
    (hok : (addRoute re r method path h).2 = none) : Valid path := by
  by_contra hv
  obtain ⟨e, he, _⟩ := addRoute_of_not_valid re r method path h hv
  rw [he] at hok
  cases hok

/-! ### The loop of findRoute -/

theorem childOf_of_static {n c : node} {seg : Str} (h : mapGet n.children seg = some c) :
    childOf n seg = (some c, n.starChild, false, false, true) := by
  unfold childOf
  cases hc : n.children with
  | none => simp [hc, mapGet] at h
  | some f =>
    simp only [hc, mapGet] at h
    simp [h]

theorem childOf_of_not_static {n : node} {seg : Str} (h : mapGet n.children seg = none) :
    childOf n seg = childOfSpecial n := by
  unfold childOf
  cases hc : n.children with
  | none => rfl
  | some f =>
    simp only [hc, mapGet] at h
    simp [h]

/-- A child that `childOf` reports as found is not `nil`. -/
theorem childOf_found (n : node) (seg : Str) (h : (childOf n seg).2.2.2.2 = true) :
    (childOf n seg).1.isSome = true := by
  have key : (childOfSpecial n).2.2.2.2 = true → (childOfSpecial n).1.isSome = true := by
    unfold childOfSpecial
    split_ifs with h1 h2
    · intro _; exact h1
    · intro _; exact h2
    · intro h3; exact h3
  unfold childOf at h ⊢
  split
  · rename_i hc
    simp only [hc] at h
    exact key h
  · rename_i m hc
    simp only [hc] at h
    split
    · rename_i hm
      simp only [hm] at h
      exact key h
    · rfl

/-- One turn of the loop of `findRoute` on a segment that resolves to the child
registered for a token. -/
theorem walk_step {re : Regexp} {n c : node} {tok seg : Str} (hl : Local re n)
    (hstep : n.step tok = some c) (hm : MatchesAt re n tok seg) (segs : List Str)
    (pp : Option (Str → Option Str)) (st : Option node) :
    walk re (seg :: segs) n pp st =
      walk re segs c (bindParam tok seg pp) (if n.starChild.isSome then n.starChild else st) := by
  rw [step_some_iff] at hstep
  obtain ⟨hne, hchild, hpath⟩ := hstep
  have hex := special_excl n hl.special
  unfold MatchesAt at hm
  cases hk : slotOf tok with
  | static key =>
    rw [hk] at hm hchild
    simp only at hm
    subst hm
    have := slotOf_static_inj seg key hk
    subst this
    simp only [node.child] at hchild
    rw [walk]; unfold loopBody; rw [childOf_of_static hchild]
    simp [regBlock, paramBlock, bindParam, hk]
  | star =>
    rw [hk] at hm hchild
    simp only at hm
    simp only [node.child] at hchild
    obtain ⟨hp, hr⟩ := hex.2.2 (by simp [hchild])
    rw [walk]; unfold loopBody; rw [childOf_of_not_static hm]
    simp [childOfSpecial, hchild, hp, hr, regBlock, paramBlock, bindParam, hk]
  | param =>
    rw [hk] at hm hchild
    simp only at hm
    simp only [node.child] at hchild
    obtain ⟨hs, hr⟩ := hex.2.1 (by simp [hchild])
    have hcp := hpath (Or.inl hk)
    obtain ⟨h1, h2⟩ := (slotOf_param_iff tok).1 hk
    rw [walk]; unfold loopBody; rw [childOf_of_not_static hm]
    cases tok with
    | nil => exact absurd rfl hne
    | cons c0 rest =>
      simp [childOfSpecial, hchild, hs, hr, regBlock, paramBlock, bindParam, hk, hcp]
  | reg =>
    rw [hk] at hm hchild
    simp only at hm
    obtain ⟨hm1, regs, hregs, hmatch⟩ := hm
    simp only [node.child] at hchild
    obtain ⟨hs, hp⟩ := hex.1 (by simp [hchild])
    have hcp := hpath (Or.inr hk)
    obtain ⟨regs2, hregs2, hcomp⟩ := hl.reg c hchild
    rw [hcp, hregs] at hregs2
    simp only [Option.some.injEq] at hregs2
    subst hregs2
    rw [walk]; unfold loopBody; rw [childOf_of_not_static hm1]
    simp [childOfSpecial, hchild, hs, hp, regBlock, paramBlock, bindParam, hk, hcp, hregs,
      hcomp, hmatch]

/-- A walk in which every segment resolves ends at the node resolved, with
the parameters bound on the way. -/
theorem walk_resolves {re : Regexp} (toks : List Str) :
    ∀ (segs : List Str) (n m : node), WF re n → Resolves re n toks segs m →
      ∀ (pp : Option (Str → Option Str)) (st : Option node),
        walk re segs n pp st = .ok (some ⟨m, bindParams toks segs pp⟩) := by
  induction toks with
  | nil =>
    intro segs n m _ hr pp st
    cases segs with
    | nil =>
      simp only [Resolves] at hr
      subst hr
      simp [walk, bindParams]
    | cons s ss => simp [Resolves] at hr
  | cons tok toks ih =>
    intro segs n m hn hr pp st
    cases segs with
    | nil => simp [Resolves] at hr
    | cons seg segs =>
      simp only [Resolves] at hr
      obtain ⟨c, hstep, hm, hrest⟩ := hr
      rw [walk_step (wf_local hn) hstep hm]
      have hc : WF re c := wf_child hn ((step_some_iff n tok c).1 hstep).2.1
      simpa [bindParams] using ih segs c m hc hrest _ _

theorem matchesAt_self {re : Regexp} {n : node} {seg : Str} (hl : Local re n)
    (hs : selfMatch re seg = true) : MatchesAt re n seg seg := by
  unfold MatchesAt
  have hnot : slotOf seg ≠ .static seg → mapGet n.children seg = none := by
    intro h
    cases hg : mapGet n.children seg with
    | none => rfl
    | some x => exact absurd (hl.static seg x hg) h
  cases hk : slotOf seg with
  | static key => rfl
  | star => exact hnot (by simp [hk])
  | param => exact hnot (by simp [hk])
  | reg =>
    refine ⟨hnot (by simp [hk]), ?_⟩
    have h1 := (slotOf_reg_iff seg).1 hk
    cases hr : matchRegs seg with
    | none => simp [hr] at h1
    | some regs =>
      refine ⟨regs, rfl, ?_⟩
      simpa [selfMatch, hr] using hs

/-- The segments of a registered path resolve to their own nodes when each
regular-expression segment matches its own text. -/
theorem resolves_self {re : Regexp} (segs : List Str) :
    ∀ (n m : node), WF re n → nodeAt n segs = some m →
      (∀ seg ∈ segs, selfMatch re seg = true) → Resolves re n segs segs m := by
  induction segs with
  | nil =>
    intro n m _ hm _
    simp only [nodeAt, Option.some.injEq] at hm
    simp [Resolves, hm]
  | cons seg segs ih =>
    intro n m hn hm hs
    simp only [nodeAt] at hm
    cases hx : n.step seg with
    | none => simp [hx] at hm
    | some x =>
      rw [hx] at hm
      simp only [Option.some_bind] at hm
      have hc : WF re x := wf_child hn ((step_some_iff n seg x).1 hx).2.1
      exact ⟨x, hx, matchesAt_self (wf_local hn) (hs seg (by simp)),
        ih x m hc hm (fun s h => hs s (List.mem_cons_of_mem _ h))⟩

/-! ### Sequences of calls -/

theorem exec_nil (re : Regexp) (r : router) : exec re r [] = r := rfl

theorem exec_cons (re : Regexp) (r : router) (c : Call) (cs : List Call) :
    exec re r (c :: cs) = exec re (addRoute re r c.method c.path c.handleFunc).1 cs := rfl

theorem exec_append (re : Regexp) (r : router) (cs ds : List Call) :
    exec re r (cs ++ ds) = exec re (exec re r cs) ds := by
  simp [exec, List.foldl_append]

theorem wf_newRouter (re : Regexp) : newRouter.WF re := by
  intro m root h
  simp [newRouter] at h

theorem wf_rootOf {re : Regexp} {r : router} (hr : r.WF re) (method : Str) :
    WF re (rootOf r method) := by
  unfold rootOf
  cases h : r.trees method with
  | none => exact wf_newNode re _
  | some root => exact hr method root h

theorem wf_setTree {re : Regexp} {r : router} (hr : r.WF re) (method : Str) {root : node}
    (h : WF re root) : (r.setTree method root).WF re := by
  intro m x hx
  rw [setTree_trees] at hx
  split_ifs at hx with hm
  · simp only [Option.some.injEq] at hx
    subst hx
    exact h
  · exact hr m x hx

/-- A call of `addRoute`, whether it returns or panics, leaves the router well formed. -/
theorem addRoute_wf {re : Regexp} {r : router} (hr : r.WF re) (method path : Str)
    (h : HandleFunc) : (addRoute re r method path h).1.WF re := by
  by_cases hv : Valid path
  · rw [addRoute_of_valid re r method path h hv]
    exact wf_setTree hr method (addSegs_wf re path h _ _ (wf_rootOf hr method))
  · obtain ⟨e, _, h1 | h1⟩ := addRoute_of_not_valid re r method path h hv
    · rw [h1]; exact hr
    · rw [h1]; exact wf_setTree hr method (wf_rootOf hr method)

theorem exec_wf {re : Regexp} (calls : List Call) :
    ∀ r : router, r.WF re → (exec re r calls).WF re := by
  induction calls with
  | nil => intro r hr; exact hr
  | cons c cs ih =>
    intro r hr
    rw [exec_cons]
    exact ih _ (addRoute_wf hr _ _ _)

theorem reachable_wf {re : Regexp} {r : router} (h : Reachable re r) : r.WF re := by
  obtain ⟨calls, rfl⟩ := h
  exact exec_wf calls _ (wf_newRouter re)

theorem routeNode_setTree_of_some {r : router} {method m2 : Str} {segs : List Str} {x : node}
    {P : node → Prop} (root' : node) (hx : routeNode r method segs = some x) (hx0 : P x)
    (hp : ∀ root, r.trees m2 = some root → m2 = method →
      ∃ x', nodeAt root' segs = some x' ∧ P x') :
    ∃ x', routeNode (r.setTree m2 root') method segs = some x' ∧ P x' := by
  unfold routeNode at hx ⊢
  rw [setTree_trees]
  by_cases hm : method = m2
  · subst hm
    cases ht : r.trees method with
    | none => simp [ht] at hx
    | some root => simpa using hp root ht rfl
  · rw [if_neg hm]
    exact ⟨x, hx, hx0⟩

/-- A call of `addRoute`, whether it returns or panics, keeps every node
that exists and every handler that is bound, and changes no handler but at the
node of its own path. -/
theorem addRoute_preserves (re : Regexp) (r : router) (m2 p2 : Str) (h2 : HandleFunc)
    (method : Str) (segs : List Str) (x : node) (hx : routeNode r method segs = some x) :
    ∃ x', routeNode (addRoute re r m2 p2 h2).1 method segs = some x' ∧
      (x.handler.isSome → x'.handler = x.handler) ∧
      (segs ≠ segsOf p2 → x'.handler = x.handler) := by
  by_cases hv : Valid p2
  · rw [addRoute_of_valid re r m2 p2 h2 hv]
    apply routeNode_setTree_of_some _ hx ⟨fun _ => rfl, fun _ => rfl⟩
    intro root hroot hm
    subst hm
    have hx' : nodeAt root segs = some x := by simpa [routeNode, hroot] using hx
    simpa [rootOf, hroot] using addSegs_preserves re p2 h2 (segsOf p2) root segs x hx'
  · obtain ⟨e, _, h1 | h1⟩ := addRoute_of_not_valid re r m2 p2 h2 hv
    · rw [h1]; exact ⟨x, hx, fun _ => rfl, fun _ => rfl⟩
    · rw [h1]
      apply routeNode_setTree_of_some _ hx ⟨fun _ => rfl, fun _ => rfl⟩
      intro root hroot hm
      subst hm
      have hx' : nodeAt root segs = some x := by simpa [routeNode, hroot] using hx
      exact ⟨x, by simpa [rootOf, hroot] using hx', fun _ => rfl, fun _ => rfl⟩

theorem exec_preserves (re : Regexp) (calls : List Call) :
    ∀ (r : router) (method : Str) (segs : List Str) (x : node),
      routeNode r method segs = some x →
      ∃ x', routeNode (exec re r calls) method segs = some x' ∧
        (x.handler.isSome → x'.handler = x.handler) := by
  induction calls with
  | nil => intro r method segs x hx; exact ⟨x, hx, fun _ => rfl⟩
  | cons c cs ih =>
    intro r method segs x hx
    rw [exec_cons]
    obtain ⟨x1, hx1, hh1, _⟩ :=
      addRoute_preserves re r c.method c.path c.handleFunc method segs x hx
    obtain ⟨x2, hx2, hh2⟩ := ih _ method segs x1 hx1
    refine ⟨x2, hx2, fun hs => ?_⟩
    have e1 := hh1 hs
    rw [hh2 (by rw [e1]; exact hs), e1]

/-- After a call of `addRoute` that returned, the node of the path exists and
carries the handler. -/
theorem addRoute_routeNode {re : Regexp} {r : router} {method path : Str} {h : HandleFunc}
    (hok : (addRoute re r method path h).2 = none) :
    ∃ x, routeNode (addRoute re r method path h).1 method (segsOf path) = some x ∧
      x.handler = h := by
  have hv := addRoute_ok_valid hok
  rw [addRoute_of_valid re r method path h hv] at hok ⊢
  simp only at hok
  obtain ⟨m, hm, hh⟩ := addSegs_nodeAt re path h (segsOf path) (rootOf r method) hok
  exact ⟨m, by simp [routeNode, setTree_trees, hm], hh⟩

theorem nodeAt_ne_nil (segs : List Str) :
    ∀ (n m : node), nodeAt n segs = some m → ∀ s ∈ segs, s ≠ [] := by
  induction segs with
  | nil => intro n m _ s hs; simp at hs
  | cons seg segs ih =>
    intro n m hm s hs
    simp only [nodeAt] at hm
    cases hx : n.step seg with
    | none => simp [hx] at hm
    | some x =>
      rw [hx] at hm
      simp only [Option.some_bind] at hm
      rcases List.mem_cons.1 hs with rfl | h
      · exact ((step_some_iff n s x).1 hx).1
      · exact ih x m hm s h

/-- The lookup of a path whose node exists, when each regular-expression
segment of the path matches its own text. -/
theorem findRoute_of_routeNode {re : Regexp} {r : router} {method path : Str} {x : node}
    (hr : r.WF re) (hv : Valid path) (hx : routeNode r method (segsOf path) = some x)
    (hs : ∀ seg ∈ segsOf path, selfMatch re seg = true) :
    findRoute re r method path =
      .ok (some ⟨x, bindParams (segsOf path) (segsOf path) none⟩) := by
  unfold routeNode at hx
  unfold findRoute
  cases ht : r.trees method with
  | none => simp [ht] at hx
  | some root =>
    rw [ht] at hx
    simp only [Option.some_bind] at hx
    by_cases hp : path = ['/']
    · subst hp
      simp only [segsOf, if_true, nodeAt, Option.some.injEq] at hx
      subst hx
      simp [segsOf, bindParams]
    · simp only [hp, if_false]
      obtain ⟨h1, h2, h3⟩ := hv
      have h4 : path.getLast? ≠ some '/' := by
        rcases h3 with h3 | h3
        · exact absurd h3 hp
        · exact h3
      have hseg : segsOf path = (split path).tail := by simp [segsOf, hp]
      have hne := nodeAt_ne_nil _ _ _ hx
      rw [hseg] at hne
      rw [split_trim_of_valid path h2 h4 hne, ← hseg]
      exact walk_resolves _ _ _ _ (hr method root ht)
        (resolves_self _ _ _ (hr method root ht) hx hs) _ _

/-- C1 (counterexample): the route `/:id(^[0-9]+$)` is registered on the empty
router without a panic, and the lookup of its own text `/:id(^[0-9]+$)` is
not found, because the text of the segment does not match the pattern.  And
`addRoute(GET, /a, nil)` followed by `addRoute(GET, /a, h)` both return, after
which the lookup of `/a` finds the handler `h`, not the `nil` of the first
call. -/
theorem C1_counterexample :
    ((addRoute testRegexp newRouter "GET".toList "/:id(^[0-9]+$)".toList (some 7)).2 = none ∧
      findRoute testRegexp
        (addRoute testRegexp newRouter "GET".toList "/:id(^[0-9]+$)".toList (some 7)).1
        "GET".toList "/:id(^[0-9]+$)".toList = .ok none) ∧
    ((addRoute testRegexp newRouter "GET".toList "/a".toList none).2 = none ∧
      (addRoute testRegexp (addRoute testRegexp newRouter "GET".toList "/a".toList none).1
        "GET".toList "/a".toList (some 2)).2 = none ∧
      findRoute testRegexp
        (exec testRegexp newRouter [⟨"GET".toList, "/a".toList, none⟩,
          ⟨"GET".toList, "/a".toList, some 2⟩])
        "GET".toList "/a".toList =
        .ok (some ⟨⟨"a".toList, none, none, none, none, some 2⟩, none⟩)) := by
  refine ⟨⟨by decide, rfl⟩, by decide, by decide, rfl⟩

/-- C1 (amended): in a router obtained from `newRouter()` by a sequence of
`addRoute` calls, for every call of the sequence that returned, whose handler
is not `nil` and in whose path every regular-expression segment has a pattern
that matches the text of the segment itself (in particular for every path of
literal, named-parameter and wildcard segments), `findRoute` on the same
method and path finds a node whose handler is the handler of that call. -/
theorem C1_register_then_lookup (re : Regexp) (before after : List Call) (c : Call)
    (hok : (addRoute re (exec re newRouter before) c.method c.path c.handleFunc).2 = none)
    (hfun : c.handleFunc ≠ none)
    (hself : ∀ seg ∈ segsOf c.path, selfMatch re seg = true) :
    ∃ info, findRoute re (exec re newRouter (before ++ c :: after)) c.method c.path =
        .ok (some info) ∧ info.n.handler = c.handleFunc := by
  have hwf : (exec re newRouter (before ++ c :: after)).WF re :=
    exec_wf _ _ (wf_newRouter re)
  obtain ⟨x, hx, hh⟩ := addRoute_routeNode hok
  obtain ⟨x', hx', hh'⟩ := exec_preserves re after _ _ _ _ hx
  rw [← exec_cons, ← exec_append] at hx'
  refine ⟨_, findRoute_of_routeNode hwf (addRoute_ok_valid hok) hx' hself, ?_⟩
  rw [hh' (by rw [hh]; exact Option.isSome_iff_ne_none.2 hfun), hh]

/-- C1 (witness): the route `/user/:id([0-9]+)` registered after `/user`, and
before `/user/*` was rejected; its lookup finds the handler. -/
theorem C1_register_then_lookup_witness :
    (addRoute testRegexp
        (exec testRegexp newRouter [⟨"GET".toList, "/user".toList, some 1⟩])
        "GET".toList "/user/:id([0-9]+)".toList (some 2)).2 = none ∧
    (∀ seg ∈ segsOf "/user/:id([0-9]+)".toList, selfMatch testRegexp seg = true) ∧
    ∃ info, findRoute testRegexp
        (exec testRegexp newRouter ([⟨"GET".toList, "/user".toList, some 1⟩] ++
          ⟨"GET".toList, "/user/:id([0-9]+)".toList, some 2⟩ ::
            [⟨"GET".toList, "/user/*".toList, some 3⟩]))
        "GET".toList "/user/:id([0-9]+)".toList = .ok (some info) ∧
      info.n.handler = some 2 :=
  ⟨by decide, by decide,
    C1_register_then_lookup testRegexp [⟨"GET".toList, "/user".toList, some 1⟩]
      [⟨"GET".toList, "/user/*".toList, some 3⟩]
      ⟨"GET".toList, "/user/:id([0-9]+)".toList, some 2⟩
      (by decide) (by decide) (by decide)⟩

/-- C2 (counterexample): on the empty router `addRoute(GET, /a, nil)` returns
and leaves the node `a` without a handler, so that `addRoute(GET, /a, h)`
returns too, instead of the panic with the path conflict, and binds `h`. -/
theorem C2_counterexample :
    (addRoute testRegexp newRouter "GET".toList "/a".toList none).2 = none ∧
    (addRoute testRegexp (addRoute testRegexp newRouter "GET".toList "/a".toList none).1
      "GET".toList "/a".toList (some 2)).2 = none ∧
    (routeNode (addRoute testRegexp newRouter "GET".toList "/a".toList none).1
      "GET".toList ["a".toList]).map (fun x => x.handler) = some none ∧
    (routeNode
      (addRoute testRegexp (addRoute testRegexp newRouter "GET".toList "/a".toList none).1
        "GET".toList "/a".toList (some 2)).1
      "GET".toList ["a".toList]).map (fun x => x.handler) = some (some 2) := by
  refine ⟨by decide, by decide, by decide, by decide⟩

/-- C2 (amended): in a router obtained from `newRouter()` by `addRoute` calls,
once `addRoute(method, path, h1)` has returned with a handler `h1` that is not
`nil`, and whatever calls followed it, `addRoute(method, path, h2)` panics
with the path conflict that names `path` and leaves the router as it was. -/
theorem C2_duplicate_rejected (re : Regexp) (before between : List Call)
    (method path : Str) (h1 h2 : HandleFunc)
    (hok : (addRoute re (exec re newRouter before) method path h1).2 = none)
    (hfun : h1 ≠ none) :
    addRoute re (exec re newRouter (before ++ ⟨method, path, h1⟩ :: between)) method path h2 =
      (exec re newRouter (before ++ ⟨method, path, h1⟩ :: between),
        some (.pathConflict path)) := by
  have hwf : (exec re newRouter (before ++ ⟨method, path, h1⟩ :: between)).WF re :=
    exec_wf _ _ (wf_newRouter re)
  obtain ⟨x, hx, hh⟩ := addRoute_routeNode hok
  obtain ⟨x', hx', hh'⟩ := exec_preserves re between _ _ _ _ hx
  have hsome : x.handler.isSome = true := by
    rw [hh]
    exact Option.isSome_iff_ne_none.2 hfun
  have e : exec re (addRoute re (exec re newRouter before) method path h1).1 between =
      exec re newRouter (before ++ ⟨method, path, h1⟩ :: between) := by
    rw [exec_append, exec_cons]
  rw [e] at hx'
  generalize exec re newRouter (before ++ ⟨method, path, h1⟩ :: between) = r at hwf hx' ⊢
  rw [addRoute_of_valid re r method path h2 (addRoute_ok_valid hok)]
  unfold routeNode at hx'
  cases ht : r.trees method with
  | none => simp [ht] at hx'
  | some root =>
    rw [ht] at hx'
    simp only [Option.some_bind] at hx'
    have hroot : rootOf r method = root := by simp [rootOf, ht]
    rw [hroot, addSegs_duplicate re path h2 _ root x' (hwf method root ht) hx'
      (by rw [hh' hsome]; exact hsome)]
    simp only
    rw [setTree_self _ _ _ ht]

/-- C2 (witness): `/user/:id` registered twice with `/user/home` registered in between. -/
theorem C2_duplicate_rejected_witness :
    (addRoute testRegexp (exec testRegexp newRouter []) "GET".toList "/user/:id".toList
      (some 1)).2 = none ∧
    addRoute testRegexp
      (exec testRegexp newRouter
        ([] ++ ⟨"GET".toList, "/user/:id".toList, some 1⟩ ::
          [⟨"GET".toList, "/user/home".toList, some 3⟩]))
      "GET".toList "/user/:id".toList (some 2) =
      (exec testRegexp newRouter
        ([] ++ ⟨"GET".toList, "/user/:id".toList, some 1⟩ ::
          [⟨"GET".toList, "/user/home".toList, some 3⟩]),
        some (.pathConflict "/user/:id".toList)) :=
  ⟨by decide,
    C2_duplicate_rejected testRegexp [] [⟨"GET".toList, "/user/home".toList, some 3⟩]
      "GET".toList "/user/:id".toList (some 1) (some 2) (by decide) (by decide)⟩

/-- C3: in a router obtained from `newRouter()` by a sequence of `addRoute`
calls, each of which returned or panicked, every node of every tree has at
most one of `starChild`, `paramChild` and `regChild`. -/
theorem C3_mutual_exclusion (re : Regexp) (calls : List Call) (method : Str) (root : node)
    (pos : List Slot) (m : node)
    (hroot : (exec re newRouter calls).trees method = some root)
    (hm : descend root pos = some m) : m.specialCount ≤ 1 :=
  (exec_wf calls _ (wf_newRouter re) method root hroot pos m hm).special

/-- C3 (witness): the node `a` after `/a/*` was registered and `/a/:id`, `/a/b//c`
were rejected. -/
theorem C3_mutual_exclusion_witness :
    ((exec testRegexp newRouter
      [⟨"GET".toList, "/a/*".toList, some 1⟩, ⟨"GET".toList, "/a/:id".toList, some 2⟩,
        ⟨"GET".toList, "/a/b//c".toList, some 3⟩]).trees "GET".toList).isSome = true ∧
    ((rootOf (exec testRegexp newRouter
      [⟨"GET".toList, "/a/*".toList, some 1⟩, ⟨"GET".toList, "/a/:id".toList, some 2⟩,
        ⟨"GET".toList, "/a/b//c".toList, some 3⟩]) "GET".toList).child
          (.static "a".toList)).isSome = true ∧
    (((rootOf (exec testRegexp newRouter
      [⟨"GET".toList, "/a/*".toList, some 1⟩, ⟨"GET".toList, "/a/:id".toList, some 2⟩,
        ⟨"GET".toList, "/a/b//c".toList, some 3⟩]) "GET".toList).child
          (.static "a".toList)).getD (newNode [])).specialCount ≤ 1 :=
  ⟨by decide, by decide, C3_mutual_exclusion testRegexp
      [⟨"GET".toList, "/a/*".toList, some 1⟩, ⟨"GET".toList, "/a/:id".toList, some 2⟩,
        ⟨"GET".toList, "/a/b//c".toList, some 3⟩] "GET".toList _ [.static "a".toList] _ rfl rfl⟩

/-! ### Rejected registrations -/

/-- On a node with a special child, `childOrCreate` for a segment of another
special kind panics with the conflict that names the child present. -/
theorem childOrCreate_kind_conflict {re : Regexp} {n c : node} {slot : Slot} {seg : Str}
    (hl : Local re n) (hc : n.child slot = some c) (hslot : slot.isSpecial = true)
    (hseg : (slotOf seg).isSpecial = true) (hdiff : slotOf seg ≠ slot) :
    ∃ e, kindConflict slot = some e ∧ childOrCreate re n seg = .error e := by
  have hex := special_excl n hl.special
  have hne : seg ≠ [] := by
    rintro rfl
    simp [slotOf, matchRegs, Slot.isSpecial] at hseg
  unfold childOrCreate
  cases hk : slotOf seg with
  | static key => simp [hk, Slot.isSpecial] at hseg
  | reg =>
    have h1 := (slotOf_reg_iff seg).1 hk
    cases hr : matchRegs seg with
    | none => simp [hr] at h1
    | some regs =>
      cases slot with
      | static key => simp [Slot.isSpecial] at hslot
      | reg => exact absurd hk hdiff
      | star =>
        simp only [node.child] at hc
        exact ⟨_, rfl, by simp [hc]⟩
      | param =>
        simp only [node.child] at hc
        obtain ⟨hs, _⟩ := hex.2.1 (by simp [hc])
        exact ⟨_, rfl, by simp [hc, hs]⟩
  | param =>
    obtain ⟨h1, h2⟩ := (slotOf_param_iff seg).1 hk
    cases seg with
    | nil => exact absurd rfl hne
    | cons c0 rest =>
      have h2' : c0 = ':' := by simpa using h2
      subst h2'
      cases slot with
      | static key => simp [Slot.isSpecial] at hslot
      | param => exact absurd hk hdiff
      | star =>
        simp only [node.child] at hc
        exact ⟨_, rfl, by simp [h1, hc]⟩
      | reg =>
        simp only [node.child] at hc
        obtain ⟨hs, _⟩ := hex.1 (by simp [hc])
        exact ⟨_, rfl, by simp [h1, hc, hs]⟩
  | star =>
    obtain ⟨h1, h2⟩ := (slotOf_star_iff seg).1 hk
    subst h2
    cases slot with
    | static key => simp [Slot.isSpecial] at hslot
    | star => exact absurd hk hdiff
    | param =>
      simp only [node.child] at hc
      exact ⟨_, rfl, by simp [h1, hc]⟩
    | reg =>
      simp only [node.child] at hc
      obtain ⟨_, hp⟩ := hex.1 (by simp [hc])
      exact ⟨_, rfl, by simp [h1, hc, hp]⟩

/-- A registration whose first segments lead to an existing node, at which
`childOrCreate` panics on the next segment, changes nothing. -/
theorem addSegs_error_at (re : Regexp) (path : Str) (h : HandleFunc) (pre : List Str) :
    ∀ (n parent : node) (seg : Str) (rest : List Str) (e : Panic), WF re n →
      nodeAt n pre = some parent → seg ≠ [] → childOrCreate re parent seg = .error e →
      addSegs re path h (pre ++ seg :: rest) n = (n, some e) := by
  induction pre with
  | nil =>
    intro n parent seg rest e _ hp hne hcc
    simp only [nodeAt, Option.some.injEq] at hp
    subst hp
    simp only [List.nil_append]
    unfold addSegs
    simp [hne, hcc]
  | cons s pre ih =>
    intro n parent seg rest e hn hp hne hcc
    simp only [nodeAt] at hp
    cases hx : n.step s with
    | none => simp [hx] at hp
    | some x =>
      rw [hx] at hp
      simp only [Option.some_bind] at hp
      have hx2 := (step_some_iff n s x).1 hx
      have hcs := childOrCreate_of_step (wf_local hn) hx
      simp only [List.cons_append]
      unfold addSegs
      rw [if_neg hx2.1]
      simp only [hcs]
      rw [ih x parent seg rest e (wf_child hn hx2.2.1) hp hne hcc]
      simp only
      rw [withChild_self _ _ _ hx2.2.1]

/-- C4: in a router obtained from `newRouter()` by `addRoute` calls, let a
node `parent`, reached from the root of `method` by the segments `pre`, have
a special child in `slot` (wildcard, named parameter or regular expression).
A call of `addRoute` on that method with a path that passes the checks made
on the whole path (it starts with `/` and does not end with `/`) and whose
segments are `pre`, then a segment of a different special kind, then any
others, panics with the conflict that names the kind present, for each of the
six ordered pairs of kinds, and the router after the call is the router
before it. -/
theorem C4_kind_conflict (re : Regexp) (calls : List Call) (method path : Str)
    (h : HandleFunc) (pre rest : List Str) (seg : Str) (parent existing : node) (slot : Slot)
    (hparent : routeNode (exec re newRouter calls) method pre = some parent)
    (hexisting : parent.child slot = some existing)
    (hslot : slot.isSpecial = true)
    (hseg : (slotOf seg).isSpecial = true)
    (hdiff : slotOf seg ≠ slot)
    (hhead : path.head? = some '/')
    (hlast : path.getLast? ≠ some '/')
    (hsegs : (split path).tail = pre ++ seg :: rest) :
    addRoute re (exec re newRouter calls) method path h =
      (exec re newRouter calls, kindConflict slot) := by
  have hwf : (exec re newRouter calls).WF re := exec_wf _ _ (wf_newRouter re)
  generalize exec re newRouter calls = r at hwf hparent ⊢
  have hne : path ≠ [] := by
    rintro rfl
    simp at hhead
  have hp : path ≠ ['/'] := by
    rintro rfl
    simp at hlast
  rw [addRoute_of_valid re r method path h ⟨hne, hhead, Or.inr hlast⟩]
  have hso : segsOf path = pre ++ seg :: rest := by simp [segsOf, hp, hsegs]
  unfold routeNode at hparent
  cases ht : r.trees method with
  | none => simp [ht] at hparent
  | some root =>
    rw [ht] at hparent
    simp only [Option.some_bind] at hparent
    have hroot : rootOf r method = root := by simp [rootOf, ht]
    have hwp : WF re parent := by
      intro pos m hm
      have key : ∀ (segs : List Str) (n p : node), WF re n → nodeAt n segs = some p → WF re p := by
        intro segs
        induction segs with
        | nil =>
          intro n p hn hnp
          simp only [nodeAt, Option.some.injEq] at hnp
          subst hnp
          exact hn
        | cons s ss ih =>
          intro n p hn hnp
          simp only [nodeAt] at hnp
          cases hx : n.step s with
          | none => simp [hx] at hnp
          | some x =>
            rw [hx] at hnp
            simp only [Option.some_bind] at hnp
            exact ih x p (wf_child hn ((step_some_iff n s x).1 hx).2.1) hnp
      exact key pre root parent (hwf method root ht) hparent pos m hm
    obtain ⟨e, he, hcc⟩ :=
      childOrCreate_kind_conflict (wf_local hwp) hexisting hslot hseg hdiff
    have hsne : seg ≠ [] := by
      rintro rfl
      simp [slotOf, matchRegs, Slot.isSpecial] at hseg
    rw [hroot, hso, addSegs_error_at re path h pre root parent seg rest e (hwf method root ht)
      hparent hsne hcc, he]
    simp only
    rw [setTree_self _ _ _ ht]

/-- C4 (witness): `/a/:id(.*)/x` after `/a/:id/y` was registered. -/
theorem C4_kind_conflict_witness :
    addRoute testRegexp (exec testRegexp newRouter [⟨"GET".toList, "/a/:id/y".toList, some 1⟩])
      "GET".toList "/a/:id(.*)/x".toList (some 2) =
      (exec testRegexp newRouter [⟨"GET".toList, "/a/:id/y".toList, some 1⟩],
        some .hasParamChild) :=
  C4_kind_conflict testRegexp [⟨"GET".toList, "/a/:id/y".toList, some 1⟩] "GET".toList
    "/a/:id(.*)/x".toList (some 2) ["a".toList] ["x".toList] ":id(.*)".toList _ _ .param
    (by rfl) (by rfl) (by decide) (by decide) (by decide) (by decide) (by decide) (by decide)

/-! ### Paths that are rejected -/

theorem split_append_slash (u w : Str) : split (u ++ '/' :: w) = split u ++ split w := by
  induction u with
  | nil => simp [split]
  | cons c cs ih =>
    by_cases hc : c = '/'
    · subst hc
      simp only [List.cons_append, split_slash_cons, ih]
    · rw [List.cons_append, split_cons_of_ne c _ hc, split_cons_of_ne c cs hc, ih]
      have hne := split_ne_nil cs
      cases hs : split cs with
      | nil => exact absurd hs hne
      | cons s ss => simp

theorem empty_mem_tail_of_infix (path : Str) (h : ['/', '/'] <:+: path) :
    [] ∈ (split path).tail := by
  obtain ⟨u, v, rfl⟩ := h
  have e : u ++ ['/', '/'] ++ v = u ++ '/' :: ('/' :: v) := by simp
  rw [e, split_append_slash, split_slash_cons]
  have hne := split_ne_nil u
  cases hs : split u with
  | nil => exact absurd hs hne
  | cons s ss => simp

theorem descend_withChild (n : node) (slot t : Slot) (c : node) (pos : List Slot) :
    descend (n.withChild slot c) (t :: pos) =
      if t = slot then descend c pos else descend n (t :: pos) := by
  simp only [descend, withChild_child]
  split_ifs <;> rfl

theorem nodeHandler_newNode (p : Str) (pos : List Slot) : nodeHandler (newNode p) pos = none := by
  cases pos with
  | nil => rfl
  | cons t pos => cases t <;> simp [nodeHandler, descend, node.child, newNode, mapGet]

theorem nodeHandler_cons (n : node) (t : Slot) (pos : List Slot) :
    nodeHandler n (t :: pos) = (n.child t).bind (fun c => nodeHandler c pos) := by
  simp only [nodeHandler, descend]
  cases n.child t <;> rfl

theorem nodeHandler_withChild (n : node) (slot t : Slot) (c : node) (pos : List Slot) :
    nodeHandler (n.withChild slot c) (t :: pos) =
      if t = slot then nodeHandler c pos else nodeHandler n (t :: pos) := by
  simp only [nodeHandler, descend_withChild]
  split_ifs <;> rfl

/-- The loop panics when a segment is empty or is a regular-expression segment
whose pattern does not compile. -/
theorem addSegs_fails_of_bad (re : Regexp) (path : Str) (h : HandleFunc) (segs : List Str) :
    ∀ n : node,
      (∃ seg ∈ segs, seg = [] ∨ ∃ regs, matchRegs seg = some regs ∧ re.compiles regs.2 = false) →
      (addSegs re path h segs n).2 ≠ none := by
  induction segs with
  | nil => intro n ⟨seg, hs, _⟩; simp at hs
  | cons s segs ih =>
    intro n ⟨seg, hs, hbad⟩
    unfold addSegs
    split_ifs with h1
    · simp
    · split
      · simp
      · rename_i slot child hcc
        simp only
        rcases List.mem_cons.1 hs with rfl | hmem
        · rcases hbad with rfl | ⟨regs, hregs, hcomp⟩
          · exact absurd rfl h1
          · obtain ⟨_, hslot, _, hreg, _, _⟩ := childOrCreate_ok hcc
            have hk : slotOf seg = .reg := (slotOf_reg_iff seg).2 (by simp [hregs])
            obtain ⟨_, _, _, regs2, hregs2, hcomp2⟩ := hreg (by rw [hslot, hk])
            rw [hregs] at hregs2
            simp only [Option.some.injEq] at hregs2
            subst hregs2
            rw [hcomp] at hcomp2
            cases hcomp2
        · exact ih child ⟨seg, hmem, hbad⟩

/-- A run of the loop that panics binds no handler. -/
theorem addSegs_fail_handlers (re : Regexp) (path : Str) (h : HandleFunc) (segs : List Str) :
    ∀ n : node, (addSegs re path h segs n).2 ≠ none →
      ∀ pos, nodeHandler (addSegs re path h segs n).1 pos = nodeHandler n pos := by
  induction segs with
  | nil =>
    intro n hf pos
    unfold addSegs at hf ⊢
    split_ifs at hf ⊢ with h1
    · rfl
    · exact absurd rfl hf
  | cons s segs ih =>
    intro n hf pos
    unfold addSegs at hf ⊢
    split_ifs at hf ⊢ with h1
    · rfl
    · split at hf
      · rename_i e hcc
        simp only [hcc]
      · rename_i slot child hcc
        simp only [hcc]
        simp only at hf
        obtain ⟨_, _, hchild, _⟩ := childOrCreate_ok hcc
        cases pos with
        | nil => simp [nodeHandler, descend, withChild_handler]
        | cons t pos =>
          rw [nodeHandler_withChild]
          split_ifs with ht
          · subst ht
            rw [ih child hf pos, nodeHandler_cons]
            rcases hchild with hc | ⟨hc, hnew⟩
            · simp [hc]
            · rw [hc, hnew, nodeHandler_newNode]
              rfl
          · rfl

theorem childOrCreate_error_configuration {re : Regexp} {n : node} {seg : Str} {e : Panic}
    (hne : seg ≠ []) (h : childOrCreate re n seg = .error e) : e.isConfiguration = true := by
  unfold childOrCreate at h
  repeat' split at h
  all_goals first
    | exact absurd rfl hne
    | (simp only [Except.error.injEq] at h; subst h; rfl)
    | cases h

theorem addSegs_panic_configuration (re : Regexp) (path : Str) (h : HandleFunc)
    (segs : List Str) :
    ∀ (n : node) (e : Panic), (addSegs re path h segs n).2 = some e →
      e.isConfiguration = true := by
  induction segs with
  | nil =>
    intro n e he
    unfold addSegs at he
    split_ifs at he
    simp only [Option.some.injEq] at he
    subst he
    rfl
  | cons s segs ih =>
    intro n e he
    unfold addSegs at he
    split_ifs at he with h1
    · simp only [Option.some.injEq] at he
      subst he
      rfl
    · split at he
      · rename_i e' hcc
        simp only [Option.some.injEq] at he
        subst he
        exact childOrCreate_error_configuration h1 hcc
      · rename_i slot child hcc
        exact ih child e he

/-- Every panic of `addRoute` is one of its configuration errors. -/
theorem addRoute_panic_configuration (re : Regexp) (r : router) (method path : Str)
    (h : HandleFunc) (e : Panic) (he : (addRoute re r method path h).2 = some e) :
    e.isConfiguration = true := by
  by_cases hv : Valid path
  · rw [addRoute_of_valid re r method path h hv] at he
    exact addSegs_panic_configuration re path h _ _ e he
  · unfold addRoute at he
    split_ifs at he <;> first
      | (simp only [Option.some.injEq] at he; subst he; rfl)
      | (exfalso
         apply hv
         refine ⟨by assumption, ?_, ?_⟩
         · by_contra hc
           simp_all
         · simp_all)

theorem handlerAt_setTree (r : router) (method m : Str) (root : node) (pos : List Slot) :
    handlerAt (r.setTree method root) m pos =
      if m = method then nodeHandler root pos else handlerAt r m pos := by
  unfold handlerAt
  rw [setTree_trees]
  split_ifs <;> rfl

theorem nodeHandler_rootOf (r : router) (method : Str) (pos : List Slot) :
    nodeHandler (rootOf r method) pos = handlerAt r method pos := by
  unfold rootOf handlerAt
  cases r.trees method with
  | none => simp [nodeHandler_newNode]
  | some root => rfl

/-- A call of `addRoute` that panics binds no handler. -/
theorem addRoute_fail_handlers (re : Regexp) (r : router) (method path : Str) (h : HandleFunc)
    (hf : (addRoute re r method path h).2 ≠ none) (m : Str) (pos : List Slot) :
    handlerAt (addRoute re r method path h).1 m pos = handlerAt r m pos := by
  by_cases hv : Valid path
  · rw [addRoute_of_valid re r method path h hv] at hf ⊢
    simp only at hf ⊢
    rw [handlerAt_setTree]
    split_ifs with hm
    · rw [addSegs_fail_handlers re path h _ _ hf pos, nodeHandler_rootOf, hm]
    · rfl
  · obtain ⟨e, _, h1 | h1⟩ := addRoute_of_not_valid re r method path h hv
    · rw [h1]
    · rw [h1, handlerAt_setTree]
      split_ifs with hm
      · rw [nodeHandler_rootOf, hm]
      · rfl

/-- C5: for every router, method and handler, `addRoute` panics with a
configuration error when the path is empty, or does not start with `/`, or is
not `/` and ends with `/`, or contains `//`, or has a regular-expression
segment whose pattern does not compile; after such a call the handler at every
position of every tree is the one that was there before. -/
theorem C5_path_validation (re : Regexp) (r : router) (method path : Str) (h : HandleFunc)
    (hbad : path = [] ∨ path.head? ≠ some '/' ∨ (path ≠ ['/'] ∧ path.getLast? = some '/') ∨
      ['/', '/'] <:+: path ∨
      ∃ seg ∈ split path, ∃ regs, matchRegs seg = some regs ∧ re.compiles regs.2 = false) :
    (∃ e, (addRoute re r method path h).2 = some e ∧ e.isConfiguration = true) ∧
    ∀ m pos, handlerAt (addRoute re r method path h).1 m pos = handlerAt r m pos := by
  have hf : (addRoute re r method path h).2 ≠ none := by
    by_cases hv : Valid path
    · rw [addRoute_of_valid re r method path h hv]
      simp only
      obtain ⟨h1, h2, h3⟩ := hv
      apply addSegs_fails_of_bad
      rcases hbad with hb | hb | hb | hb | ⟨seg, hseg, regs, hregs, hcomp⟩
      · exact absurd hb h1
      · exact absurd h2 hb
      · rcases h3 with h3 | h3
        · exact absurd h3 hb.1
        · exact absurd hb.2 h3
      · have hp : path ≠ ['/'] := by
          rintro rfl
          obtain ⟨u, v, huv⟩ := hb
          have hl := congrArg List.length huv
          simp at hl
          omega
        refine ⟨[], ?_, Or.inl rfl⟩
        simpa [segsOf, hp] using empty_mem_tail_of_infix path hb
      · have hne : seg ≠ [] := by
          rintro rfl
          simp [matchRegs] at hregs
        have hp : path ≠ ['/'] := by
          rintro rfl
          have : split ['/'] = [[], []] := by decide
          rw [this] at hseg
          simp at hseg
          exact hne hseg
        refine ⟨seg, ?_, Or.inr ⟨regs, hregs, hcomp⟩⟩
        cases path with
        | nil => exact absurd rfl h1
        | cons c cs =>
          have hc : c = '/' := by simpa using h2
          subst hc
          rw [split_slash_cons] at hseg
          rcases List.mem_cons.1 hseg with hs | hs
          · exact absurd hs hne
          · simpa [segsOf, hp, split_slash_cons] using hs
    · obtain ⟨e, he, _⟩ := addRoute_of_not_valid re r method path h hv
      rw [he]
      simp
  refine ⟨?_, addRoute_fail_handlers re r method path h hf⟩
  cases he : (addRoute re r method path h).2 with
  | none => exact absurd he hf
  | some e => exact ⟨e, rfl, addRoute_panic_configuration re r method path h e he⟩

/-- C5 (witness): `/user//root` on the router that holds `/user`. -/
theorem C5_path_validation_witness :
    (['/', '/'] <:+: "/user//root".toList) ∧
    (∃ e, (addRoute testRegexp (exec testRegexp newRouter [⟨"GET".toList, "/user".toList, some 1⟩])
        "GET".toList "/user//root".toList (some 2)).2 = some e ∧ e.isConfiguration = true) ∧
    ∀ m pos, handlerAt (addRoute testRegexp
        (exec testRegexp newRouter [⟨"GET".toList, "/user".toList, some 1⟩])
        "GET".toList "/user//root".toList (some 2)).1 m pos =
      handlerAt (exec testRegexp newRouter [⟨"GET".toList, "/user".toList, some 1⟩]) m pos :=
  ⟨⟨"/user".toList, "root".toList, by decide⟩,
    C5_path_validation testRegexp (exec testRegexp newRouter [⟨"GET".toList, "/user".toList, some 1⟩])
      "GET".toList "/user//root".toList (some 2)
      (Or.inr (Or.inr (Or.inr (Or.inl ⟨"/user".toList, "root".toList, by decide⟩))))⟩

/-! ### Paths written from their segments -/

theorem joinPath_cons (s : Str) (ss : List Str) :
    joinPath (s :: ss) = '/' :: (s ++ joinPath ss) := by
  simp [joinPath]

theorem split_joinPath (segs : List Str) (hne : segs ≠ []) (h : ∀ s ∈ segs, '/' ∉ s) :
    split (joinPath segs) = [] :: segs := by
  cases segs with
  | nil => exact absurd rfl hne
  | cons s ss =>
    rw [joinPath_cons, split_slash_cons,
      split_append_joinPath ss s (h s (by simp)) (fun t ht => h t (List.mem_cons_of_mem _ ht))]

theorem getLast_joinPath (segs : List Str) (hne : segs ≠ []) (h : ∀ s ∈ segs, IsSegment s) :
    (joinPath segs).getLast? ≠ some '/' := by
  induction segs with
  | nil => exact absurd rfl hne
  | cons s ss ih =>
    have hs := h s (by simp)
    rw [joinPath_cons]
    cases ss with
    | nil =>
      simp only [joinPath, List.append_nil]
      intro e
      obtain ⟨ys, hys⟩ := List.getLast?_eq_some_iff.1 e
      cases ys with
      | nil =>
        simp only [List.nil_append, List.cons.injEq] at hys
        exact hs.1 hys.2
      | cons y ys =>
        simp only [List.cons_append, List.cons.injEq] at hys
        exact hs.2 (by rw [hys.2]; simp)
    | cons t ts =>
      have ih' := ih (by simp) (fun u hu => h u (List.mem_cons_of_mem _ hu))
      intro e
      apply ih'
      have hj : joinPath (t :: ts) ≠ [] := by simp [joinPath]
      obtain ⟨a, l, hal⟩ := List.exists_cons_of_ne_nil hj
      rw [hal] at e ⊢
      rw [show '/' :: (s ++ a :: l) = ('/' :: s) ++ a :: l by simp, List.getLast?_append] at e
      simpa using e

theorem valid_joinPath (segs : List Str) (hne : segs ≠ []) (h : ∀ s ∈ segs, IsSegment s) :
    Valid (joinPath segs) := by
  have hl := getLast_joinPath segs hne h
  cases segs with
  | nil => exact absurd rfl hne
  | cons s ss =>
    refine ⟨by simp [joinPath], by simp [joinPath], Or.inr hl⟩

theorem segsOf_joinPath (segs : List Str) (hne : segs ≠ []) (h : ∀ s ∈ segs, IsSegment s) :
    segsOf (joinPath segs) = segs := by
  have hl := getLast_joinPath segs hne h
  have hp : joinPath segs ≠ ['/'] := by
    intro e
    rw [e] at hl
    simp at hl
  simp [segsOf, hp, split_joinPath segs hne (fun s hs => (h s hs).2)]

theorem split_trim_joinPath (segs : List Str) (hne : segs ≠ []) (h : ∀ s ∈ segs, IsSegment s) :
    split (trim (joinPath segs)) = segs := by
  have hv := valid_joinPath segs hne h
  have hsp := split_joinPath segs hne (fun s hs => (h s hs).2)
  rw [split_trim_of_valid (joinPath segs) hv.2.1 (getLast_joinPath segs hne h)]
  · simp [hsp]
  · intro s hs
    rw [hsp] at hs
    exact (h s (by simpa using hs)).1

theorem joinPath_ne_root (segs : List Str) (hne : segs ≠ []) (h : ∀ s ∈ segs, IsSegment s) :
    joinPath segs ≠ ['/'] := by
  have hl := getLast_joinPath segs hne h
  intro e
  rw [e] at hl
  simp at hl

theorem split_no_slash (p : Str) : ∀ s ∈ split p, '/' ∉ s := by
  induction p with
  | nil => intro s hs; simp [split] at hs; simp [hs]
  | cons c cs ih =>
    intro s hs
    by_cases hc : c = '/'
    · subst hc
      rw [split_slash_cons] at hs
      rcases List.mem_cons.1 hs with rfl | h
      · simp
      · exact ih s h
    · rw [split_cons_of_ne c cs hc] at hs
      have hne := split_ne_nil cs
      cases hsp : split cs with
      | nil => exact absurd hsp hne
      | cons t ts =>
        rw [hsp] at hs ih
        simp only [List.headD_cons, List.tail_cons] at hs
        rcases List.mem_cons.1 hs with rfl | h
        · intro hm
          rcases List.mem_cons.1 hm with e | e
          · exact hc e.symm
          · exact ih t (by simp) e
        · exact ih s (List.mem_cons_of_mem _ h)

/-! ### Lookup of what was registered -/

theorem selfMatch_of_static (re : Regexp) (s : Str) (h : slotOf s = .static s) :
    selfMatch re s = true := by
  have := ((slotOf_static_iff s).1 h).1
  simp [selfMatch, this]

theorem bindParams_static (toks : List Str) (h : ∀ s ∈ toks, slotOf s = .static s) :
    ∀ (segs : List Str) (pp : Option (Str → Option Str)), bindParams toks segs pp = pp := by
  induction toks with
  | nil => intro segs pp; cases segs <;> rfl
  | cons t ts ih =>
    intro segs pp
    cases segs with
    | nil => rfl
    | cons s ss =>
      simp only [bindParams]
      rw [ih (fun u hu => h u (List.mem_cons_of_mem _ hu))]
      simp [bindParam, h t (by simp)]

theorem split_eq_singleton (x s : Str) (h : split x = [s]) : x = s := by
  induction x generalizing s with
  | nil =>
    have : split [] = [[]] := by decide
    rw [this] at h
    simpa using h
  | cons c cs ih =>
    by_cases hc : c = '/'
    · subst hc
      rw [split_slash_cons] at h
      simp only [List.cons.injEq] at h
      exact absurd h.2 (split_ne_nil cs)
    · rw [split_cons_of_ne c cs hc] at h
      simp only [List.cons.injEq] at h
      obtain ⟨h1, h2⟩ := h
      have hsp : split cs = [(split cs).headD []] := by
        cases hs : split cs with
        | nil => exact absurd hs (split_ne_nil cs)
        | cons a as =>
          rw [hs] at h2
          simp only [List.tail_cons] at h2
          rw [h2]
          rfl
      rw [ih _ hsp, h1]

/-- In a router obtained from `newRouter()`, the lookup of a path that a call
of the sequence registered ends at the node of the path, with the parameters
bound along the path, when each regular-expression segment of the path
matches its own text; the node carries the handler of the call when this
handler is not `nil`. -/
theorem lookup_registered (re : Regexp) (before after : List Call) (c : Call)
    (hok : (addRoute re (exec re newRouter before) c.method c.path c.handleFunc).2 = none)
    (hself : ∀ seg ∈ segsOf c.path, selfMatch re seg = true) :
    ∃ x, findRoute re (exec re newRouter (before ++ c :: after)) c.method c.path =
        .ok (some ⟨x, bindParams (segsOf c.path) (segsOf c.path) none⟩) ∧
      routeNode (exec re newRouter (before ++ c :: after)) c.method (segsOf c.path) = some x ∧
      (c.handleFunc ≠ none → x.handler = c.handleFunc) := by
  have hwf : (exec re newRouter (before ++ c :: after)).WF re :=
    exec_wf _ _ (wf_newRouter re)
  obtain ⟨x, hx, hh⟩ := addRoute_routeNode hok
  obtain ⟨x', hx', hh'⟩ := exec_preserves re after _ _ _ _ hx
  rw [← exec_cons, ← exec_append] at hx'
  refine ⟨x', findRoute_of_routeNode hwf (addRoute_ok_valid hok) hx' hself, hx', ?_⟩
  intro hfun
  rw [hh' (by rw [hh]; exact Option.isSome_iff_ne_none.2 hfun), hh]

/-- C6: let `s` be a literal segment and `sib` a special token (`:p`,
`:p(pattern)` or `*`).  When `/a/s` with handler `h1` and `/a/sib` with
handler `h2` are registered on the empty router for the same method, in either
order and both without a panic, `findRoute(method, /a/s)` finds a node whose
handler is `h1` and binds no parameter. -/
theorem C6_static_priority (re : Regexp) (method s sib : Str) (h1 h2 : HandleFunc)
    (calls : List Call)
    (hs : IsSegment s) (hstatic : slotOf s = .static s)
    (hsib : (slotOf sib).isSpecial = true)
    (hcalls : calls = [⟨method, joinPath ["a".toList, s], h1⟩,
        ⟨method, joinPath ["a".toList, sib], h2⟩] ∨
      calls = [⟨method, joinPath ["a".toList, sib], h2⟩,
        ⟨method, joinPath ["a".toList, s], h1⟩])
    (hok : allReturn re newRouter calls = true) :
    ∃ info, findRoute re (exec re newRouter calls) method (joinPath ["a".toList, s]) =
        .ok (some info) ∧ info.n.handler = h1 ∧ info.pathParams = none := by
  have hseg : ∀ t ∈ ["a".toList, s], IsSegment t := by
    intro t ht
    simp only [List.mem_cons, List.mem_singleton, List.not_mem_nil, or_false] at ht
    rcases ht with rfl | rfl
    · exact ⟨by decide, by decide⟩
    · exact hs
  have hst : ∀ t ∈ ["a".toList, s], slotOf t = .static t := by
    intro t ht
    simp only [List.mem_cons, List.mem_singleton, List.not_mem_nil, or_false] at ht
    rcases ht with rfl | rfl
    · decide
    · exact hstatic
  have hso := segsOf_joinPath ["a".toList, s] (by simp) hseg
  have hself : ∀ seg ∈ segsOf (joinPath ["a".toList, s]), selfMatch re seg = true := by
    intro seg hm
    simp only [hso] at hm
    exact selfMatch_of_static re seg (hst seg hm)
  have hpp : bindParams (segsOf (joinPath ["a".toList, s])) (segsOf (joinPath ["a".toList, s]))
      none = none := by
    simp only [hso]
    exact bindParams_static _ hst _ _
  have hne : s ≠ sib := by
    intro e
    rw [← e, hstatic] at hsib
    simp [Slot.isSpecial] at hsib
  have hdiff : segsOf (joinPath ["a".toList, s]) ≠ segsOf (joinPath ["a".toList, sib]) := by
    rw [hso]
    intro e
    have hp : joinPath ["a".toList, sib] ≠ ['/'] := by
      simp [joinPath]
    have hj : joinPath ["a".toList, sib] = '/' :: ("a".toList ++ '/' :: sib) := by
      simp [joinPath]
    simp only [segsOf, hp, if_false] at e
    rw [hj, split_slash_cons, List.tail_cons, split_append_slash] at e
    have ha : split "a".toList = ["a".toList] := by decide
    rw [ha] at e
    simp only [List.singleton_append, List.cons.injEq, true_and] at e
    exact hne (split_eq_singleton sib s e.symm).symm
  rcases hcalls with rfl | rfl
  · simp only [allReturn, Bool.and_eq_true, Option.isNone_iff_eq_none] at hok
    have hb : (addRoute re (exec re newRouter []) method (joinPath ["a".toList, s]) h1).2
        = none := hok.1
    obtain ⟨x, hx, hh⟩ := addRoute_routeNode hb
    obtain ⟨x', hx', _, hd'⟩ := addRoute_preserves re _ method (joinPath ["a".toList, sib]) h2
      method _ x hx
    have hwf : (exec re newRouter [⟨method, joinPath ["a".toList, s], h1⟩,
        ⟨method, joinPath ["a".toList, sib], h2⟩]).WF re := exec_wf _ _ (wf_newRouter re)
    refine ⟨_, findRoute_of_routeNode hwf (addRoute_ok_valid hb) hx' hself, ?_, hpp⟩
    show x'.handler = h1
    rw [hd' hdiff, hh]
  · simp only [allReturn, Bool.and_eq_true, Option.isNone_iff_eq_none] at hok
    have hb : (addRoute re (exec re newRouter [⟨method, joinPath ["a".toList, sib], h2⟩])
        method (joinPath ["a".toList, s]) h1).2 = none := hok.2.1
    obtain ⟨x, hx, hh⟩ := addRoute_routeNode hb
    have hwf : (exec re newRouter [⟨method, joinPath ["a".toList, sib], h2⟩,
        ⟨method, joinPath ["a".toList, s], h1⟩]).WF re := exec_wf _ _ (wf_newRouter re)
    exact ⟨_, findRoute_of_routeNode hwf (addRoute_ok_valid hb) hx hself, hh, hpp⟩

/-- C6 (witness): `/a/7` and `/a/:id([0-9]+)`, the pattern of which matches `7`. -/
theorem C6_static_priority_witness :
    allReturn testRegexp newRouter
      [⟨"GET".toList, joinPath ["a".toList, ":id([0-9]+)".toList], some 2⟩,
        ⟨"GET".toList, joinPath ["a".toList, "7".toList], some 1⟩] = true ∧
    testRegexp.matchString "[0-9]+".toList "7".toList = true ∧
    ∃ info, findRoute testRegexp (exec testRegexp newRouter
        [⟨"GET".toList, joinPath ["a".toList, ":id([0-9]+)".toList], some 2⟩,
          ⟨"GET".toList, joinPath ["a".toList, "7".toList], some 1⟩])
        "GET".toList (joinPath ["a".toList, "7".toList]) = .ok (some info) ∧
      info.n.handler = some 1 ∧ info.pathParams = none :=
  ⟨by decide, by decide,
    C6_static_priority testRegexp "GET".toList "7".toList ":id([0-9]+)".toList (some 1)
      (some 2) _
      ⟨by decide, by decide⟩ (by decide) (by decide) (Or.inr rfl) (by decide)⟩

/-! ### Wildcards -/

/-- From a node without children, every further segment falls back to the
wildcard recorded. -/
theorem walk_leaf (re : Regexp) (n star : node) (segs : List Str)
    (pp : Option (Str → Option Str))
    (h1 : n.children = none) (h2 : n.starChild = none) (h3 : n.paramChild = none)
    (h4 : n.regChild = none) (hne : segs ≠ []) :
    walk re segs n pp (some star) = .ok (some ⟨star, pp⟩) := by
  cases segs with
  | nil => exact absurd rfl hne
  | cons s ss =>
    rw [walk]
    unfold loopBody
    simp [childOf, childOfSpecial, h1, h2, h3, h4]

theorem walk_static_child (re : Regexp) {n c : node} {seg : Str}
    (h : mapGet n.children seg = some c) (segs : List Str) (pp : Option (Str → Option Str))
    (st : Option node) :
    walk re (seg :: segs) n pp st =
      walk re segs c pp (if n.starChild.isSome then n.starChild else st) := by
  rw [walk]
  unfold loopBody
  rw [childOf_of_static h]
  simp [regBlock, paramBlock]

theorem walk_star_child (re : Regexp) {n c : node} {seg : Str}
    (h : mapGet n.children seg = none) (hr : n.regChild = none) (hp : n.paramChild = none)
    (hs : n.starChild = some c) (segs : List Str) (pp : Option (Str → Option Str))
    (st : Option node) :
    walk re (seg :: segs) n pp st = walk re segs c pp (some c) := by
  rw [walk]
  unfold loopBody
  rw [childOf_of_not_static h]
  simp [childOfSpecial, hr, hp, hs, regBlock, paramBlock]

/-- C7: on a router in which `/order/*` with handler `h` is the only route of
the method, for every non-empty list of segments `s1, ..., sn`, the lookup of
`/order/s1/.../sn` finds the `*` node, whose handler is `h`. -/
theorem C7_wildcard_suffix (re : Regexp) (r0 : router) (method : Str) (h : HandleFunc)
    (segs : List Str) (hnone : r0.trees method = none) (hne : segs ≠ [])
    (hsegs : ∀ s ∈ segs, IsSegment s) :
    findRoute re (addRoute re r0 method "/order/*".toList h).1 method
        (joinPath ("order".toList :: segs)) =
      .ok (some ⟨⟨"*".toList, none, none, none, none, h⟩, none⟩) := by
  have hall : ∀ s ∈ "order".toList :: segs, IsSegment s := by
    intro s hs
    rcases List.mem_cons.1 hs with rfl | hs
    · exact ⟨by decide, by decide⟩
    · exact hsegs s hs
  have htree : (addRoute re r0 method "/order/*".toList h).1.trees method =
      some ⟨['/'], mapSet none "order".toList
        ⟨"order".toList, none, some ⟨"*".toList, none, none, none, none, h⟩, none, none,
          none⟩, none, none, none, none⟩ := by
    rw [addRoute_of_valid re r0 method _ h ⟨by decide, by decide, Or.inr (by decide)⟩]
    simp only [setTree_trees, if_true, rootOf, hnone, Option.getD_none]
    rfl
  unfold findRoute
  rw [htree]
  simp only [joinPath_ne_root _ (by simp) hall, if_false]
  rw [split_trim_joinPath _ (by simp) hall]
  cases segs with
  | nil => exact absurd rfl hne
  | cons s ss =>
    rw [walk_static_child re (c := ⟨"order".toList, none,
      some ⟨"*".toList, none, none, none, none, h⟩, none, none, none⟩) (by simp [mapGet, mapSet])]
    rw [walk_star_child re (n := ⟨"order".toList, none,
      some ⟨"*".toList, none, none, none, none, h⟩, none, none, none⟩)
      (c := ⟨"*".toList, none, none, none, none, h⟩) rfl rfl rfl rfl]
    cases ss with
    | nil => rfl
    | cons t ts => exact walk_leaf re _ _ _ _ rfl rfl rfl rfl (by simp)

/-- C7 (witness): the lookup of `/order/x/y/z`. -/
theorem C7_wildcard_suffix_witness :
    newRouter.trees "GET".toList = none ∧
    findRoute testRegexp (addRoute testRegexp newRouter "GET".toList "/order/*".toList (some 5)).1
        "GET".toList (joinPath ("order".toList :: ["x".toList, "y".toList, "z".toList])) =
      .ok (some ⟨⟨"*".toList, none, none, none, none, some 5⟩, none⟩) :=
  ⟨rfl, C7_wildcard_suffix testRegexp newRouter "GET".toList (some 5)
    ["x".toList, "y".toList, "z".toList] rfl (by simp)
    (by
      intro s hs
      simp only [List.mem_cons, List.mem_singleton, List.not_mem_nil, or_false] at hs
      rcases hs with rfl | rfl | rfl <;> exact ⟨by decide, by decide⟩)⟩

/-! ### Regular-expression children -/

theorem childOf_reg {root : node} {seg : Str} {child starNode : Option node}
    {isParamChild found : Bool}
    (h : childOf root seg = (child, starNode, true, isParamChild, found)) :
    child = root.regChild ∧ starNode = root.starChild ∧ isParamChild = false ∧
      found = true := by
  have key : ∀ {x : Option node × Option node × Bool × Bool × Bool},
      childOfSpecial root = x → x.2.2.1 = true →
      x.1 = root.regChild ∧ x.2.1 = root.starChild ∧ x.2.2.2.1 = false ∧ x.2.2.2.2 = true := by
    intro x hx hreg
    unfold childOfSpecial at hx
    split_ifs at hx <;> subst hx <;> simp_all
  unfold childOf at h
  split at h
  · simpa using key h rfl
  · split at h
    · simpa using key h rfl
    · simp at h

/-- The turn of the loop of `findRoute` in which the child resolved is the
regular-expression child and its pattern does not match the segment. -/
theorem walk_reg_reject (re : Regexp) (root c : node) (seg : Str) (segs : List Str)
    (pp : Option (Str → Option Str)) (st starNode : Option node) (isParamChild found : Bool)
    (regs : Str × Str)
    (hchild : childOf root seg = (some c, starNode, true, isParamChild, found))
    (hregs : matchRegs c.path = some regs) (hcomp : re.compiles regs.2 = true)
    (hmatch : re.matchString regs.2 seg = false) :
    walk re (seg :: segs) root pp st =
      .ok ((if starNode.isSome then starNode else st).map (fun star => ⟨star, pp⟩)) := by
  obtain ⟨_, _, _, hf⟩ := childOf_reg hchild
  subst hf
  rw [walk]
  unfold loopBody
  rw [hchild]
  simp only [Bool.true_eq_false, if_false, regBlock, if_true, hregs, hcomp, hmatch]
  cases (if starNode.isSome then starNode else st) <;> rfl

theorem tree_reg_home (re : Regexp) (r0 : router) (h : HandleFunc)
    (hnone : r0.trees "POST".toList = none)
    (hok : (addRoute re r0 "POST".toList "/:id([0-9]+)/home".toList h).2 = none) :
    re.compiles "[0-9]+".toList = true ∧
    (addRoute re r0 "POST".toList "/:id([0-9]+)/home".toList h).1.trees "POST".toList =
      some ⟨['/'], none, none, none,
        some ⟨":id([0-9]+)".toList,
          mapSet none "home".toList ⟨"home".toList, none, none, none, none, h⟩,
          none, none, none, none⟩, none⟩ := by
  have hm : matchRegs ":id([0-9]+)".toList = some ("id".toList, "[0-9]+".toList) := by decide
  have hm2 : matchRegs "home".toList = none := by decide
  have hsegs : segsOf "/:id([0-9]+)/home".toList = [":id([0-9]+)".toList, "home".toList] := by
    decide
  rw [addRoute_of_valid re r0 _ _ h ⟨by decide, by decide, Or.inr (by decide)⟩] at hok ⊢
  simp only [setTree_trees, if_true, rootOf, hnone, Option.getD_none, hsegs] at hok ⊢
  cases hc : re.compiles "[0-9]+".toList with
  | false =>
    exfalso
    have : childOrCreate re (newNode ['/']) ":id([0-9]+)".toList =
        .error (.regexpCompile "[0-9]+".toList) := by
      unfold childOrCreate
      simp only [hm]
      simp [newNode]
      exact hc
    unfold addSegs at hok
    rw [if_neg (by decide)] at hok
    simp only [this] at hok
    cases hok
  | true =>
    refine ⟨rfl, ?_⟩
    have e1 : childOrCreate re (newNode ['/']) ":id([0-9]+)".toList =
        .ok (.reg, newNode ":id([0-9]+)".toList) := by
      unfold childOrCreate
      simp only [hm]
      simp [newNode]
      exact hc
    have e2 : childOrCreate re (newNode ":id([0-9]+)".toList) "home".toList =
        .ok (.static "home".toList, newNode "home".toList) := by
      unfold childOrCreate
      simp only [hm2]
      rfl
    unfold addSegs
    rw [if_neg (by decide)]
    simp only [e1]
    unfold addSegs
    rw [if_neg (by decide)]
    simp only [e2]
    unfold addSegs
    rfl

/-- C8: in the loop of `findRoute`, when the child resolved for a segment is
the regular-expression child and the text of the segment does not match its
pattern, the lookup returns the wildcard node recorded last (`starNodeTemp`,
set at this node or before it) with found = true, and is not found when none
was recorded.  On a router whose only POST route is `/:id([0-9]+)/home`, the
lookup of `/s/home` is not found for every segment `s` that `[0-9]+` does
not match. -/
theorem C8_regex_rejection (re : Regexp) :
    (∀ (root c : node) (seg : Str) (segs : List Str) (pp : Option (Str → Option Str))
      (st starNode : Option node) (isParamChild found : Bool) (regs : Str × Str),
      childOf root seg = (some c, starNode, true, isParamChild, found) →
      matchRegs c.path = some regs → re.compiles regs.2 = true →
      re.matchString regs.2 seg = false →
      walk re (seg :: segs) root pp st =
        .ok ((if starNode.isSome then starNode else st).map (fun star => ⟨star, pp⟩))) ∧
    (∀ (r0 : router) (h : HandleFunc) (s : Str), r0.trees "POST".toList = none →
      (addRoute re r0 "POST".toList "/:id([0-9]+)/home".toList h).2 = none →
      IsSegment s → re.matchString "[0-9]+".toList s = false →
      findRoute re (addRoute re r0 "POST".toList "/:id([0-9]+)/home".toList h).1
        "POST".toList (joinPath [s, "home".toList]) = .ok none) := by
  refine ⟨fun root c seg segs pp st starNode isParamChild found regs h1 h2 h3 h4 =>
    walk_reg_reject re root c seg segs pp st starNode isParamChild found regs h1 h2 h3 h4, ?_⟩
  intro r0 h s hnone hok hs hmatch
  obtain ⟨hcomp, htree⟩ := tree_reg_home re r0 h hnone hok
  have hall : ∀ t ∈ [s, "home".toList], IsSegment t := by
    intro t ht
    simp only [List.mem_cons, List.mem_singleton, List.not_mem_nil, or_false] at ht
    rcases ht with rfl | rfl
    · exact hs
    · exact ⟨by decide, by decide⟩
  unfold findRoute
  rw [htree]
  simp only [joinPath_ne_root _ (by simp) hall, if_false]
  rw [split_trim_joinPath _ (by simp) hall]
  rw [walk_reg_reject re _ ⟨":id([0-9]+)".toList,
      mapSet none "home".toList ⟨"home".toList, none, none, none, none, h⟩,
      none, none, none, none⟩ s _ none none none false true ("id".toList, "[0-9]+".toList)
    (by simp [childOf, childOfSpecial]) rfl hcomp hmatch]
  rfl

/-- C8 (witness): the lookup of `/why/home`; and the turn of the loop at a
node `b` whose regular-expression child does not match `why`, when a wildcard
node was recorded before. -/
theorem C8_regex_rejection_witness :
    (newRouter.trees "POST".toList = none ∧
      (addRoute testRegexp newRouter "POST".toList "/:id([0-9]+)/home".toList (some 1)).2 = none ∧
      IsSegment "why".toList ∧
      testRegexp.matchString "[0-9]+".toList "why".toList = false ∧
      findRoute testRegexp
        (addRoute testRegexp newRouter "POST".toList "/:id([0-9]+)/home".toList (some 1)).1
        "POST".toList (joinPath ["why".toList, "home".toList]) = .ok none) ∧
    (childOf ⟨"b".toList, none, none, none, some (newNode ":id([0-9]+)".toList), none⟩
        "why".toList = (some (newNode ":id([0-9]+)".toList), none, true, false, true) ∧
      walk testRegexp ["why".toList, "x".toList]
          ⟨"b".toList, none, none, none, some (newNode ":id([0-9]+)".toList), none⟩ none
          (some (newNode "*".toList)) =
        .ok (some ⟨newNode "*".toList, none⟩)) :=
  ⟨⟨rfl, by decide, ⟨by decide, by decide⟩, by decide,
    (C8_regex_rejection testRegexp).2 newRouter (some 1) "why".toList rfl (by decide)
      ⟨by decide, by decide⟩ (by decide)⟩,
   ⟨rfl, (C8_regex_rejection testRegexp).1
      ⟨"b".toList, none, none, none, some (newNode ":id([0-9]+)".toList), none⟩
      (newNode ":id([0-9]+)".toList) "why".toList ["x".toList] none (some (newNode "*".toList))
      none false true ("id".toList, "[0-9]+".toList) rfl rfl (by decide) (by decide)⟩⟩

/-! ### Parameters -/

theorem bindParam_eq (tok seg : Str) (pp : Option (Str → Option Str)) :
    bindParam tok seg pp =
      match declaredName tok with
      | some name => mapSet pp name seg
      | none => pp := by
  unfold bindParam declaredName
  cases hk : slotOf tok with
  | static key => rfl
  | star => rfl
  | param => rfl
  | reg =>
    have h1 := (slotOf_reg_iff tok).1 hk
    cases hr : matchRegs tok with
    | none => simp [hr] at h1
    | some regs => rfl

theorem bindParams_eq (toks : List Str) :
    ∀ (segs : List Str) (pp : Option (Str → Option Str)),
      bindParams toks segs pp =
        (bindings toks segs).foldl (fun acc b => mapSet acc b.1 b.2) pp := by
  induction toks with
  | nil => intro segs pp; cases segs <;> rfl
  | cons tok toks ih =>
    intro segs pp
    cases segs with
    | nil => rfl
    | cons seg segs =>
      simp only [bindParams, bindings]
      rw [ih, bindParam_eq]
      cases declaredName tok <;> rfl

theorem foldl_mapSet_none (bs : List (Str × Str)) :
    bs.foldl (fun acc b => mapSet acc b.1 b.2) none = paramsOf bs := by
  induction bs using List.reverseRecOn with
  | nil => rfl
  | append_singleton bs b ih =>
    rw [List.foldl_append, ih]
    have hne : (bs ++ [b]).isEmpty = false := by cases bs <;> rfl
    simp only [List.foldl_cons, List.foldl_nil, paramsOf, hne, Bool.false_eq_true, if_false,
      List.reverse_append, List.reverse_cons, List.reverse_nil, List.nil_append,
      List.singleton_append]
    unfold mapSet
    simp only [Option.some.injEq]
    funext x
    rw [List.lookup_cons]
    by_cases hx : x = b.1
    · simp [hx]
    · have : (x == b.1) = false := by simpa using hx
      simp only [hx, if_false, this]
      cases bs with
      | nil => rfl
      | cons a as => rfl

theorem walk_param_child (re : Regexp) {n c : node} {seg : Str} {k : Str}
    (h : mapGet n.children seg = none) (hr : n.regChild = none) (hp : n.paramChild = some c)
    (hc : c.path = ':' :: k) (segs : List Str) (pp : Option (Str → Option Str))
    (st : Option node) :
    walk re (seg :: segs) n pp st =
      walk re segs c (mapSet pp k seg) (if n.starChild.isSome then n.starChild else st) := by
  rw [walk]
  unfold loopBody
  rw [childOf_of_not_static h]
  simp [childOfSpecial, hr, hp, regBlock, paramBlock, hc]

/-- C9 (counterexample): with `/:id/:id` registered, the lookup of `/1/2`
resolves both segments to named-parameter children that declare `id`; the
first consumed `1`, and the parameters returned map `id` to `2`. -/
theorem C9_counterexample :
    (addRoute testRegexp newRouter "GET".toList "/:id/:id".toList (some 1)).2 = none ∧
    ∃ info, findRoute testRegexp
        (addRoute testRegexp newRouter "GET".toList "/:id/:id".toList (some 1)).1
        "GET".toList "/1/2".toList = .ok (some info) ∧
      mapGet info.pathParams "id".toList = some "2".toList ∧
      mapGet info.pathParams "id".toList ≠ some "1".toList :=
  ⟨by decide, _, rfl, by decide, by decide⟩

/-- C9 (amended): in a router obtained from `newRouter()`, for a lookup in
which every segment resolves to a child, the parameters returned are the
bindings of the declared name of each traversed named-parameter child, and of
each traversed regular-expression child, to the text of the segment it
consumed, made in the order of the walk: a name declared by several traversed
children maps to the text consumed by the last of them, and the map is absent
when no such child was traversed.  With `/params/:username/detail` the only
route of the method, the lookup of `/params/s/detail` finds the `detail` node
with the parameters `username: s`, for every segment `s`. -/
theorem C9_parameter_binding (re : Regexp) :
    (∀ (calls : List Call) (method path : Str) (root m : node) (toks : List Str),
      (exec re newRouter calls).trees method = some root → path ≠ ['/'] →
      Resolves re root toks (split (trim path)) m →
      findRoute re (exec re newRouter calls) method path =
        .ok (some ⟨m, paramsOf (bindings toks (split (trim path)))⟩)) ∧
    (∀ (r0 : router) (method : Str) (h : HandleFunc) (s : Str), r0.trees method = none →
      IsSegment s →
      findRoute re (addRoute re r0 method "/params/:username/detail".toList h).1 method
          (joinPath ["params".toList, s, "detail".toList]) =
        .ok (some ⟨⟨"detail".toList, none, none, none, none, h⟩,
          mapSet none "username".toList s⟩)) := by
  constructor
  · intro calls method path root m toks hroot hp hres
    have hwf : (exec re newRouter calls).WF re := exec_wf _ _ (wf_newRouter re)
    unfold findRoute
    rw [hroot]
    simp only [hp, if_false]
    rw [walk_resolves toks _ root m (hwf method root hroot) hres, bindParams_eq,
      foldl_mapSet_none]
  · intro r0 method h s hnone hs
    have hall : ∀ t ∈ ["params".toList, s, "detail".toList], IsSegment t := by
      intro t ht
      simp only [List.mem_cons, List.mem_singleton, List.not_mem_nil, or_false] at ht
      rcases ht with rfl | rfl | rfl
      · exact ⟨by decide, by decide⟩
      · exact hs
      · exact ⟨by decide, by decide⟩
    have htree : (addRoute re r0 method "/params/:username/detail".toList h).1.trees method =
        some ⟨['/'], mapSet none "params".toList
          ⟨"params".toList, none, none,
            some ⟨":username".toList, mapSet none "detail".toList
              ⟨"detail".toList, none, none, none, none, h⟩, none, none, none, none⟩,
            none, none⟩, none, none, none, none⟩ := by
      rw [addRoute_of_valid re r0 method _ h ⟨by decide, by decide, Or.inr (by decide)⟩]
      simp only [setTree_trees, if_true, rootOf, hnone, Option.getD_none]
      rfl
    unfold findRoute
    rw [htree]
    simp only [joinPath_ne_root _ (by simp) hall, if_false]
    rw [split_trim_joinPath _ (by simp) hall]
    rw [walk_static_child re (c := ⟨"params".toList, none, none,
        some ⟨":username".toList, mapSet none "detail".toList
          ⟨"detail".toList, none, none, none, none, h⟩, none, none, none, none⟩,
        none, none⟩) (by simp [mapGet, mapSet])]
    rw [walk_param_child re (n := ⟨"params".toList, none, none,
        some ⟨":username".toList, mapSet none "detail".toList
          ⟨"detail".toList, none, none, none, none, h⟩, none, none, none, none⟩,
        none, none⟩) (c := ⟨":username".toList, mapSet none "detail".toList
          ⟨"detail".toList, none, none, none, none, h⟩, none, none, none, none⟩)
      (k := "username".toList) rfl rfl rfl rfl]
    rw [walk_static_child re (c := ⟨"detail".toList, none, none, none, none, h⟩)
      (by simp [mapGet, mapSet])]
    rfl

/-- C9 (witness): the lookup of `/params/why/detail`; and the lookup of `/1/2`
with `/:id/:name` registered, which binds `id` and `name`. -/
theorem C9_parameter_binding_witness :
    (newRouter.trees "POST".toList = none ∧ IsSegment "why".toList ∧
      findRoute testRegexp
          (addRoute testRegexp newRouter "POST".toList "/params/:username/detail".toList (some 1)).1
          "POST".toList (joinPath ["params".toList, "why".toList, "detail".toList]) =
        .ok (some ⟨⟨"detail".toList, none, none, none, none, some 1⟩,
          mapSet none "username".toList "why".toList⟩)) ∧
    (Resolves testRegexp
        (rootOf (exec testRegexp newRouter [⟨"GET".toList, "/:id/:name".toList, some 1⟩])
          "GET".toList)
        [":id".toList, ":name".toList] (split (trim "/1/2".toList))
        ⟨":name".toList, none, none, none, none, some 1⟩ ∧
      findRoute testRegexp (exec testRegexp newRouter [⟨"GET".toList, "/:id/:name".toList, some 1⟩])
          "GET".toList "/1/2".toList =
        .ok (some ⟨⟨":name".toList, none, none, none, none, some 1⟩,
          paramsOf [("id".toList, "1".toList), ("name".toList, "2".toList)]⟩)) :=
  ⟨⟨rfl, ⟨by decide, by decide⟩,
    (C9_parameter_binding testRegexp).2 newRouter "POST".toList (some 1) "why".toList rfl
      ⟨by decide, by decide⟩⟩,
   ⟨⟨_, rfl, rfl, _, rfl, rfl, rfl⟩,
    (C9_parameter_binding testRegexp).1 [⟨"GET".toList, "/:id/:name".toList, some 1⟩] "GET".toList
      "/1/2".toList _ _ [":id".toList, ":name".toList] rfl (by decide)
      ⟨_, rfl, rfl, _, rfl, rfl, rfl⟩⟩⟩

/-! ### Intermediate nodes -/

theorem nodeAt_append (pre : List Str) :
    ∀ (n m : node) (suf : List Str), nodeAt n (pre ++ suf) = some m →
      ∃ x, nodeAt n pre = some x := by
  induction pre with
  | nil => intro n m suf _; exact ⟨n, rfl⟩
  | cons s pre ih =>
    intro n m suf h
    simp only [List.cons_append, nodeAt] at h ⊢
    cases hx : n.step s with
    | none => simp [hx] at h
    | some x =>
      rw [hx] at h
      simp only [Option.some_bind] at h ⊢
      exact ih x m suf h

theorem segsOf_subset_split (path : Str) : ∀ s ∈ segsOf path, s ∈ split path := by
  intro s hs
  unfold segsOf at hs
  split_ifs at hs
  · simp at hs
  · exact List.mem_of_mem_tail hs

/-- C10: on the router built from `GET /`, `GET /user`, `GET /user/home` and
`GET /order/detail`, the lookup of `GET /order` finds the node `order`, which
has the child `detail` and no handler, and the lookup of `GET /nope` is not
found.  In a router obtained from `newRouter()`, for every path that a call
registered and every non-empty prefix of its segments that consists of literal
segments (every prefix, when all routes of the method are static), the lookup
of the path of that prefix is found. -/
theorem C10_intermediate_nodes (re : Regexp) :
    (∀ h1 h2 h3 h4 : HandleFunc,
      findRoute re (exec re newRouter [⟨"GET".toList, "/".toList, h1⟩,
          ⟨"GET".toList, "/user".toList, h2⟩, ⟨"GET".toList, "/user/home".toList, h3⟩,
          ⟨"GET".toList, "/order/detail".toList, h4⟩]) "GET".toList "/order".toList =
        .ok (some ⟨⟨"order".toList, mapSet none "detail".toList
          ⟨"detail".toList, none, none, none, none, h4⟩, none, none, none, none⟩, none⟩) ∧
      findRoute re (exec re newRouter [⟨"GET".toList, "/".toList, h1⟩,
          ⟨"GET".toList, "/user".toList, h2⟩, ⟨"GET".toList, "/user/home".toList, h3⟩,
          ⟨"GET".toList, "/order/detail".toList, h4⟩]) "GET".toList "/nope".toList =
        .ok none) ∧
    (∀ (before after : List Call) (c : Call) (pre : List Str),
      (addRoute re (exec re newRouter before) c.method c.path c.handleFunc).2 = none →
      pre ≠ [] → pre <+: segsOf c.path → (∀ seg ∈ pre, slotOf seg = .static seg) →
      ∃ info, findRoute re (exec re newRouter (before ++ c :: after)) c.method (joinPath pre) =
        .ok (some info)) := by
  refine ⟨fun h1 h2 h3 h4 => ⟨rfl, rfl⟩, ?_⟩
  intro before after c pre hok hne hpre hstatic
  have hwf : (exec re newRouter (before ++ c :: after)).WF re :=
    exec_wf _ _ (wf_newRouter re)
  obtain ⟨x, hx, _⟩ := addRoute_routeNode hok
  obtain ⟨x', hx', _⟩ := exec_preserves re after _ _ _ _ hx
  rw [← exec_cons, ← exec_append] at hx'
  obtain ⟨suf, hsuf⟩ := hpre
  unfold routeNode at hx'
  cases ht : (exec re newRouter (before ++ c :: after)).trees c.method with
  | none => simp [ht] at hx'
  | some root =>
    rw [ht] at hx'
    simp only [Option.some_bind] at hx'
    have hall_ne := nodeAt_ne_nil _ _ _ hx'
    rw [← hsuf] at hx'
    obtain ⟨y, hy⟩ := nodeAt_append pre root x' suf hx'
    have hseg : ∀ s ∈ pre, IsSegment s := by
      intro s hs
      have hmem : s ∈ segsOf c.path := by
        rw [← hsuf]
        exact List.mem_append_left _ hs
      exact ⟨hall_ne s hmem, split_no_slash c.path s (segsOf_subset_split c.path s hmem)⟩
    have hso := segsOf_joinPath pre hne hseg
    refine ⟨_, findRoute_of_routeNode (x := y) hwf (valid_joinPath pre hne hseg) ?_ ?_⟩
    · rw [hso]
      simp [routeNode, ht, hy]
    · intro seg hs
      rw [hso] at hs
      exact selfMatch_of_static re seg (hstatic seg hs)

/-- C10 (witness): the prefix `/order` of `/order/detail/full`, registered
between two other routes. -/
theorem C10_intermediate_nodes_witness :
    (addRoute testRegexp (exec testRegexp newRouter [⟨"GET".toList, "/user".toList, some 1⟩])
      "GET".toList "/order/detail/full".toList (some 2)).2 = none ∧
    ["order".toList] <+: segsOf "/order/detail/full".toList ∧
    ∃ info, findRoute testRegexp
        (exec testRegexp newRouter ([⟨"GET".toList, "/user".toList, some 1⟩] ++
          ⟨"GET".toList, "/order/detail/full".toList, some 2⟩ ::
            [⟨"GET".toList, "/order/*".toList, some 3⟩]))
        "GET".toList (joinPath ["order".toList]) = .ok (some info) :=
  ⟨by decide, ⟨["detail".toList, "full".toList], by decide⟩,
    (C10_intermediate_nodes testRegexp).2 [⟨"GET".toList, "/user".toList, some 1⟩]
      [⟨"GET".toList, "/order/*".toList, some 3⟩] ⟨"GET".toList, "/order/detail/full".toList, some 2⟩
      ["order".toList] (by decide) (by simp) ⟨["detail".toList, "full".toList], by decide⟩
      (by
        intro seg hs
        simp only [List.mem_singleton] at hs
        subst hs
        decide)⟩

/-! ### Conditions that hold at every node -/

theorem everywhere_newNode {P : node → Prop} (p : Str) (h : P (newNode p)) :
    Everywhere P (newNode p) := by
  intro pos m hm
  cases pos with
  | nil =>
    simp only [descend, Option.some.injEq] at hm
    subst hm
    exact h
  | cons s pos =>
    cases s <;> simp [descend, node.child, newNode, mapGet] at hm

theorem everywhere_child {P : node → Prop} {n c : node} {s : Slot} (h : Everywhere P n)
    (hc : n.child s = some c) : Everywhere P c := by
  intro pos m hm
  apply h (s :: pos) m
  simp [descend, hc, hm]

theorem everywhere_withChild {P : node → Prop} {n c : node} {slot : Slot}
    (hn : Everywhere P n) (hc : Everywhere P c) (hl : P (n.withChild slot c)) :
    Everywhere P (n.withChild slot c) := by
  intro pos m hm
  cases pos with
  | nil =>
    simp only [descend, Option.some.injEq] at hm
    subst hm
    exact hl
  | cons t pos =>
    rw [descend_withChild] at hm
    split_ifs at hm with ht
    · exact hc pos m hm
    · exact hn (t :: pos) m hm

theorem everywhere_handler {P : node → Prop} {n : node} (h : HandleFunc)
    (hn : Everywhere P n) (hl : P { n with handler := h }) :
    Everywhere P { n with handler := h } := by
  intro pos m hm
  cases pos with
  | nil =>
    simp only [descend, Option.some.injEq] at hm
    subst hm
    exact hl
  | cons t pos =>
    apply hn (t :: pos) m
    cases t <;> simpa [descend, node.child] using hm

/-- A condition that holds on new nodes, and that the binding of a handler
and the writing of the child returned by `childOrCreate` maintain, holds at
every node after a run of the loop of `addRoute`. -/
theorem everywhere_addSegs {P : node → Prop} (re : Regexp) (path : Str) (h : HandleFunc)
    (hnew : ∀ p, P (newNode p))
    (hhandler : ∀ (n : node) (f : HandleFunc), P n → P { n with handler := f })
    (hstep : ∀ (n child c : node) (seg : Str) (slot : Slot), P n →
      childOrCreate re n seg = .ok (slot, child) → c.path = child.path →
      P (n.withChild slot c))
    (segs : List Str) :
    ∀ n : node, Everywhere P n → Everywhere P (addSegs re path h segs n).1 := by
  induction segs with
  | nil =>
    intro n hn
    unfold addSegs
    split_ifs
    · exact hn
    · exact everywhere_handler _ hn (hhandler n _ (hn [] n rfl))
  | cons seg segs ih =>
    intro n hn
    unfold addSegs
    split_ifs
    · exact hn
    · split
      · exact hn
      · rename_i slot child hcc
        simp only
        obtain ⟨_, _, hchild, _⟩ := childOrCreate_ok hcc
        have hwc : Everywhere P child := by
          rcases hchild with hc | ⟨_, hc⟩
          · exact everywhere_child hn hc
          · rw [hc]; exact everywhere_newNode seg (hnew seg)
        exact everywhere_withChild hn (ih child hwc)
          (hstep n child _ seg slot (hn [] n rfl) hcc (addSegs_path _ _ _ _ _))

theorem everywhere_setTree {P : node → Prop} {r : router} (hr : r.Everywhere P)
    (method : Str) {root : node} (h : Everywhere P root) :
    (r.setTree method root).Everywhere P := by
  intro m x hx
  rw [setTree_trees] at hx
  split_ifs at hx with hm
  · simp only [Option.some.injEq] at hx
    subst hx
    exact h
  · exact hr m x hx

theorem everywhere_exec {P : node → Prop} (re : Regexp)
    (hnew : ∀ p, P (newNode p))
    (hhandler : ∀ (n : node) (f : HandleFunc), P n → P { n with handler := f })
    (hstep : ∀ (n child c : node) (seg : Str) (slot : Slot), P n →
      childOrCreate re n seg = .ok (slot, child) → c.path = child.path →
      P (n.withChild slot c))
    (calls : List Call) :
    ∀ r : router, r.Everywhere P → (exec re r calls).Everywhere P := by
  induction calls with
  | nil => intro r hr; exact hr
  | cons c cs ih =>
    intro r hr
    rw [exec_cons]
    apply ih
    have hroot : Everywhere P (rootOf r c.method) := by
      unfold rootOf
      cases ht : r.trees c.method with
      | none => exact everywhere_newNode _ (hnew _)
      | some root => exact hr c.method root ht
    by_cases hv : Valid c.path
    · rw [addRoute_of_valid re r c.method c.path c.handleFunc hv]
      exact everywhere_setTree hr _
        (everywhere_addSegs re _ _ hnew hhandler hstep _ _ hroot)
    · obtain ⟨e, _, h1 | h1⟩ := addRoute_of_not_valid re r c.method c.path c.handleFunc hv
      · rw [h1]; exact hr
      · rw [h1]; exact everywhere_setTree hr _ hroot

/-- In a router obtained from `newRouter()`, the text of every parameter child
is a named-parameter token. -/
theorem exec_paramOk (re : Regexp) (calls : List Call) :
    (exec re newRouter calls).Everywhere ParamOk := by
  refine everywhere_exec (P := ParamOk) re ?_ ?_ ?_ calls newRouter ?_
  · intro p c hc
    simp [newNode] at hc
  · intro n f hn c hc
    exact hn c hc
  · intro n child c seg slot hn hcc hp x hx
    obtain ⟨_, hslot, _, _, hparam, _⟩ := childOrCreate_ok hcc
    cases slot with
    | param =>
      simp only [node.withChild, Option.some.injEq] at hx
      subst hx
      rw [hp, (hparam rfl).1]
      exact hslot.symm
    | static key => exact hn x (by simpa [node.withChild] using hx)
    | star => exact hn x (by simpa [node.withChild] using hx)
    | reg => exact hn x (by simpa [node.withChild] using hx)
  · intro m root hm
    simp [newRouter] at hm

/-! ### The loop of findRoute does not panic -/

/-- The three results of `childOf`. -/
theorem childOf_cases (n : node) (seg : Str) :
    (∃ c, mapGet n.children seg = some c ∧
      childOf n seg = (some c, n.starChild, false, false, true)) ∨
    (mapGet n.children seg = none ∧ childOf n seg = childOfSpecial n) := by
  cases h : mapGet n.children seg with
  | some c => exact Or.inl ⟨c, rfl, childOf_of_static h⟩
  | none => exact Or.inr ⟨rfl, childOf_of_not_static h⟩

/-- At a node of a tree built by registration, the body of the loop of
`findRoute` returns or goes on with a child of the node; it does not panic. -/
theorem loopBody_no_panic {re : Regexp} {n : node} (hl : Local re n) (hp : ParamOk n)
    (seg : Str) (pp : Option (Str → Option Str)) (st : Option node) :
    (∃ r, loopBody re n seg pp st = .ret r) ∨
    (∃ slot c pp1 st1, loopBody re n seg pp st = .next (c, pp1, st1) ∧
      n.child slot = some c) := by
  unfold loopBody
  rcases childOf_cases n seg with ⟨c, hc, hco⟩ | ⟨_, hco⟩
  · rw [hco]
    right
    exact ⟨.static seg, c, pp, (if n.starChild.isSome then n.starChild else st),
      by simp [regBlock, paramBlock], hc⟩
  · rw [hco]
    unfold childOfSpecial
    cases hr : n.regChild with
    | some c =>
      obtain ⟨regs, hregs, hcomp⟩ := hl.reg c hr
      simp only [Option.isSome_some, if_true, Bool.true_eq_false, if_false, regBlock, hregs,
        hcomp]
      cases hm : re.matchString regs.2 seg with
      | false =>
        left
        simp only [if_true]
        cases (if n.starChild.isSome = true then n.starChild else st) <;> exact ⟨_, rfl⟩
      | true =>
        right
        exact ⟨.reg, c, mapSet pp regs.1 seg,
          (if n.starChild.isSome then n.starChild else st), by simp [paramBlock], hr⟩
    | none =>
      cases hpc : n.paramChild with
      | some c =>
        have hk := hp c hpc
        obtain ⟨_, h2⟩ := (slotOf_param_iff c.path).1 hk
        cases hcp : c.path with
        | nil => simp [hcp] at h2
        | cons c0 rest =>
          right
          exact ⟨.param, c, mapSet pp rest seg,
            (if n.starChild.isSome then n.starChild else st),
            by simp [regBlock, paramBlock, hcp], hpc⟩
      | none =>
        cases hs : n.starChild with
        | some c =>
          right
          exact ⟨.star, c, pp, some c, by simp [regBlock, paramBlock], hs⟩
        | none =>
          left
          simp only [Option.isSome_none, Bool.false_eq_true, if_false, if_true]
          cases st <;> exact ⟨_, rfl⟩

theorem walk_no_panic {re : Regexp} (segs : List Str) :
    ∀ (n : node), WF re n → Everywhere ParamOk n →
      ∀ (pp : Option (Str → Option Str)) (st : Option node),
        ∃ res, walk re segs n pp st = .ok res := by
  induction segs with
  | nil => intro n _ _ pp st; exact ⟨_, rfl⟩
  | cons seg segs ih =>
    intro n hn hpn pp st
    rw [walk]
    rcases loopBody_no_panic (wf_local hn) (hpn [] n rfl) seg pp st with
      ⟨r, hr⟩ | ⟨slot, c, pp1, st1, hnext, hc⟩
    · rw [hr]; exact ⟨_, rfl⟩
    · rw [hnext]
      exact ih c (wf_child hn hc) (everywhere_child hpn hc) pp1 st1

/-- C11: for every router obtained from `newRouter()` by a sequence of
`addRoute` calls, each run to its return or to its panic, and for every
method and path, `findRoute` returns (found or not found) and does not panic:
at every node of the router the text of the regular-expression child yields
a pattern, which compiles, the text of the parameter child is not empty, and
a child reported as found is not `nil`. -/
theorem C11_lookup_never_panics (re : Regexp) (calls : List Call) (method path : Str) :
    (∃ res, findRoute re (exec re newRouter calls) method path = .ok res) ∧
    (∀ (root : node) (pos : List Slot) (m : node),
      (exec re newRouter calls).trees method = some root → descend root pos = some m →
      (∀ c, m.regChild = some c →
        ∃ regs, matchRegs c.path = some regs ∧ re.compiles regs.2 = true) ∧
      (∀ c, m.paramChild = some c → c.path ≠ []) ∧
      (∀ seg, (childOf m seg).2.2.2.2 = true → (childOf m seg).1.isSome = true)) := by
  have hwf : (exec re newRouter calls).WF re := exec_wf _ _ (wf_newRouter re)
  have hpo := exec_paramOk re calls
  constructor
  · unfold findRoute
    cases ht : (exec re newRouter calls).trees method with
    | none => exact ⟨_, rfl⟩
    | some root =>
      simp only
      split_ifs
      · exact ⟨_, rfl⟩
      · exact walk_no_panic _ root (hwf method root ht) (hpo method root ht) _ _
  · intro root pos m hroot hm
    refine ⟨(hwf method root hroot pos m hm).reg, ?_, fun seg => childOf_found m seg⟩
    intro c hc hnil
    have hk := hpo method root hroot pos m hm c hc
    rw [hnil] at hk
    exact absurd hk (by decide)

/-- C11 (witness): a node of the router left by a registration and a rejected
registration. -/
theorem C11_lookup_never_panics_witness :
    ((exec testRegexp newRouter [⟨"GET".toList, "/a/:id([0-9]+)".toList, some 1⟩,
        ⟨"GET".toList, "/b/:x//y".toList, some 2⟩]).trees "GET".toList).isSome = true ∧
    (∀ c, ((descend (rootOf (exec testRegexp newRouter
          [⟨"GET".toList, "/a/:id([0-9]+)".toList, some 1⟩,
            ⟨"GET".toList, "/b/:x//y".toList, some 2⟩]) "GET".toList)
          [.static "b".toList]).getD (newNode [])).paramChild = some c → c.path ≠ []) :=
  ⟨by decide,
    ((C11_lookup_never_panics testRegexp [⟨"GET".toList, "/a/:id([0-9]+)".toList, some 1⟩,
        ⟨"GET".toList, "/b/:x//y".toList, some 2⟩] "GET".toList "/b/7".toList).2
      _ [.static "b".toList] _ rfl rfl).2.1⟩

/-- C12: for a method without a tree `findRoute` reports not found for every
path; for a method with a tree, `findRoute(method, "/")` finds the root of the
method, with no parameters, whatever the handler of the root. -/
theorem C12_verb_and_root (re : Regexp) (r : router) (method : Str) :
    (r.trees method = none → ∀ path, findRoute re r method path = .ok none) ∧
    (∀ root, r.trees method = some root →
      findRoute re r method ['/'] = .ok (some ⟨root, none⟩)) := by
  constructor
  · intro h path
    unfold findRoute
    rw [h]
  · intro root h
    unfold findRoute
    rw [h]
    simp

/-- C12 (witness): `OPTIONS /` on the empty router, and `DELETE /` after a
rejected registration left a root without handler. -/
theorem C12_verb_and_root_witness :
    (newRouter.trees "OPTIONS".toList = none ∧
      findRoute testRegexp newRouter "OPTIONS".toList "/".toList = .ok none) ∧
    ((addRoute testRegexp newRouter "DELETE".toList "x".toList (some 1)).1.trees "DELETE".toList =
        some (newNode ['/']) ∧
      findRoute testRegexp (addRoute testRegexp newRouter "DELETE".toList "x".toList (some 1)).1
        "DELETE".toList ['/'] = .ok (some ⟨newNode ['/'], none⟩)) :=
  ⟨⟨rfl, (C12_verb_and_root testRegexp newRouter "OPTIONS".toList).1 rfl "/".toList⟩,
    ⟨rfl, (C12_verb_and_root testRegexp _ "DELETE".toList).2 _ rfl⟩⟩

/-! ### Tokens of the exact form `:name(pattern)` -/

theorem greedyGroup_append (pat : Str) (h : '\n' ∉ pat) :
    greedyGroup (pat ++ [')']) = some pat := by
  induction pat with
  | nil => decide
  | cons c cs ih =>
    have hc : c ≠ '\n' := fun e => h (by simp [e])
    have hcs : '\n' ∉ cs := fun e => h (List.mem_cons_of_mem _ e)
    rw [List.cons_append, greedyGroup, if_neg hc, ih hcs]

theorem lazyGroup_append (name pat : Str) (h1 : '(' ∉ name) (h2 : '\n' ∉ name)
    (h3 : '\n' ∉ pat) : lazyGroup (name ++ '(' :: pat ++ [')']) = some (name, pat) := by
  induction name with
  | nil =>
    rw [List.nil_append, List.cons_append, lazyGroup, if_pos rfl, greedyGroup_append pat h3]
  | cons c cs ih =>
    have hc1 : c ≠ '(' := fun e => h1 (by simp [e])
    have hc2 : c ≠ '\n' := fun e => h2 (by simp [e])
    have ih' := ih (fun e => h1 (List.mem_cons_of_mem _ e))
      (fun e => h2 (List.mem_cons_of_mem _ e))
    rw [List.cons_append, List.cons_append, lazyGroup, if_neg hc1, if_neg hc2, ih']

/-- The expression of the source reads the name and the pattern of a token
of the exact form `:name(pattern)`. -/
theorem matchRegs_regexToken (name pat : Str) (h1 : '(' ∉ name) (h2 : '\n' ∉ name)
    (h3 : '\n' ∉ pat) : matchRegs (regexToken name pat) = some (name, pat) := by
  have h := lazyGroup_append name pat h1 h2 h3
  unfold regexToken
  rw [List.cons_append, List.cons_append, matchRegs, if_pos rfl, h]

/-! ### Conflicts of name and pattern -/

theorem childOrCreate_param_existing {re : Regexp} {n c : node} {tok : Str}
    (hl : n.specialCount ≤ 1) (hc : n.paramChild = some c) (htok : slotOf tok = .param) :
    childOrCreate re n tok =
      if c.path ≠ tok then .error (.childConflict c.path tok) else .ok (.param, c) := by
  obtain ⟨hs, hr⟩ := (special_excl n hl).2.1 (by simp [hc])
  obtain ⟨h1, h2⟩ := (slotOf_param_iff tok).1 htok
  unfold childOrCreate
  cases tok with
  | nil => simp at h2
  | cons c0 rest =>
    have h2' : c0 = ':' := by simpa using h2
    subst h2'
    simp only [h1, if_true, hs, hr, hc, Option.isSome_none, Bool.false_eq_true, if_false]

theorem childOrCreate_reg_existing {re : Regexp} {n c : node} {tok : Str}
    (hl : Local re n) (hc : n.regChild = some c) (htok : slotOf tok = .reg) :
    childOrCreate re n tok =
      if c.path ≠ tok then .error (.childConflict c.path tok) else .ok (.reg, c) := by
  obtain ⟨hs, hp⟩ := (special_excl n hl.special).1 (by simp [hc])
  obtain ⟨regs0, hregs0, hcomp0⟩ := hl.reg c hc
  have h1 := (slotOf_reg_iff tok).1 htok
  unfold childOrCreate
  cases hr : matchRegs tok with
  | none => simp [hr] at h1
  | some regs =>
    simp only [hs, hp, hc, Option.isSome_none, Bool.false_eq_true, if_false]
    by_cases hct : c.path = tok
    · rw [hct, hr] at hregs0
      simp only [Option.some.injEq] at hregs0
      subst hregs0
      simp [hct, hcomp0]
    · simp [hct]

/-- C13 (counterexample): the node `a` has the regular-expression child
`:id(.*)`; the token `x:id(.*)` is a regular-expression token with the same
name `id` and the same pattern `.*`, and `childOrCreate` rejects it with the
path conflict that names both tokens. -/
theorem C13_counterexample :
    matchRegs ":id(.*)".toList = some ("id".toList, ".*".toList) ∧
    matchRegs "x:id(.*)".toList = some ("id".toList, ".*".toList) ∧
    (addRoute testRegexp newRouter "GET".toList "/a/:id(.*)".toList (some 1)).2 = none ∧
    ((descend (rootOf (addRoute testRegexp newRouter "GET".toList "/a/:id(.*)".toList
        (some 1)).1 "GET".toList) [.static "a".toList]).bind
      (fun n => (childOrCreate testRegexp n "x:id(.*)".toList).toOption)) = none ∧
    (addRoute testRegexp
      (addRoute testRegexp newRouter "GET".toList "/a/:id(.*)".toList (some 1)).1
      "GET".toList "/a/x:id(.*)".toList (some 2)).2 =
      some (.childConflict ":id(.*)".toList "x:id(.*)".toList) := by
  refine ⟨by decide, by decide, by decide, by rfl, by decide⟩

/-- C13 (amended): at a node of a router obtained from `newRouter()`.  With a
parameter child present, `childOrCreate` on a named-parameter token panics
with the path conflict naming both tokens exactly when the names differ.
With a regular-expression child present, `childOrCreate` on a
regular-expression token panics with that conflict exactly when the text of
the token differs from the text of the child.  When the text of the child is
exactly `:name0(pattern0)` and the text of the token exactly `:name(pattern)`,
these names and patterns being the ones that the expression of the source
reads from the two texts (`regs[1]`, `regs[2]`), that is exactly when the name
or the pattern differs; the expression reads `name` and `pattern` from
`:name(pattern)` whenever the name has no `(` and neither has a newline.  When
`childOrCreate` does not panic it returns the existing child and the node is
unchanged. -/
theorem C13_name_and_pattern_conflicts (re : Regexp) (calls : List Call) (method : Str)
    (root : node) (pos : List Slot) (n : node)
    (hroot : (exec re newRouter calls).trees method = some root)
    (hn : descend root pos = some n) :
    (∀ c tok, n.paramChild = some c → slotOf tok = .param →
      (childOrCreate re n tok = .error (.childConflict c.path tok) ↔ tok.tail ≠ c.path.tail) ∧
      (tok.tail = c.path.tail →
        childOrCreate re n tok = .ok (.param, c) ∧ n.withChild .param c = n)) ∧
    (∀ c tok, n.regChild = some c → slotOf tok = .reg →
      (childOrCreate re n tok = .error (.childConflict c.path tok) ↔ tok ≠ c.path) ∧
      (tok = c.path → childOrCreate re n tok = .ok (.reg, c) ∧ n.withChild .reg c = n)) ∧
    (∀ c name0 pat0 name pat, n.regChild = some c →
      c.path = regexToken name0 pat0 → matchRegs c.path = some (name0, pat0) →
      matchRegs (regexToken name pat) = some (name, pat) →
      (childOrCreate re n (regexToken name pat) =
          .error (.childConflict c.path (regexToken name pat)) ↔
        name ≠ name0 ∨ pat ≠ pat0)) ∧
    (∀ name pat : Str, '(' ∉ name → '\n' ∉ name → '\n' ∉ pat →
      matchRegs (regexToken name pat) = some (name, pat)) := by
  have hl : Local re n := exec_wf calls _ (wf_newRouter re) method root hroot pos n hn
  have hp : ParamOk n := exec_paramOk re calls method root hroot pos n hn
  have hparam : ∀ c tok, n.paramChild = some c → slotOf tok = .param →
      (c.path = tok ↔ tok.tail = c.path.tail) := by
    intro c tok hc htok
    obtain ⟨_, h1⟩ := (slotOf_param_iff tok).1 htok
    obtain ⟨_, h2⟩ := (slotOf_param_iff c.path).1 (hp c hc)
    constructor
    · intro e; rw [e]
    · intro e
      cases hcp : c.path with
      | nil => simp [hcp] at h2
      | cons a as =>
        cases tok with
        | nil => simp at h1
        | cons b bs =>
          simp only [hcp, List.head?_cons, Option.some.injEq, List.tail_cons] at h1 h2 e
          rw [h1, h2, e]
  have hregtok : ∀ c tok, n.regChild = some c → slotOf tok = .reg →
      (childOrCreate re n tok = .error (.childConflict c.path tok) ↔ tok ≠ c.path) := by
    intro c tok hc htok
    rw [childOrCreate_reg_existing hl hc htok]
    by_cases e : c.path = tok
    · simp [e]
    · simp only [ne_eq, e, not_false_eq_true, if_true, true_iff]
      exact fun e' => e e'.symm
  refine ⟨?_, ?_, ?_, matchRegs_regexToken⟩
  · intro c tok hc htok
    have hiff := hparam c tok hc htok
    rw [childOrCreate_param_existing hl.special hc htok]
    constructor
    · by_cases e : c.path = tok
      · simp [e]
      · simp only [ne_eq, e, not_false_eq_true, if_true, true_iff]
        exact fun e' => e (hiff.2 e')
    · intro e
      have e' := hiff.2 e
      simp only [ne_eq, e', not_true_eq_false, if_false, true_and]
      exact withChild_self n .param c hc
  · intro c tok hc htok
    refine ⟨hregtok c tok hc htok, ?_⟩
    intro e
    rw [childOrCreate_reg_existing hl hc htok]
    simp only [ne_eq, e, not_true_eq_false, if_false, true_and]
    exact withChild_self n .reg c hc
  · intro c name0 pat0 name pat hc hcp m0 m1
    have htok : slotOf (regexToken name pat) = .reg := (slotOf_reg_iff _).2 (by simp [m1])
    rw [hregtok c _ hc htok]
    rw [hcp] at m0 ⊢
    constructor
    · intro hne
      by_contra hcon
      simp only [not_or, not_not] at hcon
      exact hne (by rw [hcon.1, hcon.2])
    · intro hd e
      rw [e, m0] at m1
      simp only [Option.some.injEq, Prod.mk.injEq] at m1
      rcases hd with hd | hd
      · exact hd m1.1.symm
      · exact hd m1.2.symm

/-- C13 (witness): the node `a` after `/a/:id(.*)`, with the token
`:id([0-9]+)`, whose name is that of the child and whose pattern is not. -/
theorem C13_name_and_pattern_conflicts_witness :
    ((exec testRegexp newRouter [⟨"GET".toList, "/a/:id(.*)".toList, some 1⟩]).trees
      "GET".toList).isSome = true ∧
    regexToken "id".toList "[0-9]+".toList = ":id([0-9]+)".toList ∧
    (childOrCreate testRegexp
        ((descend (rootOf (exec testRegexp newRouter
          [⟨"GET".toList, "/a/:id(.*)".toList, some 1⟩]) "GET".toList)
          [.static "a".toList]).getD (newNode []))
        (regexToken "id".toList "[0-9]+".toList) =
      .error (.childConflict ":id(.*)".toList (regexToken "id".toList "[0-9]+".toList)) ↔
        "id".toList ≠ "id".toList ∨ "[0-9]+".toList ≠ ".*".toList) :=
  ⟨by decide, by decide,
    (C13_name_and_pattern_conflicts testRegexp [⟨"GET".toList, "/a/:id(.*)".toList, some 1⟩]
      "GET".toList _ [.static "a".toList] _ rfl rfl).2.2.1
        ⟨":id(.*)".toList, none, none, none, none, some 1⟩ "id".toList ".*".toList
        "id".toList "[0-9]+".toList rfl (by decide) (by decide) (by decide)⟩

/-! ### The priority order of childOf -/

/-- C14: for every node and segment `childOf` is the resolution that the
specification words: the static child keyed by the segment, else the
regular-expression child, else the parameter child, else the wildcard child,
else nothing; the second result is the wildcard child of the node, and found
is true exactly when a child is returned. -/
theorem C14_childOf_priority (n : node) (seg : Str) :
    childOf n seg = childOfSpec n seg ∧
    (childOf n seg).2.1 = n.starChild ∧
    ((childOf n seg).2.2.2.2 = true ↔ (childOf n seg).1.isSome = true) := by
  have h : childOf n seg = childOfSpec n seg := by
    unfold childOfSpec
    rcases childOf_cases n seg with ⟨c, hc, hco⟩ | ⟨hc, hco⟩
    · rw [hco, hc]
    · rw [hco, hc]
      unfold childOfSpecial
      cases hr : n.regChild with
      | some c => simp
      | none =>
        cases hp : n.paramChild with
        | some c => simp
        | none =>
          cases hs : n.starChild with
          | some c => simp
          | none => simp
  refine ⟨h, ?_, ?_⟩
  · rw [h]
    unfold childOfSpec
    repeat' split
    all_goals rfl
  · rw [h]
    unfold childOfSpec
    repeat' split
    all_goals simp

/-! ### The control flow of the loop of findRoute -/

/-- What the body of the loop of `findRoute` does at a node with a segment
depends neither on the parameters bound so far nor on the wildcard recorded
so far: it panics, or it leaves the loop with the wildcard child of the node,
else with the wildcard recorded so far, or it goes on with a child. -/
theorem loopBody_shape (re : Regexp) (n : node) (seg : Str) :
    (∃ e, ∀ pp st, loopBody re n seg pp st = .panic e) ∨
    (∀ pp st, loopBody re n seg pp st =
      .ret ((if n.starChild.isSome then n.starChild else st).map (fun s => ⟨s, pp⟩))) ∨
    (∃ (c : node) (f : Option (Str → Option Str) → Option (Str → Option Str)),
      ∀ pp st, loopBody re n seg pp st =
        .next (c, f pp, if n.starChild.isSome then n.starChild else st)) := by
  unfold loopBody
  rcases childOf_cases n seg with ⟨c, _, hco⟩ | ⟨_, hco⟩
  · rw [hco]
    right; right
    exact ⟨c, id, fun pp st => by simp [regBlock, paramBlock]⟩
  · rw [hco]
    unfold childOfSpecial
    cases hr : n.regChild with
    | some c =>
      simp only [Option.isSome_some, if_true, Bool.true_eq_false, if_false, regBlock]
      cases hregs : matchRegs c.path with
      | none => left; exact ⟨.indexOutOfRange, fun pp st => rfl⟩
      | some regs =>
        cases hcomp : re.compiles regs.2 with
        | false => left; exact ⟨.regexpCompile regs.2, fun pp st => by simp [hcomp]⟩
        | true =>
          cases hm : re.matchString regs.2 seg with
          | false =>
            right; left
            intro pp st
            simp only [hcomp, hm, Bool.true_eq_false, if_false, if_true]
            cases (if n.starChild.isSome = true then n.starChild else st) <;> rfl
          | true =>
            right; right
            exact ⟨c, fun pp => mapSet pp regs.1 seg,
              fun pp st => by simp [hcomp, hm, paramBlock]⟩
    | none =>
      cases hpc : n.paramChild with
      | some c =>
        cases hcp : c.path with
        | nil =>
          left
          exact ⟨.indexOutOfRange, fun pp st => by simp [regBlock, paramBlock, hcp]⟩
        | cons c0 rest =>
          right; right
          exact ⟨c, fun pp => mapSet pp rest seg,
            fun pp st => by simp [regBlock, paramBlock, hcp]⟩
      | none =>
        cases hs : n.starChild with
        | some c =>
          right; right
          exact ⟨c, id, fun pp st => by simp [regBlock, paramBlock]⟩
        | none =>
          right; left
          intro pp st
          simp only [Option.isSome_none, Bool.false_eq_true, if_false, if_true]
          cases st <;> rfl

/-- When the resolution of the segment fails, the loop is left with the
wildcard child of the node, else with the wildcard recorded so far. -/
theorem loopBody_of_stops {re : Regexp} {n : node} {seg : Str} (h : loopStops re n seg = true)
    (pp : Option (Str → Option Str)) (st : Option node) :
    loopBody re n seg pp st =
      .ret ((if n.starChild.isSome then n.starChild else st).map (fun s => ⟨s, pp⟩)) := by
  rcases loopBody_shape re n seg with ⟨e, he⟩ | hret | ⟨c, f, hnext⟩
  · simp [loopStops, he] at h
  · exact hret pp st
  · simp [loopStops, hnext] at h

/-- When the segment resolves, the loop goes on with the child, and records
the wildcard child of the node if it has one. -/
theorem loopBody_of_child {re : Regexp} {n c : node} {seg : Str}
    (h : loopChild re n seg = some c) (pp : Option (Str → Option Str)) (st : Option node) :
    ∃ pp1, loopBody re n seg pp st =
      .next (c, pp1, if n.starChild.isSome then n.starChild else st) := by
  rcases loopBody_shape re n seg with ⟨e, he⟩ | hret | ⟨c1, f, hnext⟩
  · simp [loopChild, he] at h
  · simp [loopChild, hret] at h
  · have hc : c1 = c := by simpa [loopChild, hnext] using h
    subst hc
    exact ⟨f pp, hnext pp st⟩

theorem lastStar_nil : lastStar [] = none := rfl

theorem lastStar_singleton (n : node) : lastStar [n] = n.starChild := by
  unfold lastStar
  cases h : n.starChild with
  | none => simp [h]
  | some s => simp [h]

theorem lastStar_cons (n : node) (vs : List node) :
    lastStar (n :: vs) = match lastStar vs with
      | some s => some s
      | none => n.starChild := by
  unfold lastStar
  rw [List.reverse_cons, List.find?_append]
  cases hf : vs.reverse.find? (fun n => n.starChild.isSome) with
  | some x =>
    have hx := List.find?_some hf
    cases hs : x.starChild with
    | none => simp [hs] at hx
    | some s => simp [hs]
  | none =>
    cases h : n.starChild with
    | none => simp [h]
    | some s => simp [h]

/-- The wildcard child of the last node that has one, in words of the list:
the list splits at a node with this wildcard child, after which no node has
a wildcard child. -/
theorem lastStar_eq_some (vs : List node) (s : node) :
    lastStar vs = some s ↔
      ∃ pre n post, vs = pre ++ n :: post ∧ n.starChild = some s ∧
        ∀ x ∈ post, x.starChild = none := by
  induction vs generalizing s with
  | nil => simp [lastStar_nil]
  | cons v vs ih =>
    rw [lastStar_cons]
    constructor
    · intro h
      cases hl : lastStar vs with
      | some t =>
        rw [hl] at h
        simp only [Option.some.injEq] at h
        subst h
        obtain ⟨pre, n, post, e, hn, hpost⟩ := (ih _).1 hl
        exact ⟨v :: pre, n, post, by rw [e]; rfl, hn, hpost⟩
      | none =>
        rw [hl] at h
        refine ⟨[], v, vs, rfl, h, ?_⟩
        intro x hx
        cases hxs : x.starChild with
        | none => rfl
        | some t =>
          exfalso
          obtain ⟨a, b, e⟩ := List.append_of_mem hx
          have hsome : ∃ t', lastStar vs = some t' := by
            clear ih h hl hx
            subst e
            induction a with
            | nil =>
              rw [List.nil_append, lastStar_cons]
              cases lastStar b with
              | some u => exact ⟨u, rfl⟩
              | none => exact ⟨t, hxs⟩
            | cons a0 as iha =>
              obtain ⟨t', ht'⟩ := iha
              rw [List.cons_append, lastStar_cons, ht']
              exact ⟨t', rfl⟩
          obtain ⟨t', ht'⟩ := hsome
          rw [hl] at ht'
          cases ht'
    · rintro ⟨pre, n, post, e, hn, hpost⟩
      cases pre with
      | nil =>
        simp only [List.nil_append, List.cons.injEq] at e
        obtain ⟨e1, e2⟩ := e
        have hnone : lastStar vs = none := by
          cases hl : lastStar vs with
          | none => rfl
          | some t =>
            obtain ⟨pre', n', post', e', hn', _⟩ := (ih _).1 hl
            have := hpost n' (by rw [← e2, e']; simp)
            rw [this] at hn'
            cases hn'
        rw [hnone, e1]
        exact hn
      | cons p pre =>
        simp only [List.cons_append, List.cons.injEq] at e
        obtain ⟨e1, e2⟩ := e
        subst e1
        have := (ih _).2 ⟨pre, n, post, e2, hn, hpost⟩
        rw [this]

theorem descends_nil (re : Regexp) (n : node) : Descends re n [] [] n := rfl

theorem descends_cons {re : Regexp} {n c m : node} {seg : Str} {segs : List Str}
    {visited : List node} (hc : loopChild re n seg = some c)
    (h : Descends re c segs visited m) : Descends re n (seg :: segs) (n :: visited) m := by
  unfold Descends
  exact ⟨rfl, c, hc, h⟩

/-- The loop of `findRoute`, when the segments `segs` resolve one by one and
the resolution of the next segment fails: it returns the wildcard child of the
deepest visited node that has one, else the wildcard recorded before. -/
theorem walk_fallback (re : Regexp) (seg : Str) (rest : List Str) (m : node)
    (hstop : loopStops re m seg = true) (segs : List Str) :
    ∀ (n : node) (visited : List node), Descends re n segs visited m →
      ∀ (pp : Option (Str → Option Str)) (st : Option node),
        ∃ pp1, walk re (segs ++ seg :: rest) n pp st =
          .ok ((match lastStar (visited ++ [m]) with
            | some s => some s
            | none => st).map (fun s => ⟨s, pp1⟩)) := by
  induction segs with
  | nil =>
    intro n visited hd pp st
    cases visited with
    | cons v vs => exact absurd hd (by simp [Descends])
    | nil =>
      have hm : m = n := hd
      subst hm
      refine ⟨pp, ?_⟩
      rw [List.nil_append, walk, loopBody_of_stops hstop, List.nil_append, lastStar_singleton]
      cases hs : m.starChild with
      | none => simp
      | some s => simp
  | cons s segs ih =>
    intro n visited hd pp st
    cases visited with
    | nil => exact absurd hd (by simp [Descends])
    | cons v vs =>
      obtain ⟨hv, c, hc, hrest⟩ := hd
      subst hv
      obtain ⟨pp1, hbody⟩ := loopBody_of_child hc pp st
      obtain ⟨pp2, hw⟩ := ih c vs hrest pp1 (if v.starChild.isSome then v.starChild else st)
      refine ⟨pp2, ?_⟩
      rw [List.cons_append, walk, hbody]
      simp only
      rw [hw, List.cons_append, lastStar_cons]
      cases hl : lastStar (vs ++ [m]) with
      | some t => rfl
      | none =>
        cases hs : v.starChild with
        | none => simp
        | some t => simp

/-- The loop of `findRoute`, when all the segments resolve one by one: it
returns the node reached, whatever wildcard was recorded. -/
theorem walk_descends (re : Regexp) (segs : List Str) :
    ∀ (n m : node) (visited : List node), Descends re n segs visited m →
      ∀ (pp : Option (Str → Option Str)) (st : Option node),
        ∃ pp1, walk re segs n pp st = .ok (some ⟨m, pp1⟩) := by
  induction segs with
  | nil =>
    intro n m visited hd pp st
    cases visited with
    | cons v vs => exact absurd hd (by simp [Descends])
    | nil =>
      have hm : m = n := hd
      subst hm
      exact ⟨pp, rfl⟩
  | cons s segs ih =>
    intro n m visited hd pp st
    cases visited with
    | nil => exact absurd hd (by simp [Descends])
    | cons v vs =>
      obtain ⟨hv, c, hc, hrest⟩ := hd
      subst hv
      obtain ⟨pp1, hbody⟩ := loopBody_of_child hc pp st
      obtain ⟨pp2, hw⟩ := ih c m vs hrest pp1 (if v.starChild.isSome then v.starChild else st)
      refine ⟨pp2, ?_⟩
      rw [walk, hbody]
      exact hw

/-! ### The nearest wildcard -/

/-- C15: when the segments `segs` of the looked-up path resolve one by one
from the root, visiting the nodes `visited` and arriving at `m`, and the
resolution of the next segment fails at `m`, `findRoute` returns, whatever
segments remain, the wildcard child of the deepest of the nodes `visited` and
`m` that has one, with found = true, and not found when none of them has one;
which child was chosen at a visited node plays no part.  With `/star/*`,
`/star/*/abc`, `/star/a/*` and `/star/a/b/c` registered,
`findRoute(GET, /star/a/b/c/d)` returns the node of `/star/a/*` and not the
node of `/star/*`. -/
theorem C15_nearest_wildcard (re : Regexp) :
    (∀ (r : router) (method path : Str) (root : node) (segs : List Str) (seg : Str)
      (rest : List Str) (visited : List node) (m : node),
      r.trees method = some root → path ≠ ['/'] → split (trim path) = segs ++ seg :: rest →
      Descends re root segs visited m → loopStops re m seg = true →
      (∃ pp, findRoute re r method path =
        .ok ((lastStar (visited ++ [m])).map (fun s => ⟨s, pp⟩))) ∧
      (∀ s, lastStar (visited ++ [m]) = some s ↔
        ∃ pre n post, visited ++ [m] = pre ++ n :: post ∧ n.starChild = some s ∧
          ∀ x ∈ post, x.starChild = none)) ∧
    (∀ h1 h2 h3 h4 : HandleFunc,
      findRoute re (exec re newRouter [⟨"GET".toList, "/star/*".toList, h1⟩,
          ⟨"GET".toList, "/star/*/abc".toList, h2⟩, ⟨"GET".toList, "/star/a/*".toList, h3⟩,
          ⟨"GET".toList, "/star/a/b/c".toList, h4⟩]) "GET".toList "/star/a/b/c/d".toList =
        .ok (some ⟨⟨"*".toList, none, none, none, none, h3⟩, none⟩) ∧
      routeNode (exec re newRouter [⟨"GET".toList, "/star/*".toList, h1⟩,
          ⟨"GET".toList, "/star/*/abc".toList, h2⟩, ⟨"GET".toList, "/star/a/*".toList, h3⟩,
          ⟨"GET".toList, "/star/a/b/c".toList, h4⟩]) "GET".toList
          ["star".toList, "a".toList, "*".toList] =
        some ⟨"*".toList, none, none, none, none, h3⟩ ∧
      ((routeNode (exec re newRouter [⟨"GET".toList, "/star/*".toList, h1⟩,
          ⟨"GET".toList, "/star/*/abc".toList, h2⟩, ⟨"GET".toList, "/star/a/*".toList, h3⟩,
          ⟨"GET".toList, "/star/a/b/c".toList, h4⟩]) "GET".toList
          ["star".toList, "*".toList]).map (fun x => x.handler)) = some h1) := by
  refine ⟨?_, ?_⟩
  · intro r method path root segs seg rest visited m hroot hpath hsplit hd hstop
    refine ⟨?_, lastStar_eq_some _⟩
    obtain ⟨pp, hw⟩ := walk_fallback re seg rest m hstop segs root visited hd none none
    refine ⟨pp, ?_⟩
    unfold findRoute
    rw [hroot]
    simp only [hpath, if_false]
    rw [hsplit, hw]
    cases lastStar (visited ++ [m]) <;> rfl
  · intro h1 h2 h3 h4
    refine ⟨?_, ?_, ?_⟩
    · rfl
    · rfl
    · rfl

/-- C15 (witness): the router of the four routes, the path `/star/a/b/c/d`:
the segments `star`, `a`, `b`, `c` resolve and `d` does not. -/
theorem C15_nearest_wildcard_witness :
    ∃ (root n1 n2 n3 n4 : node) (pp : Option (Str → Option Str)),
      (exec testRegexp newRouter [⟨"GET".toList, "/star/*".toList, some 1⟩,
          ⟨"GET".toList, "/star/*/abc".toList, some 2⟩, ⟨"GET".toList, "/star/a/*".toList, some 3⟩,
          ⟨"GET".toList, "/star/a/b/c".toList, some 4⟩]).trees "GET".toList = some root ∧
      Descends testRegexp root ["star".toList, "a".toList, "b".toList, "c".toList]
        [root, n1, n2, n3] n4 ∧
      loopStops testRegexp n4 "d".toList = true ∧
      findRoute testRegexp (exec testRegexp newRouter [⟨"GET".toList, "/star/*".toList, some 1⟩,
          ⟨"GET".toList, "/star/*/abc".toList, some 2⟩, ⟨"GET".toList, "/star/a/*".toList, some 3⟩,
          ⟨"GET".toList, "/star/a/b/c".toList, some 4⟩]) "GET".toList "/star/a/b/c/d".toList =
        .ok ((lastStar ([root, n1, n2, n3] ++ [n4])).map (fun s => ⟨s, pp⟩)) ∧
      lastStar ([root, n1, n2, n3] ++ [n4]) = n2.starChild ∧
      (n2.starChild.bind (fun s => s.handler)) = some 3 :=
  have hd : Descends testRegexp
      (rootOf (exec testRegexp newRouter [⟨"GET".toList, "/star/*".toList, some 1⟩,
          ⟨"GET".toList, "/star/*/abc".toList, some 2⟩, ⟨"GET".toList, "/star/a/*".toList, some 3⟩,
          ⟨"GET".toList, "/star/a/b/c".toList, some 4⟩]) "GET".toList)
      ["star".toList, "a".toList, "b".toList, "c".toList] _ _ :=
    descends_cons rfl (descends_cons rfl (descends_cons rfl (descends_cons rfl
      (descends_nil _ _))))
  have h := (C15_nearest_wildcard testRegexp).1
    (exec testRegexp newRouter [⟨"GET".toList, "/star/*".toList, some 1⟩,
      ⟨"GET".toList, "/star/*/abc".toList, some 2⟩, ⟨"GET".toList, "/star/a/*".toList, some 3⟩,
      ⟨"GET".toList, "/star/a/b/c".toList, some 4⟩]) "GET".toList "/star/a/b/c/d".toList
    _ ["star".toList, "a".toList, "b".toList, "c".toList] "d".toList [] _ _
    rfl (by decide) (by decide) hd rfl
  h.1.elim (fun pp hpp => ⟨_, _, _, _, _, pp, rfl, hd, rfl, hpp, rfl, rfl⟩)

/-! ### The frame of a registration -/

theorem descend_handler (n : node) (f : HandleFunc) (t : Slot) (pos : List Slot) :
    descend { n with handler := f } (t :: pos) = descend n (t :: pos) := by
  cases t <;> rfl

theorem descend_snoc (pos : List Slot) :
    ∀ (n : node) (s : Slot),
      descend n (pos ++ [s]) = (descend n pos).bind (fun x => x.child s) := by
  induction pos with
  | nil =>
    intro n s
    simp only [List.nil_append, descend, Option.some_bind]
    cases h : n.child s <;> simp [descend]
  | cons t pos ih =>
    intro n s
    simp only [List.cons_append, descend]
    cases n.child t with
    | none => rfl
    | some c => exact ih c s

theorem descend_newNode (p : Str) (pos : List Slot) (x : node)
    (h : descend (newNode p) pos = some x) : pos = [] := by
  cases pos with
  | nil => rfl
  | cons t pos => cases t <;> simp [descend, node.child, newNode, mapGet] at h

theorem addSegs_cons_ok {re : Regexp} {n child : node} {seg : Str} {slot : Slot}
    (path : Str) (h : HandleFunc) (segs : List Str) (hne : seg ≠ [])
    (hcc : childOrCreate re n seg = .ok (slot, child)) :
    addSegs re path h (seg :: segs) n =
      (n.withChild slot (addSegs re path h segs child).1,
        (addSegs re path h segs child).2) := by
  simp only [addSegs, hne, if_false, hcc]

/-- The frame of the loop of `addRoute` when it returns: a node that
existed keeps its position and its text; off the positions of the path it
is the same node, away from the last position of the path it keeps its
handler, and at the last position it had none; a node of the result existed
or lies on the path; the node at the last position carries the handler. -/
theorem addSegs_frame (re : Regexp) (path : Str) (h : HandleFunc) (segs : List Str) :
    ∀ n : node, (addSegs re path h segs n).2 = none →
      (∀ pos x, descend n pos = some x →
        ∃ x', descend (addSegs re path h segs n).1 pos = some x' ∧ x'.path = x.path ∧
          (¬ pos <+: segs.map slotOf → x' = x) ∧
          (pos ≠ segs.map slotOf → x'.handler = x.handler) ∧
          (pos = segs.map slotOf → x.handler = none)) ∧
      (∀ pos x', descend (addSegs re path h segs n).1 pos = some x' →
        (descend n pos).isSome = true ∨ pos <+: segs.map slotOf) ∧
      (∃ x', descend (addSegs re path h segs n).1 (segs.map slotOf) = some x' ∧
        x'.handler = h) := by
  induction segs with
  | nil =>
    intro n hok
    have hh : n.handler.isSome = false := by
      cases hx : n.handler.isSome with
      | false => rfl
      | true => simp [addSegs, hx] at hok
    have hnone : n.handler = none := by
      cases hx : n.handler with
      | none => rfl
      | some v => simp [hx] at hh
    have hres : (addSegs re path h [] n).1 = { n with handler := h } := by
      simp [addSegs, hh]
    rw [hres]
    refine ⟨?_, ?_, ?_⟩
    · intro pos x hx
      cases pos with
      | nil =>
        simp only [descend, Option.some.injEq] at hx
        subst hx
        refine ⟨_, rfl, rfl, ?_, ?_, ?_⟩
        · intro hp; exact absurd (List.prefix_refl _) hp
        · intro hp; exact absurd rfl hp
        · intro _; exact hnone
      | cons t pos =>
        rw [descend_handler]
        refine ⟨x, hx, rfl, fun _ => rfl, fun _ => rfl, ?_⟩
        intro hp
        simp at hp
    · intro pos x' hx'
      cases pos with
      | nil => right; exact List.prefix_refl _
      | cons t pos =>
        rw [descend_handler] at hx'
        left
        rw [hx']; rfl
    · exact ⟨_, rfl, rfl⟩
  | cons seg segs ih =>
    intro n hok
    have hne : seg ≠ [] := by
      intro e
      simp [addSegs, e] at hok
    cases hcc : childOrCreate re n seg with
    | error e => simp [addSegs, hne, hcc] at hok
    | ok sc =>
      obtain ⟨slot, child⟩ := sc
      rw [addSegs_cons_ok path h segs hne hcc] at hok ⊢
      simp only at hok ⊢
      obtain ⟨_, hslot, hchild, _, _, _⟩ := childOrCreate_ok hcc
      obtain ⟨ih1, ih2, ih3⟩ := ih child hok
      have hmap : (seg :: segs).map slotOf = slot :: segs.map slotOf := by
        rw [List.map_cons, hslot]
      rw [hmap]
      refine ⟨?_, ?_, ?_⟩
      · intro pos x hx
        cases pos with
        | nil =>
          simp only [descend, Option.some.injEq] at hx
          subst hx
          refine ⟨_, rfl, withChild_path _ _ _, ?_, ?_, ?_⟩
          · intro hp; exact absurd List.nil_prefix hp
          · intro _; exact withChild_handler _ _ _
          · intro hp; simp at hp
        | cons t pos =>
          rw [descend_withChild]
          by_cases ht : t = slot
          · subst ht
            simp only [if_true]
            have hx0 := hx
            simp only [descend] at hx0
            rcases hchild with hc | ⟨hc, _⟩
            · rw [hc] at hx0
              simp only [Option.some_bind] at hx0
              obtain ⟨x', h1, h2, h3, h4, h5⟩ := ih1 pos x hx0
              refine ⟨x', h1, h2, ?_, ?_, ?_⟩
              · intro hp
                apply h3
                intro hq
                exact hp ((List.prefix_cons_inj t).2 hq)
              · intro hp
                apply h4
                intro hq
                exact hp (by rw [hq])
              · intro hp
                apply h5
                simpa using hp
            · rw [hc] at hx0
              simp at hx0
          · simp only [ht, if_false]
            refine ⟨x, hx, rfl, fun _ => rfl, fun _ => rfl, ?_⟩
            intro hp
            simp only [List.cons.injEq] at hp
            exact absurd hp.1 ht
      · intro pos x' hx'
        cases pos with
        | nil => left; rfl
        | cons t pos =>
          rw [descend_withChild] at hx'
          by_cases ht : t = slot
          · subst ht
            simp only [if_true] at hx'
            rcases ih2 pos x' hx' with hsome | hpre
            · rcases hchild with hc | ⟨hc, hnew⟩
              · left
                simp only [descend, hc, Option.some_bind]
                exact hsome
              · right
                rw [hnew] at hsome
                cases hd : descend (newNode seg) pos with
                | none => simp [hd] at hsome
                | some y =>
                  have := descend_newNode seg pos y hd
                  subst this
                  exact (List.prefix_cons_inj t).2 List.nil_prefix
            · right
              exact (List.prefix_cons_inj t).2 hpre
          · simp only [ht, if_false] at hx'
            left
            rw [hx']; rfl
      · obtain ⟨x', h1, h2⟩ := ih3
        refine ⟨x', ?_, h2⟩
        rw [descend_withChild]
        simp only [if_true]
        exact h1

theorem treeNode_setTree (r : router) (method m : Str) (root : node) (pos : List Slot) :
    treeNode (r.setTree method root) m pos =
      if m = method then descend root pos else treeNode r m pos := by
  unfold treeNode
  rw [setTree_trees]
  split_ifs <;> rfl

/-- C16: after an `addRoute(method, path, h)` that returns, the tree of every
other method is the same; in the tree of `method`, a node that existed before
the call exists at the same position with the same text, every child it had
is still a child in the same slot with the same text, its handler is the
same unless it is the node at the end of the path, and it is the same node
altogether unless its position lies on the path; the node at the end of the
path had no handler, if it existed, and carries `h` now; and every node of
the tree after the call existed before it or lies on the path. -/
theorem C16_registration_frame (re : Regexp) (r : router) (method path : Str) (h : HandleFunc)
    (hok : (addRoute re r method path h).2 = none) :
    (∀ m, m ≠ method → (addRoute re r method path h).1.trees m = r.trees m) ∧
    (∀ pos x, treeNode r method pos = some x →
      ∃ x', treeNode (addRoute re r method path h).1 method pos = some x' ∧
        x'.path = x.path ∧
        (∀ s c, x.child s = some c → ∃ c', x'.child s = some c' ∧ c'.path = c.path) ∧
        (pos ≠ (segsOf path).map slotOf → x'.handler = x.handler) ∧
        (¬ pos <+: (segsOf path).map slotOf → x' = x)) ∧
    (∃ t, treeNode (addRoute re r method path h).1 method ((segsOf path).map slotOf) = some t ∧
      t.handler = h ∧
      ∀ x, treeNode r method ((segsOf path).map slotOf) = some x → x.handler = none) ∧
    (∀ pos, (treeNode (addRoute re r method path h).1 method pos).isSome = true →
      (treeNode r method pos).isSome = true ∨ pos <+: (segsOf path).map slotOf) := by
  have hv : Valid path := addRoute_ok_valid hok
  rw [addRoute_of_valid re r method path h hv] at hok ⊢
  simp only at hok ⊢
  obtain ⟨f1, f2, f3⟩ := addSegs_frame re path h (segsOf path) (rootOf r method) hok
  have hroot : ∀ pos x, treeNode r method pos = some x →
      descend (rootOf r method) pos = some x := by
    intro pos x hx
    unfold treeNode at hx
    unfold rootOf
    cases ht : r.trees method with
    | none => simp [ht] at hx
    | some root => simpa [ht] using hx
  refine ⟨?_, ?_, ?_, ?_⟩
  · intro m hm
    rw [setTree_trees, if_neg hm]
  · intro pos x hx
    obtain ⟨x', h1, h2, h3, h4, _⟩ := f1 pos x (hroot pos x hx)
    refine ⟨x', ?_, h2, ?_, h4, h3⟩
    · rw [treeNode_setTree, if_pos rfl]; exact h1
    · intro s c hc
      have hpc : descend (rootOf r method) (pos ++ [s]) = some c := by
        rw [descend_snoc, hroot pos x hx]
        exact hc
      obtain ⟨c', hc1, hc2, _⟩ := f1 (pos ++ [s]) c hpc
      rw [descend_snoc, h1] at hc1
      exact ⟨c', hc1, hc2⟩
  · obtain ⟨t, ht1, ht2⟩ := f3
    refine ⟨t, ?_, ht2, ?_⟩
    · rw [treeNode_setTree, if_pos rfl]; exact ht1
    · intro x hx
      obtain ⟨_, _, _, _, _, h5⟩ := f1 _ x (hroot _ x hx)
      exact h5 rfl
  · intro pos hpos
    rw [treeNode_setTree, if_pos rfl] at hpos
    cases hd : descend (addSegs re path h (segsOf path) (rootOf r method)).1 pos with
    | none => simp [hd] at hpos
    | some x' =>
      rcases f2 pos x' hd with hsome | hpre
      · cases ht : r.trees method with
        | some root =>
          left
          simpa [treeNode, rootOf, ht] using hsome
        | none =>
          right
          simp only [rootOf, ht, Option.getD_none] at hsome
          cases hn : descend (newNode ['/']) pos with
          | none => simp [hn] at hsome
          | some y =>
            rw [descend_newNode _ pos y hn]
            exact List.nil_prefix
      · right; exact hpre

/-- C16 (witness): `/user/home` after `/user` and `/order/*`. -/
theorem C16_registration_frame_witness :
    (addRoute testRegexp (exec testRegexp newRouter [⟨"GET".toList, "/user".toList, some 1⟩,
        ⟨"GET".toList, "/order/*".toList, some 2⟩]) "GET".toList "/user/home".toList (some 3)).2 = none ∧
    (segsOf "/user/home".toList).map slotOf = [.static "user".toList, .static "home".toList] ∧
    ∃ t, treeNode (addRoute testRegexp (exec testRegexp newRouter
          [⟨"GET".toList, "/user".toList, some 1⟩, ⟨"GET".toList, "/order/*".toList, some 2⟩])
          "GET".toList "/user/home".toList (some 3)).1 "GET".toList
          ((segsOf "/user/home".toList).map slotOf) = some t ∧
      t.handler = some 3 ∧
      ∀ x, treeNode (exec testRegexp newRouter [⟨"GET".toList, "/user".toList, some 1⟩,
          ⟨"GET".toList, "/order/*".toList, some 2⟩]) "GET".toList
          ((segsOf "/user/home".toList).map slotOf) = some x → x.handler = none :=
  ⟨by decide, by decide,
    (C16_registration_frame testRegexp (exec testRegexp newRouter
      [⟨"GET".toList, "/user".toList, some 1⟩, ⟨"GET".toList, "/order/*".toList, some 2⟩])
      "GET".toList "/user/home".toList (some 3) (by decide)).2.2.1⟩

/-! ### Registration on a router without a tree for the method -/

/-- On a node without children `childOrCreate` creates the child, unless the
segment is a regular-expression token whose pattern does not compile. -/
theorem childOrCreate_newNode (re : Regexp) (p seg : Str) (hne : seg ≠ [])
    (hgood : ∀ regs, matchRegs seg = some regs → re.compiles regs.2 = true) :
    childOrCreate re (newNode p) seg = .ok (slotOf seg, newNode seg) := by
  unfold childOrCreate slotOf
  cases hr : matchRegs seg with
  | some regs =>
    have hc := hgood regs hr
    simp [newNode, hc]
  | none =>
    cases seg with
    | nil => exact absurd rfl hne
    | cons c0 rest =>
      by_cases h0 : c0 = ':'
      · simp [newNode, h0]
      · by_cases h1 : c0 :: rest = ['*']
        · have h2 : c0 = '*' ∧ rest = [] := by simpa using h1
          obtain ⟨h2, h3⟩ := h2
          subst h2 h3
          simp [newNode]
        · simp [newNode, h0, h1, mapGet]

theorem addSegs_newNode_ok (re : Regexp) (path : Str) (h : HandleFunc) (segs : List Str) :
    ∀ p : Str,
      (∀ s ∈ segs, s ≠ [] ∧ ∀ regs, matchRegs s = some regs → re.compiles regs.2 = true) →
      (addSegs re path h segs (newNode p)).2 = none := by
  induction segs with
  | nil => intro p _; rfl
  | cons seg segs ih =>
    intro p hs
    obtain ⟨hne, hgood⟩ := hs seg (List.mem_cons_self _ _)
    rw [addSegs_cons_ok path h segs hne (childOrCreate_newNode re p seg hne hgood)]
    exact ih seg (fun s hmem => hs s (List.mem_cons_of_mem _ hmem))

/-- C17: on a router without a tree for the method (as on a router with no
trees), `addRoute(method, path, h)` returns if and only if the path is exactly
`/`, or it starts with `/`, does not end with `/`, has no empty segment after
the leading `/`, and every segment in which the expression of the source finds
a regular-expression token has a pattern that compiles; when it returns, the
node that the segments of the path reach carries `h`. -/
theorem C17_accepted_on_empty (re : Regexp) (r : router) (method path : Str) (h : HandleFunc)
    (hnone : r.trees method = none) :
    ((addRoute re r method path h).2 = none ↔
      path = ['/'] ∨
      (path.head? = some '/' ∧ path.getLast? ≠ some '/' ∧
        (∀ s ∈ (split path).tail, s ≠ []) ∧
        ∀ s ∈ (split path).tail, ∀ regs, matchRegs s = some regs →
          re.compiles regs.2 = true)) ∧
    ((addRoute re r method path h).2 = none →
      ∃ x, routeNode (addRoute re r method path h).1 method (segsOf path) = some x ∧
        x.handler = h) := by
  have hroot : rootOf r method = newNode ['/'] := by simp [rootOf, hnone]
  refine ⟨⟨?_, ?_⟩, fun hok => addRoute_routeNode hok⟩
  · intro hok
    have hv : Valid path := addRoute_ok_valid hok
    obtain ⟨_, h2, h3⟩ := hv
    by_cases hp : path = ['/']
    · exact Or.inl hp
    · right
      have h3' : path.getLast? ≠ some '/' := by
        rcases h3 with h3 | h3
        · exact absurd h3 hp
        · exact h3
      rw [addRoute_of_valid re r method path h (addRoute_ok_valid hok)] at hok
      simp only [segsOf, hp, if_false] at hok
      have hgood : ¬ ∃ seg ∈ (split path).tail,
          seg = [] ∨ ∃ regs, matchRegs seg = some regs ∧ re.compiles regs.2 = false :=
        fun hbad => addSegs_fails_of_bad re path h _ _ hbad hok
      refine ⟨h2, h3', ?_, ?_⟩
      · intro s hs e
        exact hgood ⟨s, hs, Or.inl e⟩
      · intro s hs regs hregs
        cases hc : re.compiles regs.2 with
        | true => rfl
        | false => exact absurd ⟨s, hs, Or.inr ⟨regs, hregs, hc⟩⟩ hgood
  · intro hcond
    rcases hcond with hp | ⟨h2, h3, h4, h5⟩
    · subst hp
      have hv : Valid ['/'] := ⟨by simp, rfl, Or.inl rfl⟩
      rw [addRoute_of_valid re r method _ h hv, hroot]
      rfl
    · have hne : path ≠ [] := by
        intro e
        simp [e] at h2
      have hp : path ≠ ['/'] := by
        intro e
        simp [e] at h3
      rw [addRoute_of_valid re r method path h ⟨hne, h2, Or.inr h3⟩, hroot]
      simp only [segsOf, hp, if_false]
      exact addSegs_newNode_ok re path h _ _ (fun s hs => ⟨h4 s hs, h5 s hs⟩)

/-- C17 (witness): the path `/user/:id([0-9]+)/home` on the new router. -/
theorem C17_accepted_on_empty_witness :
    newRouter.trees "GET".toList = none ∧
    (addRoute testRegexp newRouter "GET".toList "/user/:id([0-9]+)/home".toList (some 1)).2 = none ∧
    (split "/user/:id([0-9]+)/home".toList).tail =
      ["user".toList, ":id([0-9]+)".toList, "home".toList] ∧
    ((addRoute testRegexp newRouter "GET".toList "/user/:id([0-9]+)/home".toList (some 1)).2 = none ↔
      "/user/:id([0-9]+)/home".toList = ['/'] ∨
      (("/user/:id([0-9]+)/home".toList).head? = some '/' ∧
        ("/user/:id([0-9]+)/home".toList).getLast? ≠ some '/' ∧
        (∀ s ∈ (split "/user/:id([0-9]+)/home".toList).tail, s ≠ []) ∧
        ∀ s ∈ (split "/user/:id([0-9]+)/home".toList).tail, ∀ regs,
          matchRegs s = some regs → testRegexp.compiles regs.2 = true)) :=
  ⟨rfl, by decide, by decide,
    (C17_accepted_on_empty testRegexp newRouter "GET".toList
      "/user/:id([0-9]+)/home".toList (some 1) rfl).1⟩

/-! ### Lookup and the slashes at the ends of the path -/

/-- C18: for every router and method, two paths other than the exact path
`/` that are equal once all the `/` at their ends are removed get the same
result from `findRoute`; so `/user/` is looked up exactly like `/user`,
although `addRoute` rejects `/user/`. -/
theorem C18_lookup_ignores_end_slashes (re : Regexp) :
    (∀ (r : router) (method p q : Str), p ≠ ['/'] → q ≠ ['/'] → trim p = trim q →
      findRoute re r method p = findRoute re r method q) ∧
    (∀ (r : router) (method : Str),
      findRoute re r method "/user/".toList = findRoute re r method "/user".toList) ∧
    (∀ (r : router) (method : Str) (h : HandleFunc),
      (addRoute re r method "/user/".toList h).2 = some .trailingSlash) := by
  have hgen : ∀ (r : router) (method p q : Str), p ≠ ['/'] → q ≠ ['/'] → trim p = trim q →
      findRoute re r method p = findRoute re r method q := by
    intro r method p q hp hq ht
    unfold findRoute
    cases r.trees method with
    | none => rfl
    | some root => simp only [hp, hq, if_false, ht]
  refine ⟨hgen, ?_, ?_⟩
  · intro r method
    exact hgen r method _ _ (by decide) (by decide) (by decide)
  · intro r method h
    unfold addRoute
    cases r.trees method <;> simp

/-- C18 (witness): the paths `//user/home//` and `user/home` on a router with
the route `/user/home`. -/
theorem C18_lookup_ignores_end_slashes_witness :
    "//user/home//".toList ≠ ['/'] ∧ "user/home".toList ≠ ['/'] ∧
    trim "//user/home//".toList = trim "user/home".toList ∧
    findRoute testRegexp (addRoute testRegexp newRouter "GET".toList "/user/home".toList (some 1)).1
        "GET".toList "//user/home//".toList =
      findRoute testRegexp (addRoute testRegexp newRouter "GET".toList "/user/home".toList (some 1)).1
        "GET".toList "user/home".toList ∧
    findRoute testRegexp (addRoute testRegexp newRouter "GET".toList "/user/home".toList (some 1)).1
        "GET".toList "user/home".toList =
      .ok (some ⟨⟨"home".toList, none, none, none, none, some 1⟩, none⟩) :=
  ⟨by decide, by decide, by decide,
    (C18_lookup_ignores_end_slashes testRegexp).1 _ "GET".toList "//user/home//".toList
      "user/home".toList (by decide) (by decide) (by decide), rfl⟩

/-! ### No fallback when every segment resolves -/

/-- C19: when all the segments of the looked-up path resolve one by one from
the root and arrive at the node `m`, `findRoute` returns `m` with found =
true, whether or not `m` has a handler and whatever wildcard the loop has
recorded or started with.  With only `/a/*` (handler `h1`) and `/a/b/c`
(handler `h2`) registered, `findRoute(GET, /a/b)` returns the node `b`, which
has no handler, and not the node of `/a/*`, which the node `a` has as its
wildcard child. -/
theorem C19_no_fallback_when_resolved (re : Regexp) :
    (∀ (r : router) (method path : Str) (root : node) (visited : List node) (m : node),
      r.trees method = some root → path ≠ ['/'] →
      Descends re root (split (trim path)) visited m →
      (∃ pp, findRoute re r method path = .ok (some ⟨m, pp⟩)) ∧
      ∀ (pp : Option (Str → Option Str)) (st : Option node),
        ∃ pp1, walk re (split (trim path)) root pp st = .ok (some ⟨m, pp1⟩)) ∧
    (∀ h1 h2 : HandleFunc,
      findRoute re (exec re newRouter [⟨"GET".toList, "/a/*".toList, h1⟩,
          ⟨"GET".toList, "/a/b/c".toList, h2⟩]) "GET".toList "/a/b".toList =
        .ok (some ⟨⟨"b".toList, mapSet none "c".toList
          ⟨"c".toList, none, none, none, none, h2⟩, none, none, none, none⟩, none⟩) ∧
      ((routeNode (exec re newRouter [⟨"GET".toList, "/a/*".toList, h1⟩,
          ⟨"GET".toList, "/a/b/c".toList, h2⟩]) "GET".toList ["a".toList]).bind
          (fun a => a.starChild)) = some ⟨"*".toList, none, none, none, none, h1⟩) := by
  refine ⟨?_, ?_⟩
  · intro r method path root visited m hroot hpath hd
    have hw := walk_descends re (split (trim path)) root m visited hd
    refine ⟨?_, hw⟩
    obtain ⟨pp, hpp⟩ := hw none none
    refine ⟨pp, ?_⟩
    unfold findRoute
    rw [hroot]
    simp only [hpath, if_false]
    exact hpp
  · intro h1 h2
    exact ⟨rfl, rfl⟩

/-- C19 (witness): the router of `/a/*` and `/a/b/c`, the path `/a/b`. -/
theorem C19_no_fallback_when_resolved_witness :
    ∃ (root n1 n2 : node) (pp : Option (Str → Option Str)),
      (exec testRegexp newRouter [⟨"GET".toList, "/a/*".toList, some 1⟩,
          ⟨"GET".toList, "/a/b/c".toList, some 2⟩]).trees "GET".toList = some root ∧
      Descends testRegexp root (split (trim "/a/b".toList)) [root, n1] n2 ∧
      (lastStar [root, n1]).isSome = true ∧ n2.handler = none ∧
      findRoute testRegexp (exec testRegexp newRouter [⟨"GET".toList, "/a/*".toList, some 1⟩,
          ⟨"GET".toList, "/a/b/c".toList, some 2⟩]) "GET".toList "/a/b".toList =
        .ok (some ⟨n2, pp⟩) :=
  have hd : Descends testRegexp
      (rootOf (exec testRegexp newRouter [⟨"GET".toList, "/a/*".toList, some 1⟩,
          ⟨"GET".toList, "/a/b/c".toList, some 2⟩]) "GET".toList)
      (split (trim "/a/b".toList)) _ _ :=
    descends_cons rfl (descends_cons rfl (descends_nil _ _))
  ((C19_no_fallback_when_resolved testRegexp).1
    (exec testRegexp newRouter [⟨"GET".toList, "/a/*".toList, some 1⟩,
      ⟨"GET".toList, "/a/b/c".toList, some 2⟩]) "GET".toList "/a/b".toList _ _ _
    rfl (by decide) hd).1.elim (fun pp hpp => ⟨_, _, _, pp, rfl, hd, rfl, rfl, hpp⟩)

/-! ### A rejected registration that changes the router -/

/-- C20: a rejected registration is not always atomic.  On the new router,
`addRoute(GET, "user", h)` panics for the missing leading `/` and leaves the
tree of `GET` created, so that `findRoute(GET, /)` goes from not found to
found; and `addRoute(GET, /user//root, h)` panics for the empty segment and
leaves the node `user` in the tree, so that `findRoute(GET, /user)` goes
from not found to found. -/
theorem C20_rejected_not_atomic (re : Regexp) (h : HandleFunc) :
    (findRoute re newRouter "GET".toList "/".toList = .ok none ∧
      (addRoute re newRouter "GET".toList "user".toList h).2 = some .noLeadingSlash ∧
      findRoute re (addRoute re newRouter "GET".toList "user".toList h).1
        "GET".toList "/".toList = .ok (some ⟨newNode ['/'], none⟩)) ∧
    (findRoute re newRouter "GET".toList "/user".toList = .ok none ∧
      (addRoute re newRouter "GET".toList "/user//root".toList h).2 = some .emptySegment ∧
      findRoute re (addRoute re newRouter "GET".toList "/user//root".toList h).1
        "GET".toList "/user".toList = .ok (some ⟨newNode "user".toList, none⟩)) := by
  refine ⟨⟨rfl, rfl, rfl⟩, ⟨rfl, rfl, rfl⟩⟩

/-! ### The parameters that a fallback returns -/

/-- When the segment resolves, the loop goes on with the child, with the
binding made for it, and with the wildcard child of the node recorded if it
has one. -/
theorem loopBody_of_child_params {re : Regexp} {n c : node} {seg : Str}
    (h : loopChild re n seg = some c) (pp : Option (Str → Option Str)) (st : Option node) :
    loopBody re n seg pp st =
      .next (c,
        (match bindingAt n seg with
          | some b => mapSet pp b.1 b.2
          | none => pp),
        if n.starChild.isSome then n.starChild else st) := by
  unfold loopChild at h
  unfold bindingAt
  unfold loopBody at h ⊢
  rcases childOf_cases n seg with ⟨c1, _, hco⟩ | ⟨_, hco⟩
  · rw [hco] at h ⊢
    have hc : c1 = c := by simpa [regBlock, paramBlock] using h
    subst hc
    simp [regBlock, paramBlock]
  · rw [hco] at h ⊢
    unfold childOfSpecial at h ⊢
    cases hr : n.regChild with
    | some c1 =>
      simp only [hr, Option.isSome_some, if_true, Bool.true_eq_false, if_false, regBlock]
        at h ⊢
      cases hregs : matchRegs c1.path with
      | none => simp [hregs] at h
      | some regs =>
        cases hcomp : re.compiles regs.2 with
        | false => simp [hregs, hcomp] at h
        | true =>
          cases hm : re.matchString regs.2 seg with
          | false =>
            simp only [hregs, hcomp, hm, Bool.true_eq_false, if_false, if_true] at h
            cases hx : (if n.starChild.isSome = true then n.starChild else none) with
            | none => simp [hx] at h
            | some x => simp [hx] at h
          | true =>
            have hc : c1 = c := by simpa [hregs, hcomp, hm, paramBlock] using h
            subst hc
            simp [hregs, hcomp, hm, paramBlock]
    | none =>
      cases hpc : n.paramChild with
      | some c1 =>
        cases hcp : c1.path with
        | nil => simp [hr, hpc, regBlock, paramBlock, hcp] at h
        | cons c0 rest =>
          have hc : c1 = c := by simpa [hr, hpc, regBlock, paramBlock, hcp] using h
          subst hc
          simp [regBlock, paramBlock, hcp]
      | none =>
        cases hs : n.starChild with
        | some c1 =>
          have hc : c1 = c := by simpa [hr, hpc, hs, regBlock, paramBlock] using h
          subst hc
          simp [regBlock, paramBlock]
        | none => simp [hr, hpc, hs] at h

/-- The loop of `findRoute`, when the segments `segs` resolve one by one and
the resolution of the next segment fails: the parameters returned are those
held before, with the bindings made at the visited nodes, in order. -/
theorem walk_fallback_params (re : Regexp) (seg : Str) (rest : List Str) (m : node)
    (hstop : loopStops re m seg = true) (segs : List Str) :
    ∀ (n : node) (visited : List node), Descends re n segs visited m →
      ∀ (pp : Option (Str → Option Str)) (st : Option node),
        walk re (segs ++ seg :: rest) n pp st =
          .ok ((match lastStar (visited ++ [m]) with
            | some s => some s
            | none => st).map (fun s => ⟨s,
              (bindingsAlong visited segs).foldl
                (fun (acc : Option (Str → Option Str)) (b : Str × Str) => mapSet acc b.1 b.2)
                pp⟩)) := by
  induction segs with
  | nil =>
    intro n visited hd pp st
    cases visited with
    | cons v vs => exact absurd hd (by simp [Descends])
    | nil =>
      have hm : m = n := hd
      subst hm
      rw [List.nil_append, walk, loopBody_of_stops hstop, List.nil_append, lastStar_singleton]
      cases hs : m.starChild with
      | none => simp [bindingsAlong]
      | some s => simp [bindingsAlong]
  | cons s segs ih =>
    intro n visited hd pp st
    cases visited with
    | nil => exact absurd hd (by simp [Descends])
    | cons v vs =>
      obtain ⟨hv, c, hc, hrest⟩ := hd
      subst hv
      rw [List.cons_append, walk, loopBody_of_child_params hc pp st]
      simp only
      rw [ih c vs hrest, List.cons_append, lastStar_cons]
      have hfold : (bindingsAlong (v :: vs) (s :: segs)).foldl
            (fun (acc : Option (Str → Option Str)) (b : Str × Str) => mapSet acc b.1 b.2) pp =
          (bindingsAlong vs segs).foldl
            (fun (acc : Option (Str → Option Str)) (b : Str × Str) => mapSet acc b.1 b.2)
            (match bindingAt v s with
              | some b => mapSet pp b.1 b.2
              | none => pp) := by
        simp only [bindingsAlong, List.foldl_append]
        cases bindingAt v s <;> rfl
      rw [hfold]
      cases hl : lastStar (vs ++ [m]) with
      | some t => rfl
      | none =>
        cases hs : v.starChild with
        | none => simp
        | some t => simp

theorem lookup_append_last (k v : Str) (l1 l2 : List (Str × Str))
    (h : ∀ b ∈ l1, b.1 ≠ k) : (l1 ++ (k, v) :: l2).lookup k = some v := by
  induction l1 with
  | nil => simp [List.lookup_cons]
  | cons a as ih =>
    have ha : a.1 ≠ k := h a (List.mem_cons_self _ _)
    have hk : (k == a.1) = false := by
      simpa using fun e => ha e.symm
    obtain ⟨a1, a2⟩ := a
    rw [List.cons_append, List.lookup_cons]
    simp only at hk
    rw [hk]
    exact ih (fun b hb => h b (List.mem_cons_of_mem _ hb))

/-- In the map of a list of bindings a name maps to the text of its last
binding. -/
theorem paramsOf_last (bs pre post : List (Str × Str)) (k v : Str)
    (e : bs = pre ++ (k, v) :: post) (h : ∀ b ∈ post, b.1 ≠ k) :
    mapGet (paramsOf bs) k = some v := by
  have hne : bs.isEmpty = false := by
    rw [e]
    cases pre <;> rfl
  unfold paramsOf
  simp only [hne, Bool.false_eq_true, if_false, mapGet]
  rw [e, List.reverse_append, List.reverse_cons, List.append_assoc, List.singleton_append]
  exact lookup_append_last k v _ _ (fun b hb => h b (List.mem_reverse.1 hb))

/-- C21: when the segments `segs` of the looked-up path resolve one by one
from the root, visiting the nodes `visited` and arriving at `m`, and the
resolution of the next segment fails at `m`, the `pathParams` that `findRoute`
returns with the recorded wildcard node is the map of all the bindings made at
the visited nodes, in the order of the walk, wherever these nodes lie in the
tree: nothing is dropped by the fallback, and a name maps to the text of the
last binding made for it.  With only `/a/*` (handler `h1`) and `/a/b/:id/c`
(handler `h2`) registered, `findRoute(GET, /a/b/5/x)` returns the node of
`/a/*` with `pathParams = {id: 5}`, the binding made at the node `:id` below
`b`. -/
theorem C21_params_survive_fallback (re : Regexp) :
    (∀ (r : router) (method path : Str) (root : node) (segs : List Str) (seg : Str)
      (rest : List Str) (visited : List node) (m : node),
      r.trees method = some root → path ≠ ['/'] → split (trim path) = segs ++ seg :: rest →
      Descends re root segs visited m → loopStops re m seg = true →
      findRoute re r method path =
        .ok ((lastStar (visited ++ [m])).map
          (fun s => ⟨s, paramsOf (bindingsAlong visited segs)⟩)) ∧
      (∀ pre k v post, bindingsAlong visited segs = pre ++ (k, v) :: post →
        (∀ b ∈ post, b.1 ≠ k) →
        mapGet (paramsOf (bindingsAlong visited segs)) k = some v)) ∧
    (∀ h1 h2 : HandleFunc,
      findRoute re (exec re newRouter [⟨"GET".toList, "/a/*".toList, h1⟩,
          ⟨"GET".toList, "/a/b/:id/c".toList, h2⟩]) "GET".toList "/a/b/5/x".toList =
        .ok (some ⟨⟨"*".toList, none, none, none, none, h1⟩,
          mapSet none "id".toList "5".toList⟩) ∧
      routeNode (exec re newRouter [⟨"GET".toList, "/a/*".toList, h1⟩,
          ⟨"GET".toList, "/a/b/:id/c".toList, h2⟩]) "GET".toList
          ["a".toList, "*".toList] =
        some ⟨"*".toList, none, none, none, none, h1⟩ ∧
      ((routeNode (exec re newRouter [⟨"GET".toList, "/a/*".toList, h1⟩,
          ⟨"GET".toList, "/a/b/:id/c".toList, h2⟩]) "GET".toList
          ["a".toList, "b".toList, ":id".toList]).map (fun x => x.path)) =
        some ":id".toList) := by
  refine ⟨?_, ?_⟩
  · intro r method path root segs seg rest visited m hroot hpath hsplit hd hstop
    refine ⟨?_, fun pre k v post e h => paramsOf_last _ pre post k v e h⟩
    have hw := walk_fallback_params re seg rest m hstop segs root visited hd none none
    unfold findRoute
    rw [hroot]
    simp only [hpath, if_false]
    rw [hsplit, hw, foldl_mapSet_none]
    cases lastStar (visited ++ [m]) <;> rfl
  · intro h1 h2
    exact ⟨rfl, rfl, rfl⟩

/-- C21 (witness): the router of `/a/*` and `/a/b/:id/c`, the path
`/a/b/5/x`: the segments `a`, `b`, `5` resolve and `x` does not. -/
theorem C21_params_survive_fallback_witness :
    ∃ (root n1 n2 n3 : node),
      (exec testRegexp newRouter [⟨"GET".toList, "/a/*".toList, some 1⟩,
          ⟨"GET".toList, "/a/b/:id/c".toList, some 2⟩]).trees "GET".toList = some root ∧
      Descends testRegexp root ["a".toList, "b".toList, "5".toList] [root, n1, n2] n3 ∧
      loopStops testRegexp n3 "x".toList = true ∧
      bindingsAlong [root, n1, n2] ["a".toList, "b".toList, "5".toList] =
        [("id".toList, "5".toList)] ∧
      lastStar ([root, n1, n2] ++ [n3]) = n1.starChild ∧
      findRoute testRegexp (exec testRegexp newRouter [⟨"GET".toList, "/a/*".toList, some 1⟩,
          ⟨"GET".toList, "/a/b/:id/c".toList, some 2⟩]) "GET".toList "/a/b/5/x".toList =
        .ok ((lastStar ([root, n1, n2] ++ [n3])).map
          (fun s => ⟨s, paramsOf (bindingsAlong [root, n1, n2]
            ["a".toList, "b".toList, "5".toList])⟩)) :=
  have hd : Descends testRegexp
      (rootOf (exec testRegexp newRouter [⟨"GET".toList, "/a/*".toList, some 1⟩,
          ⟨"GET".toList, "/a/b/:id/c".toList, some 2⟩]) "GET".toList)
      ["a".toList, "b".toList, "5".toList] _ _ :=
    descends_cons rfl (descends_cons rfl (descends_cons rfl (descends_nil _ _)))
  ⟨_, _, _, _, rfl, hd, rfl, rfl, rfl,
    ((C21_params_survive_fallback testRegexp).1
      (exec testRegexp newRouter [⟨"GET".toList, "/a/*".toList, some 1⟩,
        ⟨"GET".toList, "/a/b/:id/c".toList, some 2⟩]) "GET".toList "/a/b/5/x".toList
      _ ["a".toList, "b".toList, "5".toList] "x".toList [] _ _
      rfl (by decide) (by decide) hd rfl).1⟩

/-! ### Two registrations in either order -/

theorem childOrCreate_handler (re : Regexp) (n : node) (f : HandleFunc) (seg : Str) :
    childOrCreate re { n with handler := f } seg = childOrCreate re n seg := rfl

theorem withChild_handler_comm (n : node) (f : HandleFunc) (s : Slot) (c : node) :
    node.withChild { n with handler := f } s c = { n.withChild s c with handler := f } := by
  cases s <;> rfl

/-- The loop of `addRoute` over at least one segment does not read the
handler of the node it starts from, and keeps it. -/
theorem addSegs_handler (re : Regexp) (path : Str) (h : HandleFunc) (seg : Str)
    (segs : List Str) (n : node) (f : HandleFunc) :
    addSegs re path h (seg :: segs) { n with handler := f } =
      ({ (addSegs re path h (seg :: segs) n).1 with handler := f },
        (addSegs re path h (seg :: segs) n).2) := by
  unfold addSegs
  by_cases hne : seg = []
  · simp only [hne, if_true]
  · simp only [hne, if_false]
    rw [childOrCreate_handler]
    cases hcc : childOrCreate re n seg with
    | error e => rfl
    | ok sc =>
      obtain ⟨slot, child⟩ := sc
      simp only
      rw [withChild_handler_comm]

theorem addSegs_cons_handler (re : Regexp) (path : Str) (h : HandleFunc) (seg : Str)
    (segs : List Str) (n : node) :
    (addSegs re path h (seg :: segs) n).1.handler = n.handler := by
  unfold addSegs
  by_cases hne : seg = []
  · simp only [hne, if_true]
  · simp only [hne, if_false]
    cases hcc : childOrCreate re n seg with
    | error e => rfl
    | ok sc =>
      obtain ⟨slot, child⟩ := sc
      exact withChild_handler _ _ _

theorem addSegs_nil_ok (re : Regexp) (path : Str) (h : HandleFunc) (n : node)
    (hn : n.handler = none) :
    addSegs re path h [] n = ({ n with handler := h }, none) := by
  simp [addSegs, hn]

theorem addSegs_nil_handler (re : Regexp) (path : Str) (h : HandleFunc) (n : node)
    (hok : (addSegs re path h [] n).2 = none) : n.handler = none := by
  cases hx : n.handler with
  | none => rfl
  | some v => simp [addSegs, hx] at hok

theorem mapSet_mapSet_same {α : Type} (m : Option (Str → Option α)) (k : Str) (x y : α) :
    mapSet (mapSet m k x) k y = mapSet m k y := by
  unfold mapSet
  simp only [Option.some.injEq]
  funext z
  by_cases hz : z = k <;> simp [hz]

theorem mapSet_comm {α : Type} (m : Option (Str → Option α)) (k1 k2 : Str) (x y : α)
    (h : k1 ≠ k2) : mapSet (mapSet m k1 x) k2 y = mapSet (mapSet m k2 y) k1 x := by
  unfold mapSet
  simp only [Option.some.injEq]
  funext z
  by_cases h1 : z = k1
  · have h2 : z ≠ k2 := fun e => h (h1.symm.trans e)
    simp [h1, h]
  · by_cases h2 : z = k2
    · simp [h2, Ne.symm h]
    · simp [h1, h2]

theorem withChild_withChild_same (n : node) (s : Slot) (x y : node) :
    (n.withChild s x).withChild s y = n.withChild s y := by
  cases s with
  | static key =>
    simp only [node.withChild]
    rw [mapSet_mapSet_same]
  | star => rfl
  | param => rfl
  | reg => rfl

theorem withChild_comm (n : node) (s t : Slot) (x y : node) (h : s ≠ t) :
    (n.withChild s x).withChild t y = (n.withChild t y).withChild s x := by
  cases s with
  | static k1 =>
    cases t with
    | static k2 =>
      have hk : k1 ≠ k2 := fun e => h (by rw [e])
      simp only [node.withChild]
      rw [mapSet_comm _ _ _ _ _ hk]
    | star => rfl
    | param => rfl
    | reg => rfl
  | star =>
    cases t with
    | star => exact absurd rfl h
    | static k2 => rfl
    | param => rfl
    | reg => rfl
  | param =>
    cases t with
    | param => exact absurd rfl h
    | static k2 => rfl
    | star => rfl
    | reg => rfl
  | reg =>
    cases t with
    | reg => exact absurd rfl h
    | static k2 => rfl
    | star => rfl
    | param => rfl

/-- What `childOrCreate` does with a segment is the same after a child was
written in another slot, unless that slot and the slot of the segment are
both special. -/
theorem childOrCreate_withChild_other (re : Regexp) (n x : node) (slot : Slot) (seg : Str)
    (hd : slotOf seg ≠ slot)
    (hsp : ¬ (slot.isSpecial = true ∧ (slotOf seg).isSpecial = true)) :
    childOrCreate re (n.withChild slot x) seg = childOrCreate re n seg := by
  cases hk : slotOf seg with
  | static key =>
    have hkey := slotOf_static_inj seg key hk
    subst hkey
    obtain ⟨h1, h2, h3⟩ := (slotOf_static_iff key).1 hk
    have hget : mapGet (n.withChild slot x).children key = mapGet n.children key := by
      have := withChild_child n slot (.static key) x
      rw [if_neg (fun e => hd (by rw [hk, e]))] at this
      exact this
    unfold childOrCreate
    cases key with
    | nil => simp only [h1]
    | cons c0 rest =>
      have h2' : c0 ≠ ':' := by simpa using h2
      simp only [h1, h2', h3, if_false, hget]
  | star =>
    obtain ⟨h1, h2⟩ := (slotOf_star_iff seg).1 hk
    cases slot with
    | static k =>
      subst h2
      unfold childOrCreate
      simp only [h1]
      rfl
    | star => exact absurd hk hd
    | param => simp [Slot.isSpecial, hk] at hsp
    | reg => simp [Slot.isSpecial, hk] at hsp
  | param =>
    obtain ⟨h1, h2⟩ := (slotOf_param_iff seg).1 hk
    cases slot with
    | static k =>
      unfold childOrCreate
      simp only [h1]
      cases seg with
      | nil => rfl
      | cons c0 rest =>
        have h2' : c0 = ':' := by simpa using h2
        subst h2'
        rfl
    | param => exact absurd hk hd
    | star => simp [Slot.isSpecial, hk] at hsp
    | reg => simp [Slot.isSpecial, hk] at hsp
  | reg =>
    have h1 := (slotOf_reg_iff seg).1 hk
    cases slot with
    | static k =>
      unfold childOrCreate
      cases hr : matchRegs seg with
      | none => simp [hr] at h1
      | some regs => rfl
    | reg => exact absurd hk hd
    | star => simp [Slot.isSpecial, hk] at hsp
    | param => simp [Slot.isSpecial, hk] at hsp

/-- On a node as registration leaves it, `childOrCreate` returns the child
that was written in the slot of the segment. -/
theorem childOrCreate_withChild_same {re : Regexp} {n c x : node} {seg : Str} {slot : Slot}
    (hl : Local re n) (hcc : childOrCreate re n seg = .ok (slot, c)) (hp : x.path = c.path) :
    childOrCreate re (n.withChild slot x) seg = .ok (slot, x) := by
  obtain ⟨hne, hslot, _, hreg, hparam, _⟩ := childOrCreate_ok hcc
  have hl' := local_withChild hl hcc hp
  subst hslot
  refine childOrCreate_of_step hl' (step_withChild_same n seg x hne ?_)
  intro hk
  rw [hp]
  rcases hk with hk | hk
  · exact (hparam hk).1
  · exact (hreg hk).1

/-- When `childOrCreate` returns at a node in whose slot for the segment a
child was just written for another segment, the two segments are the same
text and the child returned is the one written. -/
theorem childOrCreate_same_slot {re : Regexp} {n cA x cB : node} {sA sB : Str}
    {slotA slotB : Slot}
    (hccA : childOrCreate re n sA = .ok (slotA, cA)) (hp : x.path = cA.path)
    (hccB : childOrCreate re (n.withChild slotA x) sB = .ok (slotB, cB))
    (hs : slotOf sB = slotA) : sB = sA ∧ cB = x ∧ slotB = slotA := by
  obtain ⟨_, hslotA, _, hregA, hparamA, _⟩ := childOrCreate_ok hccA
  obtain ⟨_, hslotB, hchildB, hregB, hparamB, _⟩ := childOrCreate_ok hccB
  have hsl : slotB = slotA := by rw [hslotB, hs]
  subst hsl
  have hcx : cB = x := by
    have hw : (n.withChild slotB x).child slotB = some x := by
      rw [withChild_child, if_pos rfl]
    rcases hchildB with hc | ⟨hc, _⟩
    · rw [hw] at hc
      exact (Option.some.inj hc).symm
    · rw [hw] at hc
      cases hc
  refine ⟨?_, hcx, rfl⟩
  cases hk : slotOf sB with
  | static key =>
    have e1 := slotOf_static_inj sB key hk
    have e2 := slotOf_static_inj sA key (by rw [← hslotA, hs.symm, hk])
    rw [← e1, ← e2]
  | star =>
    have e1 := ((slotOf_star_iff sB).1 hk).2
    have e2 := ((slotOf_star_iff sA).1 (by rw [← hslotA, hs.symm, hk])).2
    rw [e1, e2]
  | param =>
    have hB : slotB = .param := by rw [hslotB, hk]
    have e1 := (hparamB hB).1
    have e2 := (hparamA hB).1
    rw [← e1, hcx, hp, e2]
  | reg =>
    have hB : slotB = .reg := by rw [hslotB, hk]
    have e1 := (hregB hB).1
    have e2 := (hregA hB).1
    rw [← e1, hcx, hp, e2]

/-- When `childOrCreate` returns for a segment at a node in which a child
was written in another slot, the two slots are not both special. -/
theorem childOrCreate_not_both_special {re : Regexp} {n x cB : node} {sB : Str}
    {slotA slotB : Slot}
    (hccB : childOrCreate re (n.withChild slotA x) sB = .ok (slotB, cB))
    (hs : slotOf sB ≠ slotA) :
    ¬ (slotA.isSpecial = true ∧ (slotOf sB).isSpecial = true) := by
  obtain ⟨_, hslotB, _, hregB, hparamB, hstarB⟩ := childOrCreate_ok hccB
  rw [← hslotB] at hs ⊢
  rintro ⟨h1, h2⟩
  cases slotA with
  | static k => simp [Slot.isSpecial] at h1
  | star =>
    cases slotB with
    | static k => simp [Slot.isSpecial] at h2
    | star => exact hs rfl
    | param => simpa [node.withChild] using (hparamB rfl).2.1
    | reg => simpa [node.withChild] using (hregB rfl).2.1
  | param =>
    cases slotB with
    | static k => simp [Slot.isSpecial] at h2
    | param => exact hs rfl
    | star => simpa [node.withChild] using (hstarB rfl).1
    | reg => simpa [node.withChild] using (hregB rfl).2.2.1
  | reg =>
    cases slotB with
    | static k => simp [Slot.isSpecial] at h2
    | reg => exact hs rfl
    | star => simpa [node.withChild] using (hstarB rfl).2
    | param => simpa [node.withChild] using (hparamB rfl).2.2

/-- Two runs of the loop of `addRoute` from a node of a tree built by
registration, unless they are over the same segments with a `nil` handler
first and a handler that is not `nil` second: when the first and then the
second return, so do the second and then the first, and the node they leave
is the same. -/
theorem addSegs_comm (re : Regexp) (pA pB : Str) (hA hB : HandleFunc) (segsA : List Str) :
    ∀ (segsB : List Str) (n : node), WF re n →
      (hA ≠ none ∨ hB = none ∨ segsA ≠ segsB) →
      (addSegs re pA hA segsA n).2 = none →
      (addSegs re pB hB segsB (addSegs re pA hA segsA n).1).2 = none →
      (addSegs re pB hB segsB n).2 = none ∧
      (addSegs re pA hA segsA (addSegs re pB hB segsB n).1).2 = none ∧
      (addSegs re pA hA segsA (addSegs re pB hB segsB n).1).1 =
        (addSegs re pB hB segsB (addSegs re pA hA segsA n).1).1 := by
  induction segsA with
  | nil =>
    intro segsB n _ hcond okA okB
    have hnone := addSegs_nil_handler re pA hA n okA
    rw [addSegs_nil_ok re pA hA n hnone] at okB ⊢
    simp only at okB ⊢
    cases segsB with
    | nil =>
      have hAn : hA = none := addSegs_nil_handler re pB hB _ okB
      have hBn : hB = none := by
        rcases hcond with h | h | h
        · exact absurd hAn h
        · exact h
        · exact absurd rfl h
      subst hAn hBn
      rw [addSegs_nil_ok re pB none n hnone]
      exact ⟨rfl, rfl, rfl⟩
    | cons sB restB =>
      rw [addSegs_handler] at okB ⊢
      simp only at okB ⊢
      have hh : (addSegs re pB hB (sB :: restB) n).1.handler = none := by
        rw [addSegs_cons_handler, hnone]
      rw [addSegs_nil_ok re pA hA _ hh]
      exact ⟨okB, rfl, rfl⟩
  | cons sA restA ih =>
    intro segsB n hn hcond okA okB
    have hneA : sA ≠ [] := by
      intro e
      simp [addSegs, e] at okA
    cases hccA : childOrCreate re n sA with
    | error e => simp [addSegs, hneA, hccA] at okA
    | ok scA =>
      obtain ⟨slotA, cA⟩ := scA
      rw [addSegs_cons_ok pA hA restA hneA hccA] at okA okB ⊢
      simp only at okA okB ⊢
      obtain ⟨_, hslotA, hchildA, _, _, _⟩ := childOrCreate_ok hccA
      have hwcA : WF re cA := by
        rcases hchildA with hc | ⟨_, hc⟩
        · exact wf_child hn hc
        · rw [hc]; exact wf_newNode re sA
      have hpA : (addSegs re pA hA restA cA).1.path = cA.path := addSegs_path _ _ _ _ _
      cases segsB with
      | nil =>
        have hnone : n.handler = none := by
          have := addSegs_nil_handler re pB hB _ okB
          rwa [withChild_handler] at this
        have hnone' : (n.withChild slotA (addSegs re pA hA restA cA).1).handler = none := by
          rw [withChild_handler, hnone]
        rw [addSegs_nil_ok re pB hB n hnone, addSegs_nil_ok re pB hB _ hnone']
        refine ⟨rfl, ?_, ?_⟩
        · rw [addSegs_handler, addSegs_cons_ok pA hA restA hneA hccA]
          exact okA
        · rw [addSegs_handler, addSegs_cons_ok pA hA restA hneA hccA]
      | cons sB restB =>
        have hneB : sB ≠ [] := by
          intro e
          simp [addSegs, e] at okB
        cases hccB : childOrCreate re (n.withChild slotA (addSegs re pA hA restA cA).1) sB with
        | error e => simp [addSegs, hneB, hccB] at okB
        | ok scB =>
          obtain ⟨slotB, cB⟩ := scB
          rw [addSegs_cons_ok pB hB restB hneB hccB] at okB ⊢
          simp only at okB ⊢
          by_cases hs : slotOf sB = slotA
          · obtain ⟨hseg, hcx, hsl⟩ := childOrCreate_same_slot hccA hpA hccB hs
            subst hseg hcx hsl
            have hcond' : hA ≠ none ∨ hB = none ∨ restA ≠ restB := by
              rcases hcond with h | h | h
              · exact Or.inl h
              · exact Or.inr (Or.inl h)
              · exact Or.inr (Or.inr (fun e => h (by rw [e])))
            obtain ⟨i1, i2, i3⟩ := ih restB cA hwcA hcond' okA okB
            have hpB : (addSegs re pB hB restB cA).1.path = cA.path := addSegs_path _ _ _ _ _
            have hccA' := childOrCreate_withChild_same (wf_local hn) hccA hpB
            rw [addSegs_cons_ok pB hB restB hneB hccA]
            simp only
            rw [addSegs_cons_ok pA hA restA hneA hccA']
            simp only
            refine ⟨i1, i2, ?_⟩
            rw [withChild_withChild_same, withChild_withChild_same, i3]
          · have hnb := childOrCreate_not_both_special hccB hs
            have hccB0 : childOrCreate re n sB = .ok (slotB, cB) := by
              rw [← childOrCreate_withChild_other re n _ slotA sB hs hnb]
              exact hccB
            obtain ⟨_, hslotB, _, _, _, _⟩ := childOrCreate_ok hccB0
            have hs' : slotOf sA ≠ slotB := by
              rw [← hslotA, hslotB]
              exact fun e => hs e.symm
            have hnb' : ¬ (slotB.isSpecial = true ∧ (slotOf sA).isSpecial = true) := by
              rw [← hslotA, hslotB]
              exact fun ⟨a, b⟩ => hnb ⟨b, a⟩
            have hccA' : childOrCreate re
                (n.withChild slotB (addSegs re pB hB restB cB).1) sA = .ok (slotA, cA) := by
              rw [childOrCreate_withChild_other re n _ slotB sA hs' hnb']
              exact hccA
            rw [addSegs_cons_ok pB hB restB hneB hccB0]
            simp only
            rw [addSegs_cons_ok pA hA restA hneA hccA']
            simp only
            refine ⟨okB, okA, ?_⟩
            have hne : slotB ≠ slotA := by
              rw [hslotB]
              exact hs
            exact withChild_comm n slotB slotA _ _ hne

theorem split_inj (x : Str) : ∀ y : Str, split x = split y → x = y := by
  induction x with
  | nil =>
    intro y h
    have h0 : split [] = [[]] := by decide
    rw [h0] at h
    exact (split_eq_singleton y [] h.symm).symm
  | cons c cs ih =>
    intro y h
    by_cases hc : c = '/'
    · subst hc
      rw [split_slash_cons] at h
      cases y with
      | nil =>
        have h0 : split [] = [[]] := by decide
        rw [h0] at h
        simp only [List.cons.injEq, true_and] at h
        exact absurd h (split_ne_nil cs)
      | cons d ds =>
        by_cases hd : d = '/'
        · subst hd
          rw [split_slash_cons] at h
          simp only [List.cons.injEq, true_and] at h
          rw [ih ds h]
        · rw [split_cons_of_ne d ds hd] at h
          simp at h
    · rw [split_cons_of_ne c cs hc] at h
      cases y with
      | nil =>
        have h0 : split [] = [[]] := by decide
        rw [h0] at h
        simp at h
      | cons d ds =>
        by_cases hd : d = '/'
        · subst hd
          rw [split_slash_cons] at h
          simp at h
        · rw [split_cons_of_ne d ds hd] at h
          simp only [List.cons.injEq] at h
          obtain ⟨⟨h1, h2⟩, h3⟩ := h
          have hcs : split cs = (split cs).headD [] :: (split cs).tail := by
            cases hs : split cs with
            | nil => exact absurd hs (split_ne_nil cs)
            | cons a as => rfl
          have hds : split ds = (split ds).headD [] :: (split ds).tail := by
            cases hs : split ds with
            | nil => exact absurd hs (split_ne_nil ds)
            | cons a as => rfl
          have e : split cs = split ds := by rw [hcs, hds, h2, h3]
          rw [h1, ih ds e]

/-- Two paths that pass the checks of `addRoute` on the whole path and have
the same segments are the same path. -/
theorem segsOf_inj {p q : Str} (hp : Valid p) (hq : Valid q) (h : segsOf p = segsOf q) :
    p = q := by
  obtain ⟨_, hp2, _⟩ := hp
  obtain ⟨_, hq2, _⟩ := hq
  cases p with
  | nil => simp at hp2
  | cons a as =>
    cases q with
    | nil => simp at hq2
    | cons b bs =>
      have ha : a = '/' := by simpa using hp2
      have hb : b = '/' := by simpa using hq2
      subst ha hb
      unfold segsOf at h
      rw [split_slash_cons, split_slash_cons] at h
      simp only [List.tail_cons] at h
      by_cases h1 : as = []
      · subst h1
        by_cases h2 : bs = []
        · subst h2; rfl
        · have : ('/' :: bs) ≠ ['/'] := by simpa using h2
          simp only [this, if_false, if_true] at h
          exact absurd h.symm (split_ne_nil bs)
      · have h1' : ('/' :: as) ≠ ['/'] := by simpa using h1
        by_cases h2 : bs = []
        · subst h2
          simp only [h1', if_false, if_true] at h
          exact absurd h (split_ne_nil as)
        · have h2' : ('/' :: bs) ≠ ['/'] := by simpa using h2
          simp only [h1', h2', if_false] at h
          rw [split_inj as bs h]

theorem rootOf_setTree (r : router) (m m' : Str) (x : node) :
    rootOf (r.setTree m x) m' = if m' = m then x else rootOf r m' := by
  unfold rootOf
  rw [setTree_trees]
  split_ifs <;> rfl

theorem setTree_comm (r : router) (m1 m2 : Str) (x y : node) (h : m1 ≠ m2) :
    (r.setTree m1 x).setTree m2 y = (r.setTree m2 y).setTree m1 x := by
  apply router_ext
  intro m
  simp only [setTree_trees]
  by_cases h2 : m = m2
  · subst h2
    have h1 : m ≠ m1 := fun e => h e.symm
    simp [h1]
  · simp [h2]

/-- Two calls of `addRoute` on a router built by registration, unless they
are for the same method and path with a `nil` handler first and a handler
that is not `nil` second: when the first and then the second return, so do
the second and then the first, and the router they leave is the same. -/
theorem addRoute_comm (re : Regexp) (r : router) (hr : r.WF re) (v1 p1 v2 p2 : Str)
    (h1 h2 : HandleFunc) (hcond : h1 ≠ none ∨ h2 = none ∨ v1 ≠ v2 ∨ p1 ≠ p2)
    (okA : (addRoute re r v1 p1 h1).2 = none)
    (okB : (addRoute re (addRoute re r v1 p1 h1).1 v2 p2 h2).2 = none) :
    (addRoute re r v2 p2 h2).2 = none ∧
    (addRoute re (addRoute re r v2 p2 h2).1 v1 p1 h1).2 = none ∧
    (addRoute re (addRoute re r v2 p2 h2).1 v1 p1 h1).1 =
      (addRoute re (addRoute re r v1 p1 h1).1 v2 p2 h2).1 := by
  have hvA : Valid p1 := addRoute_ok_valid okA
  have hvB : Valid p2 := addRoute_ok_valid okB
  have eA := addRoute_of_valid re r v1 p1 h1 hvA
  have eB := addRoute_of_valid re r v2 p2 h2 hvB
  have eAB := addRoute_of_valid re
    (r.setTree v1 (addSegs re p1 h1 (segsOf p1) (rootOf r v1)).1) v2 p2 h2 hvB
  have eBA := addRoute_of_valid re
    (r.setTree v2 (addSegs re p2 h2 (segsOf p2) (rootOf r v2)).1) v1 p1 h1 hvA
  rw [eA] at okA okB ⊢
  rw [eB]
  simp only at okA okB ⊢
  rw [eAB] at okB ⊢
  rw [eBA]
  simp only at okB ⊢
  rw [rootOf_setTree] at okB ⊢
  rw [rootOf_setTree]
  by_cases hv : v2 = v1
  · subst hv
    simp only [if_true] at okB ⊢
    have hcond' : h1 ≠ none ∨ h2 = none ∨ segsOf p1 ≠ segsOf p2 := by
      rcases hcond with h | h | h | h
      · exact Or.inl h
      · exact Or.inr (Or.inl h)
      · exact absurd rfl h
      · exact Or.inr (Or.inr (fun e => h (segsOf_inj hvA hvB e)))
    obtain ⟨c1, c2, c3⟩ := addSegs_comm re p1 p2 h1 h2 (segsOf p1) (segsOf p2)
      (rootOf r v2) (wf_rootOf hr v2) hcond' okA okB
    refine ⟨c1, c2, ?_⟩
    rw [setTree_setTree, setTree_setTree, c3]
  · have hv' : v1 ≠ v2 := fun e => hv e.symm
    simp only [hv, hv', if_false] at okB ⊢
    exact ⟨okB, okA, setTree_comm r v2 v1 _ _ hv⟩

/-- C22 (counterexample): on the empty router `addRoute(GET, /a, nil)` and
then `addRoute(GET, /a, h)` both return; in the opposite order
`addRoute(GET, /a, h)` returns and `addRoute(GET, /a, nil)` panics with the
path conflict. -/
theorem C22_counterexample :
    (addRoute testRegexp newRouter "GET".toList "/a".toList none).2 = none ∧
    (addRoute testRegexp (addRoute testRegexp newRouter "GET".toList "/a".toList none).1
      "GET".toList "/a".toList (some 2)).2 = none ∧
    (addRoute testRegexp newRouter "GET".toList "/a".toList (some 2)).2 = none ∧
    (addRoute testRegexp (addRoute testRegexp newRouter "GET".toList "/a".toList (some 2)).1
      "GET".toList "/a".toList none).2 = some (.pathConflict "/a".toList) := by
  refine ⟨by decide, by decide, by decide, by decide⟩

/-- C22 (amended): for every router obtained from `newRouter()` by `addRoute`
calls and every two registrations `(v1, p1, h1)` and `(v2, p2, h2)` other
than two registrations of the same method and path with `h1` `nil` and `h2`
not `nil`: when `addRoute` of the first and then of the second both return,
`addRoute` of the second and then of the first both return too, the router
they leave is equal to the other one (the same trees, with maps compared by
their entries), and `findRoute` gives the same result on both for every
method and path. -/
theorem C22_order_independent (re : Regexp) (calls : List Call) (v1 p1 v2 p2 : Str)
    (h1 h2 : HandleFunc)
    (hcond : h1 ≠ none ∨ h2 = none ∨ v1 ≠ v2 ∨ p1 ≠ p2)
    (okA : (addRoute re (exec re newRouter calls) v1 p1 h1).2 = none)
    (okB : (addRoute re (addRoute re (exec re newRouter calls) v1 p1 h1).1 v2 p2 h2).2 = none) :
    (addRoute re (exec re newRouter calls) v2 p2 h2).2 = none ∧
    (addRoute re (addRoute re (exec re newRouter calls) v2 p2 h2).1 v1 p1 h1).2 = none ∧
    (addRoute re (addRoute re (exec re newRouter calls) v2 p2 h2).1 v1 p1 h1).1 =
      (addRoute re (addRoute re (exec re newRouter calls) v1 p1 h1).1 v2 p2 h2).1 ∧
    ∀ method path,
      findRoute re (addRoute re (addRoute re (exec re newRouter calls) v2 p2 h2).1 v1 p1 h1).1
          method path =
        findRoute re (addRoute re (addRoute re (exec re newRouter calls) v1 p1 h1).1 v2 p2 h2).1
          method path := by
  have hr : (exec re newRouter calls).WF re := exec_wf calls _ (wf_newRouter re)
  obtain ⟨c1, c2, c3⟩ := addRoute_comm re _ hr v1 p1 v2 p2 h1 h2 hcond okA okB
  refine ⟨c1, c2, c3, ?_⟩
  intro method path
  rw [c3]

/-- C22 (witness): after `/user`, the registrations of `/user/:id(.*)/a` and
of `/user/:id(.*)/b`. -/
theorem C22_order_independent_witness :
    (addRoute testRegexp (exec testRegexp newRouter [⟨"GET".toList, "/user".toList, some 1⟩])
      "GET".toList "/user/:id(.*)/a".toList (some 2)).2 = none ∧
    (addRoute testRegexp
      (addRoute testRegexp (exec testRegexp newRouter [⟨"GET".toList, "/user".toList, some 1⟩])
        "GET".toList "/user/:id(.*)/a".toList (some 2)).1
      "GET".toList "/user/:id(.*)/b".toList (some 3)).2 = none ∧
    (addRoute testRegexp
      (addRoute testRegexp (exec testRegexp newRouter [⟨"GET".toList, "/user".toList, some 1⟩])
        "GET".toList "/user/:id(.*)/b".toList (some 3)).1
      "GET".toList "/user/:id(.*)/a".toList (some 2)).1 =
    (addRoute testRegexp
      (addRoute testRegexp (exec testRegexp newRouter [⟨"GET".toList, "/user".toList, some 1⟩])
        "GET".toList "/user/:id(.*)/a".toList (some 2)).1
      "GET".toList "/user/:id(.*)/b".toList (some 3)).1 :=
  ⟨by decide, by decide,
    (C22_order_independent testRegexp [⟨"GET".toList, "/user".toList, some 1⟩]
      "GET".toList "/user/:id(.*)/a".toList "GET".toList "/user/:id(.*)/b".toList
      (some 2) (some 3) (Or.inl (by decide)) (by decide) (by decide)).2.2.1⟩

end web
